import Mathlib

/-!
Verification of the noms value codec, Struct value operations, structural
diff, lazy list leaf sequences, and meta-sequence reading, against a shallow
embedding of the repository's Go sources (struct.go, value_decoder.go,
list_lazy_leaf_sequence.go).

Buffers are byte lists; a Go string is modelled as its byte list; counts use
the LEB128-style varint the spec describes.  The byte-level primitive codec
(binaryNomsReader / binaryNomsWriter) is not part of the provided sources, so
its functions are modelled from the spec (section 6: tag byte, varint counts,
length-prefixed strings, fixed-width hashes).
-/

namespace Noms

/-- A byte. Naturals are used; well-formed buffers keep them below 256, but
none of the algorithms depend on that bound. -/
abbrev Byte := Nat

/-- A byte buffer, as produced by binaryNomsWriter and consumed by
binaryNomsReader. -/
abbrev Bytes := List Byte

/-- A Go string (struct name or field name), as its byte sequence. -/
abbrev Name := List Byte

/-! ## Varint counts

Modelled from the spec: "Variable-length counts: unsigned LEB-style varint."
Low 7 bits per byte, high bit set on every byte except the last. -/

/-- Fuel-bounded worker for `writeCount`; fuel `n + 1` always suffices. -/
def writeCountAux : Nat → Nat → Bytes
  | 0, n => [n]
  | fuel + 1, n => if n < 128 then [n] else (n % 128 + 128) :: writeCountAux fuel (n / 128)

/-- Modelled from the spec: binaryNomsWriter.writeCount, the LEB128-style
varint encoding of an unsigned count. -/
def writeCount (n : Nat) : Bytes := writeCountAux n n

/-- Modelled from the spec: binaryNomsReader.readCount, decoding an
LEB128-style varint from the front of the buffer. -/
def readCount : Bytes → Option (Nat × Bytes)
  | [] => none
  | b :: rest =>
    if b < 128 then some (b, rest)
    else
      match readCount rest with
      | some (m, rest') => some (b - 128 + 128 * m, rest')
      | none => none

theorem writeCountAux_eq (n : Nat) : ∀ fuel, n ≤ fuel → writeCountAux fuel n = writeCountAux n n := by
  induction n using Nat.strong_induction_on with
  | _ n ih =>
    intro fuel hf
    cases fuel with
    | zero =>
      have hn0 : n = 0 := by omega
      subst hn0
      rfl
    | succ f =>
      cases n with
      | zero => simp [writeCountAux]
      | succ m =>
        by_cases hn : m + 1 < 128
        · simp [writeCountAux, hn]
        · have hdiv : (m + 1) / 128 < m + 1 := Nat.div_lt_self (by omega) (by norm_num)
          simp only [writeCountAux, hn, if_false, List.cons.injEq, true_and]
          rw [ih ((m + 1) / 128) hdiv f (by omega), ih ((m + 1) / 128) hdiv m (by omega)]

theorem writeCount_unfold (n : Nat) :
    writeCount n = if n < 128 then [n] else (n % 128 + 128) :: writeCount (n / 128) := by
  by_cases hn : n < 128
  · cases n with
    | zero => simp [writeCount, writeCountAux]
    | succ m => simp [writeCount, writeCountAux, hn]
  · have hdiv : n / 128 < n := Nat.div_lt_self (by omega) (by norm_num)
    cases n with
    | zero => omega
    | succ m =>
      simp only [writeCount, writeCountAux, hn, if_false, List.cons.injEq, true_and]
      exact writeCountAux_eq ((m + 1) / 128) m (by omega)

theorem readCount_writeCount (n : Nat) (rest : Bytes) :
    readCount (writeCount n ++ rest) = some (n, rest) := by
  induction n using Nat.strong_induction_on with
  | _ n ih =>
    by_cases hn : n < 128
    · rw [writeCount_unfold]
      simp [readCount, hn]
    · have hdiv : n / 128 < n := Nat.div_lt_self (by omega) (by norm_num)
      have hmod : ¬ (n % 128 + 128 < 128) := by omega
      rw [writeCount_unfold, if_neg hn]
      simp only [List.cons_append, readCount, hmod, if_false, List.append_eq]
      rw [ih (n / 128) hdiv]
      simp only [Option.some.injEq, Prod.mk.injEq, and_true]
      omega

/-! ## Strings, bools, numbers, hashes -/

/-- Modelled from the spec: binaryNomsWriter.writeString, a length-prefixed
byte sequence ("Strings: length-prefixed UTF-8 bytes"). -/
def writeString (s : Name) : Bytes := writeCount s.length ++ s

/-- Modelled from the spec: binaryNomsReader.readString. -/
def readString (bs : Bytes) : Option (Name × Bytes) :=
  match readCount bs with
  | some (len, rest) =>
    if len ≤ rest.length then some (rest.take len, rest.drop len) else none
  | none => none

/-- Modelled from the spec: binaryNomsReader.skipString, advancing past a
length-prefixed string without retaining it. -/
def skipString (bs : Bytes) : Option Bytes :=
  match readString bs with
  | some (_, rest) => some rest
  | none => none

/-- Modelled from the spec: valueDecoder.copyString, copying the raw
length-prefixed span (count bytes included) to a writer. Returns the copied
span and the remaining buffer. -/
def copyString (bs : Bytes) : Option (Bytes × Bytes) :=
  match readString bs with
  | some (_, rest) => some (bs.take (bs.length - rest.length), rest)
  | none => none

theorem readString_writeString (s : Name) (rest : Bytes) :
    readString (writeString s ++ rest) = some (s, rest) := by
  rw [writeString, List.append_assoc, readString, readCount_writeCount]
  simp

theorem skipString_writeString (s : Name) (rest : Bytes) :
    skipString (writeString s ++ rest) = some rest := by
  rw [skipString, readString_writeString]

theorem copyString_writeString (s : Name) (rest : Bytes) :
    copyString (writeString s ++ rest) = some (writeString s, rest) := by
  rw [copyString, readString_writeString]
  simp

/-- Modelled from the spec: binaryNomsReader.readUint8 / readKind's byte read. -/
def readUint8 : Bytes → Option (Nat × Bytes)
  | [] => none
  | b :: rest => some (b, rest)

/-- Modelled from the spec: binaryNomsWriter.writeBool; a bool is one byte,
1 for true and 0 for false. -/
def writeBool (b : Bool) : Bytes := [if b then 1 else 0]

/-- Modelled from the spec: binaryNomsReader.readBool. -/
def readBool (bs : Bytes) : Option (Bool × Bytes) :=
  match readUint8 bs with
  | some (b, rest) => some (b == 1, rest)
  | none => none

theorem readBool_writeBool (b : Bool) (rest : Bytes) :
    readBool (writeBool b ++ rest) = some (b, rest) := by
  cases b <;> rfl

/-- Modelled from the spec: the number payload. The spec only fixes that a
Number is self-delimiting after its tag; the payload is modelled as two
varint-encoded components (matching the mantissa/exponent pair layout). -/
def writeNumber (i j : Nat) : Bytes := writeCount i ++ writeCount j

/-- Modelled from the spec: binaryNomsReader.readNumber. -/
def readNumber (bs : Bytes) : Option ((Nat × Nat) × Bytes) :=
  match readCount bs with
  | some (i, rest) =>
    match readCount rest with
    | some (j, rest') => some ((i, j), rest')
    | none => none
  | none => none

/-- Modelled from the spec: skipping a number advances past both components. -/
def skipNumber (bs : Bytes) : Option Bytes :=
  match readNumber bs with
  | some (_, rest) => some rest
  | none => none

theorem readNumber_writeNumber (i j : Nat) (rest : Bytes) :
    readNumber (writeNumber i j ++ rest) = some ((i, j), rest) := by
  simp [readNumber, writeNumber, List.append_assoc, readCount_writeCount]

/-- Width of a hash in bytes ("fixed-width hash"). -/
def hashByteLen : Nat := 20

/-- Modelled from the spec: writing a hash as its fixed-width big-endian
byte representation. The worker peels one byte per unit of width. -/
def natToBytesBE : Nat → Nat → Bytes
  | 0, _ => []
  | w + 1, n => natToBytesBE w (n / 256) ++ [n % 256]

/-- Modelled from the spec: reading a fixed-width big-endian byte span back
into the hash value. -/
def bytesToNatBE (bs : Bytes) : Nat := bs.foldl (fun acc b => acc * 256 + b) 0

/-- Modelled from the spec: binaryNomsWriter.writeHash. -/
def writeHash (h : Nat) : Bytes := natToBytesBE hashByteLen h

/-- Modelled from the spec: binaryNomsReader.readHash, consuming exactly
`hashByteLen` bytes. -/
def readHash (bs : Bytes) : Option (Nat × Bytes) :=
  if hashByteLen ≤ bs.length then
    some (bytesToNatBE (bs.take hashByteLen), bs.drop hashByteLen)
  else none

/-- Modelled from the spec: binaryNomsReader.skipHash. -/
def skipHash (bs : Bytes) : Option Bytes :=
  match readHash bs with
  | some (_, rest) => some rest
  | none => none

theorem natToBytesBE_length (w n : Nat) : (natToBytesBE w n).length = w := by
  induction w generalizing n with
  | zero => rfl
  | succ w ih => simp [natToBytesBE, ih]

theorem bytesToNatBE_append_natToBytesBE (w a n : Nat) (hn : n < 256 ^ w) :
    (natToBytesBE w n).foldl (fun acc b => acc * 256 + b) a = a * 256 ^ w + n := by
  induction w generalizing a n with
  | zero =>
    simp [natToBytesBE]
    omega
  | succ w ih =>
    have hdiv : n / 256 < 256 ^ w := by
      rw [Nat.div_lt_iff_lt_mul (by norm_num)]
      calc n < 256 ^ (w + 1) := hn
        _ = 256 ^ w * 256 := by ring
    simp only [natToBytesBE, List.foldl_append, ih a (n / 256) hdiv, List.foldl_cons,
      List.foldl_nil]
    have : n % 256 + 256 * (n / 256) = n := Nat.mod_add_div n 256
    rw [pow_succ]
    ring_nf
    omega

theorem readHash_writeHash (h : Nat) (hh : h < 256 ^ hashByteLen) (rest : Bytes) :
    readHash (writeHash h ++ rest) = some (h, rest) := by
  have hlen : (writeHash h).length = hashByteLen := natToBytesBE_length _ _
  rw [readHash]
  have h1 : hashByteLen ≤ (writeHash h ++ rest).length := by
    simp [hlen]
  rw [if_pos h1]
  have htake : (writeHash h ++ rest).take hashByteLen = writeHash h := by
    rw [← hlen, List.take_left]
  have hdrop : (writeHash h ++ rest).drop hashByteLen = rest := by
    rw [← hlen, List.drop_left]
  rw [htake, hdrop, writeHash]
  have := bytesToNatBE_append_natToBytesBE hashByteLen 0 h hh
  simp only [bytesToNatBE, this]
  norm_num

theorem skipHash_writeHash (h : Nat) (hh : h < 256 ^ hashByteLen) (rest : Bytes) :
    skipHash (writeHash h ++ rest) = some rest := by
  rw [skipHash, readHash_writeHash h hh]

end Noms

namespace Noms

/-! ## Kinds

Modelled from the spec: "Every value begins with one tag byte (kind)." The
numbering follows the NomsKind enumeration order the decoder dispatches on;
the claims only rely on the tags being distinct single bytes. -/

/-- The kind tag of a value or type. -/
inductive NomsKind where
  | Bool | Number | String | Blob | Value | List | Map | Ref | Set | Struct | Cycle | Type | Union
deriving DecidableEq, Repr

/-- The tag byte of a kind. -/
def NomsKind.tag : NomsKind → Byte
  | .Bool => 0 | .Number => 1 | .String => 2 | .Blob => 3 | .Value => 4 | .List => 5
  | .Map => 6 | .Ref => 7 | .Set => 8 | .Struct => 9 | .Cycle => 10 | .Type => 11 | .Union => 12

/-- The kind for a tag byte, if any. -/
def kindOfTag : Byte → Option NomsKind
  | 0 => some .Bool | 1 => some .Number | 2 => some .String | 3 => some .Blob
  | 4 => some .Value | 5 => some .List | 6 => some .Map | 7 => some .Ref
  | 8 => some .Set | 9 => some .Struct | 10 => some .Cycle | 11 => some .Type
  | 12 => some .Union | _ => none

/-- valueDecoder.readKind: reads the next tag byte as a kind. An unknown tag
byte is a fatal decoding error, modelled as none. -/
def readKind (bs : Bytes) : Option (NomsKind × Bytes) :=
  match readUint8 bs with
  | some (b, rest) =>
    match kindOfTag b with
    | some k => some (k, rest)
    | none => none
  | none => none

/-- valueDecoder.skipKind: advances past the tag byte. -/
def skipKind (bs : Bytes) : Option Bytes :=
  match readKind bs with
  | some (_, rest) => some rest
  | none => none

theorem kindOfTag_tag (k : NomsKind) : kindOfTag k.tag = some k := by
  cases k <;> rfl

theorem readKind_tag (k : NomsKind) (rest : Bytes) :
    readKind (k.tag :: rest) = some (k, rest) := by
  simp [readKind, readUint8, kindOfTag_tag]

theorem skipKind_tag (k : NomsKind) (rest : Bytes) :
    skipKind (k.tag :: rest) = some rest := by
  rw [skipKind, readKind_tag]

/-- IsPrimitiveKind: the kinds for which MakePrimitiveType is legal
(Bool, Number, String, Blob, Value, Type). -/
def isPrimitiveKind : NomsKind → Bool
  | .Bool | .Number | .String | .Blob | .Value | .Type => true
  | _ => false

/-! ## Type descriptors

The structural type model, mirroring the tagged variants readTypeInner
dispatches on: primitives, compound kinds with 1-2 element types, struct
types (name plus named, optional-flagged fields), unions, and cycle
back-references by struct name. -/

/-- A structural type descriptor. -/
inductive NType where
  | prim (k : NomsKind)
  | list (e : NType)
  | map (k v : NType)
  | ref (e : NType)
  | set (e : NType)
  | strct (name : Name) (fields : List (Name × NType × Bool))
  | union (ts : List NType)
  | cycle (name : Name)

/- Encoding of a type, mirroring what readTypeInner / readStructType /
readUnionType consume: struct types store name, field count, then all field
names, all field types, all optional flags. -/
mutual
/-- Byte encoding of a type descriptor. -/
def writeType : NType → Bytes
  | .prim k => [k.tag]
  | .list e => NomsKind.List.tag :: writeType e
  | .map kt vt => NomsKind.Map.tag :: (writeType kt ++ writeType vt)
  | .ref e => NomsKind.Ref.tag :: writeType e
  | .set e => NomsKind.Set.tag :: writeType e
  | .strct name fields =>
    NomsKind.Struct.tag :: (writeString name ++ writeCount fields.length ++
      writeTypeFieldNames fields ++ writeTypeFieldTypes fields ++ writeTypeFieldOpts fields)
  | .union ts => NomsKind.Union.tag :: (writeCount ts.length ++ writeTypeList ts)
  | .cycle name => NomsKind.Cycle.tag :: writeString name

def writeTypeList : List NType → Bytes
  | [] => []
  | t :: ts => writeType t ++ writeTypeList ts

def writeTypeFieldNames : List (Name × NType × Bool) → Bytes
  | [] => []
  | (n, _, _) :: fs => writeString n ++ writeTypeFieldNames fs

def writeTypeFieldTypes : List (Name × NType × Bool) → Bytes
  | [] => []
  | (_, t, _) :: fs => writeType t ++ writeTypeFieldTypes fs

def writeTypeFieldOpts : List (Name × NType × Bool) → Bytes
  | [] => []
  | (_, _, o) :: fs => writeBool o ++ writeTypeFieldOpts fs
end

/- Well-formedness of a type under a stack of enclosing struct names: a
cycle must name a non-anonymous enclosing struct (readTypeInner fails
otherwise), primitives must carry a primitive kind, and struct fields are
checked under the stack extended with the struct's own name (readStructType
registers the name before reading the fields). -/
mutual
/-- Well-formedness of a type under a stack of enclosing struct names. -/
def wfT : NType → List Name → Bool
  | .prim k, _ => isPrimitiveKind k
  | .list e, seen => wfT e seen
  | .map kt vt, seen => wfT kt seen && wfT vt seen
  | .ref e, seen => wfT e seen
  | .set e, seen => wfT e seen
  | .strct name fields, seen => wfTFields fields (name :: seen)
  | .union ts, seen => wfTList ts seen
  | .cycle name, seen => decide (name ≠ []) && decide (name ∈ seen)

def wfTList : List NType → List Name → Bool
  | [], _ => true
  | t :: ts, seen => wfT t seen && wfTList ts seen

def wfTFields : List (Name × NType × Bool) → List Name → Bool
  | [], _ => true
  | (_, t, _) :: fs, seen => wfT t seen && wfTFields fs seen
end

mutual
/-- Fuel bound for the type parsers on an encoded type. -/
def fuelT : NType → Nat
  | .prim _ => 1
  | .list e => 2 + fuelT e
  | .map kt vt => 2 + fuelT kt + fuelT vt
  | .ref e => 2 + fuelT e
  | .set e => 2 + fuelT e
  | .strct _ fields => 2 + fuelTFields fields
  | .union ts => 2 + fuelTList ts
  | .cycle _ => 1

def fuelTList : List NType → Nat
  | [] => 1
  | t :: ts => 1 + fuelT t + fuelTList ts

def fuelTFields : List (Name × NType × Bool) → Nat
  | [] => 1
  | (_, t, _) :: fs => 1 + fuelT t + fuelTFields fs
end

end Noms

namespace Noms

/-! ## Type decoding (valueDecoder.readTypeInner and the skip mirror)

All parsers take explicit fuel, decremented on every recursive call, so that
they are structurally recursive and evaluate by kernel reduction. The
adequacy lemmas below show any fuel of at least the value's fuel bound
behaves identically. -/

/-- Reads `c` length-prefixed strings (the field-name loop of
readStructType). -/
def readNamesN : Nat → Bytes → Option (List Name × Bytes)
  | 0, bs => some ([], bs)
  | c + 1, bs =>
    match readString bs with
    | some (n, bs) =>
      match readNamesN c bs with
      | some (ns, bs) => some (n :: ns, bs)
      | none => none
    | none => none

/-- Reads `c` bools (the optional-flag loop of readStructType). -/
def readBoolsN : Nat → Bytes → Option (List Bool × Bytes)
  | 0, bs => some ([], bs)
  | c + 1, bs =>
    match readBool bs with
    | some (b, bs) =>
      match readBoolsN c bs with
      | some (os, bs) => some (b :: os, bs)
      | none => none
    | none => none

/-- Zips the three per-field loops of readStructType back into field rows. -/
def zipFields : List Name → List NType → List Bool → List (Name × NType × Bool)
  | n :: ns, t :: ts, o :: os => (n, t, o) :: zipFields ns ts os
  | _, _, _ => []

mutual
/-- Modelled from the spec: the type reader with the spec's Cycle rule — a
Cycle resolves only to an enclosing struct currently being parsed, the
seenStructs names being scoped to the enclosing parse. Every branch other
than the scoping is the source's readTypeInner: compound kinds read child
types inline, Struct and Union recurse, and a Cycle reads a name that must
be non-empty and must be registered (both checks fatal, modelled as none).
The source instead mutates a shared map that persists after a nested struct
completes; that behavior is readTypeInnerS below, and the two differ exactly
on a Cycle naming a completed sibling struct (claim C8). -/
def readTypeInner : Nat → List Name → Bytes → Option (NType × Bytes)
  | 0, _, _ => none
  | f + 1, seen, bs =>
    match readKind bs with
    | some (k, bs) =>
      match k with
      | .List =>
        match readTypeInner f seen bs with
        | some (t, bs) => some (.list t, bs)
        | none => none
      | .Map =>
        match readTypeInner f seen bs with
        | some (kt, bs) =>
          match readTypeInner f seen bs with
          | some (vt, bs) => some (.map kt vt, bs)
          | none => none
        | none => none
      | .Ref =>
        match readTypeInner f seen bs with
        | some (t, bs) => some (.ref t, bs)
        | none => none
      | .Set =>
        match readTypeInner f seen bs with
        | some (t, bs) => some (.set t, bs)
        | none => none
      | .Struct => readStructType f seen bs
      | .Union => readUnionType f seen bs
      | .Cycle =>
        match readString bs with
        | some (name, bs) =>
          if name = [] then none
          else if name ∈ seen then some (.cycle name, bs) else none
        | none => none
      | _ => if isPrimitiveKind k then some (.prim k, bs) else none
    | none => none

/-- The struct-type reader of the scoped family: reads name and field count,
registers the name before the field loops (here for the scope of this
struct's own field types), then reads all field names, all field types, and
all optional flags. -/
def readStructType : Nat → List Name → Bytes → Option (NType × Bytes)
  | 0, _, _ => none
  | f + 1, seen, bs =>
    match readString bs with
    | some (name, bs) =>
      match readCount bs with
      | some (count, bs) =>
        match readNamesN count bs with
        | some (ns, bs) =>
          match readTypeListN f (name :: seen) count bs with
          | some (ts, bs) =>
            match readBoolsN count bs with
            | some (os, bs) => some (.strct name (zipFields ns ts os), bs)
            | none => none
          | none => none
        | none => none
      | none => none
    | none => none

/-- valueDecoder.readUnionType: a count then that many child types. -/
def readUnionType : Nat → List Name → Bytes → Option (NType × Bytes)
  | 0, _, _ => none
  | f + 1, seen, bs =>
    match readCount bs with
    | some (l, bs) =>
      match readTypeListN f seen l bs with
      | some (ts, bs) => some (.union ts, bs)
      | none => none
    | none => none

/-- Reads `c` types (the readTypeInner loops of readStructType and
readUnionType). -/
def readTypeListN : Nat → List Name → Nat → Bytes → Option (List NType × Bytes)
  | _, _, 0, bs => some ([], bs)
  | 0, _, _ + 1, _ => none
  | f + 1, seen, c + 1, bs =>
    match readTypeInner f seen bs with
    | some (t, bs) =>
      match readTypeListN f seen c bs with
      | some (ts, bs) => some (t :: ts, bs)
      | none => none
    | none => none
end

mutual
/-- valueDecoder.skipTypeInner: the mirrored skip path; a Cycle merely skips
its name string (no registration check). -/
def skipTypeInner : Nat → Bytes → Option Bytes
  | 0, _ => none
  | f + 1, bs =>
    match readKind bs with
    | some (k, bs) =>
      match k with
      | .List => skipTypeInner f bs
      | .Map =>
        match skipTypeInner f bs with
        | some bs => skipTypeInner f bs
        | none => none
      | .Ref => skipTypeInner f bs
      | .Set => skipTypeInner f bs
      | .Struct => skipStructType f bs
      | .Union => skipUnionType f bs
      | .Cycle => skipString bs
      | _ => if isPrimitiveKind k then some bs else none
    | none => none

/-- valueDecoder.skipStructType: skips name, then the three field loops. -/
def skipStructType : Nat → Bytes → Option Bytes
  | 0, _ => none
  | f + 1, bs =>
    match skipString bs with
    | some bs =>
      match readCount bs with
      | some (count, bs) =>
        match readNamesN count bs with
        | some (_, bs) =>
          match skipTypeListN f count bs with
          | some bs =>
            match readBoolsN count bs with
            | some (_, bs) => some bs
            | none => none
          | none => none
        | none => none
      | none => none
    | none => none

/-- valueDecoder.skipUnionType. -/
def skipUnionType : Nat → Bytes → Option Bytes
  | 0, _ => none
  | f + 1, bs =>
    match readCount bs with
    | some (l, bs) => skipTypeListN f l bs
    | none => none

/-- Skips `c` types. -/
def skipTypeListN : Nat → Nat → Bytes → Option Bytes
  | _, 0, bs => some bs
  | 0, _ + 1, _ => none
  | f + 1, c + 1, bs =>
    match skipTypeInner f bs with
    | some bs => skipTypeListN f c bs
    | none => none
end

/-- valueDecoder.readType for a non-validating decoder: readTypeInner with a
fresh seenStructs map. -/
def readType (f : Nat) (bs : Bytes) : Option (NType × Bytes) := readTypeInner f [] bs

/-- valueDecoder.skipType for a non-validating decoder. -/
def skipType (f : Nat) (bs : Bytes) : Option Bytes := skipTypeInner f bs

mutual
/-- valueDecoder.readTypeInner as written in the source: the seenStructs map
is threaded through and returned, so a registration made by a nested
readStructType persists after that struct completes (the source never
deletes from the map). The map is modelled by its key list. -/
def readTypeInnerS : Nat → List Name → Bytes → Option (NType × List Name × Bytes)
  | 0, _, _ => none
  | f + 1, seen, bs =>
    match readKind bs with
    | some (k, bs) =>
      match k with
      | .List =>
        match readTypeInnerS f seen bs with
        | some (t, seen, bs) => some (.list t, seen, bs)
        | none => none
      | .Map =>
        match readTypeInnerS f seen bs with
        | some (kt, seen, bs) =>
          match readTypeInnerS f seen bs with
          | some (vt, seen, bs) => some (.map kt vt, seen, bs)
          | none => none
        | none => none
      | .Ref =>
        match readTypeInnerS f seen bs with
        | some (t, seen, bs) => some (.ref t, seen, bs)
        | none => none
      | .Set =>
        match readTypeInnerS f seen bs with
        | some (t, seen, bs) => some (.set t, seen, bs)
        | none => none
      | .Struct => readStructTypeS f seen bs
      | .Union => readUnionTypeS f seen bs
      | .Cycle =>
        match readString bs with
        | some (name, bs) =>
          if name = [] then none
          else if name ∈ seen then some (.cycle name, seen, bs) else none
        | none => none
      | _ => if isPrimitiveKind k then some (.prim k, seen, bs) else none
    | none => none

/-- valueDecoder.readStructType as written: `seenStructs[name] = t` on the
shared map before the field loops, never undone, so the name stays
registered in the state this function returns. -/
def readStructTypeS : Nat → List Name → Bytes → Option (NType × List Name × Bytes)
  | 0, _, _ => none
  | f + 1, seen, bs =>
    match readString bs with
    | some (name, bs) =>
      match readCount bs with
      | some (count, bs) =>
        match readNamesN count bs with
        | some (ns, bs) =>
          match readTypeListS f (name :: seen) count bs with
          | some (ts, seen, bs) =>
            match readBoolsN count bs with
            | some (os, bs) => some (.strct name (zipFields ns ts os), seen, bs)
            | none => none
          | none => none
        | none => none
      | none => none
    | none => none

/-- valueDecoder.readUnionType with the shared map threaded through. -/
def readUnionTypeS : Nat → List Name → Bytes → Option (NType × List Name × Bytes)
  | 0, _, _ => none
  | f + 1, seen, bs =>
    match readCount bs with
    | some (l, bs) =>
      match readTypeListS f seen l bs with
      | some (ts, seen, bs) => some (.union ts, seen, bs)
      | none => none
    | none => none

/-- Reads `c` types, threading the shared map from each type to the next:
this is where a sibling struct's registration stays visible. -/
def readTypeListS : Nat → List Name → Nat → Bytes → Option (List NType × List Name × Bytes)
  | _, seen, 0, bs => some ([], seen, bs)
  | 0, _, _ + 1, _ => none
  | f + 1, seen, c + 1, bs =>
    match readTypeInnerS f seen bs with
    | some (t, seen, bs) =>
      match readTypeListS f seen c bs with
      | some (ts, seen, bs) => some (t :: ts, seen, bs)
      | none => none
    | none => none
end

/-- valueDecoder.readType as written: readTypeInnerS from a fresh map. -/
def readTypeS (f : Nat) (bs : Bytes) : Option (NType × List Name × Bytes) :=
  readTypeInnerS f [] bs

end Noms

namespace Noms

/-! ## Adequacy of the type parsers on encoded types -/

theorem fuelT_pos (t : NType) : 1 ≤ fuelT t := by
  cases t <;> simp only [fuelT] <;> omega

theorem readNamesN_writeTypeFieldNames (fs : List (Name × NType × Bool)) (rest : Bytes) :
    readNamesN fs.length (writeTypeFieldNames fs ++ rest) =
      some (fs.map (fun x => x.1), rest) := by
  induction fs generalizing rest with
  | nil => simp [readNamesN, writeTypeFieldNames]
  | cons hd tl ih =>
    obtain ⟨n, t, o⟩ := hd
    simp only [writeTypeFieldNames, List.length_cons, List.append_assoc, readNamesN,
      readString_writeString, ih, List.map_cons]

theorem readBoolsN_writeTypeFieldOpts (fs : List (Name × NType × Bool)) (rest : Bytes) :
    readBoolsN fs.length (writeTypeFieldOpts fs ++ rest) =
      some (fs.map (fun x => x.2.2), rest) := by
  induction fs generalizing rest with
  | nil => simp [readBoolsN, writeTypeFieldOpts]
  | cons hd tl ih =>
    obtain ⟨n, t, o⟩ := hd
    simp only [writeTypeFieldOpts, List.length_cons, List.append_assoc, readBoolsN,
      readBool_writeBool, ih, List.map_cons]

theorem zipFields_map (fs : List (Name × NType × Bool)) :
    zipFields (fs.map (fun x => x.1)) (fs.map (fun x => x.2.1)) (fs.map (fun x => x.2.2)) = fs := by
  induction fs with
  | nil => rfl
  | cons hd tl ih =>
    obtain ⟨n, t, o⟩ := hd
    simp [zipFields, ih]

theorem readTypeAdequate : ∀ f : Nat,
    (∀ t seen rest, wfT t seen = true → fuelT t ≤ f →
      readTypeInner f seen (writeType t ++ rest) = some (t, rest)) ∧
    (∀ ts seen rest, wfTList ts seen = true → fuelTList ts ≤ f →
      readTypeListN f seen ts.length (writeTypeList ts ++ rest) = some (ts, rest)) ∧
    (∀ fs seen rest, wfTFields fs seen = true → fuelTFields fs ≤ f →
      readTypeListN f seen fs.length (writeTypeFieldTypes fs ++ rest) =
        some (fs.map (fun x => x.2.1), rest)) := by
  intro f
  induction f using Nat.strong_induction_on with
  | _ f ih =>
    refine ⟨?_, ?_, ?_⟩
    · intro t seen rest hwf hfuel
      obtain ⟨f', rfl⟩ : ∃ f', f = f' + 1 := ⟨f - 1, by have := fuelT_pos t; omega⟩
      have ihf : f' < f' + 1 := Nat.lt_succ_self f'
      cases t with
      | prim k =>
        rw [wfT] at hwf
        cases k <;> simp_all [writeType, readTypeInner, readKind_tag, isPrimitiveKind]
      | list e =>
        rw [wfT] at hwf
        rw [fuelT] at hfuel
        have h1 := (ih f' ihf).1 e seen rest hwf (by omega)
        simp only [writeType, List.cons_append, readTypeInner, readKind_tag, h1]
      | map kt vt =>
        rw [wfT, Bool.and_eq_true] at hwf
        rw [fuelT] at hfuel
        have h1 := (ih f' ihf).1 kt seen (writeType vt ++ rest) hwf.1 (by omega)
        have h2 := (ih f' ihf).1 vt seen rest hwf.2 (by omega)
        simp only [writeType, List.cons_append, List.append_assoc, readTypeInner, readKind_tag,
          h1, h2]
      | ref e =>
        rw [wfT] at hwf
        rw [fuelT] at hfuel
        have h1 := (ih f' ihf).1 e seen rest hwf (by omega)
        simp only [writeType, List.cons_append, readTypeInner, readKind_tag, h1]
      | set e =>
        rw [wfT] at hwf
        rw [fuelT] at hfuel
        have h1 := (ih f' ihf).1 e seen rest hwf (by omega)
        simp only [writeType, List.cons_append, readTypeInner, readKind_tag, h1]
      | strct name fields =>
        rw [wfT] at hwf
        rw [fuelT] at hfuel
        obtain ⟨f'', rfl⟩ : ∃ f'', f' = f'' + 1 := ⟨f' - 1, by omega⟩
        have h1 := (ih f'' (by omega)).2.2 fields (name :: seen)
          (writeTypeFieldOpts fields ++ rest) hwf (by omega)
        simp only [writeType, List.cons_append, List.append_assoc, readTypeInner, readKind_tag,
          readStructType, readString_writeString, readCount_writeCount,
          readNamesN_writeTypeFieldNames, h1, readBoolsN_writeTypeFieldOpts, zipFields_map]
      | union ts =>
        rw [wfT] at hwf
        rw [fuelT] at hfuel
        obtain ⟨f'', rfl⟩ : ∃ f'', f' = f'' + 1 := ⟨f' - 1, by omega⟩
        have h1 := (ih f'' (by omega)).2.1 ts seen rest hwf (by omega)
        simp only [writeType, List.cons_append, List.append_assoc, readTypeInner, readKind_tag,
          readUnionType, readCount_writeCount, h1]
      | cycle name =>
        rw [wfT, Bool.and_eq_true, decide_eq_true_eq, decide_eq_true_eq] at hwf
        simp only [writeType, List.cons_append, readTypeInner, readKind_tag,
          readString_writeString]
        simp [hwf.1, hwf.2]
    · intro ts seen rest hwf hfuel
      cases ts with
      | nil => simp [writeTypeList, readTypeListN]
      | cons t ts =>
        rw [wfTList, Bool.and_eq_true] at hwf
        rw [fuelTList] at hfuel
        obtain ⟨f', rfl⟩ : ∃ f', f = f' + 1 := ⟨f - 1, by omega⟩
        have h1 := (ih f' (Nat.lt_succ_self f')).1 t seen (writeTypeList ts ++ rest) hwf.1
          (by have := fuelT_pos t; omega)
        have h2 := (ih f' (Nat.lt_succ_self f')).2.1 ts seen rest hwf.2 (by omega)
        simp only [writeTypeList, List.length_cons, List.append_assoc, readTypeListN, h1, h2]
    · intro fs seen rest hwf hfuel
      cases fs with
      | nil => simp [writeTypeFieldTypes, readTypeListN]
      | cons hd fs =>
        obtain ⟨n, t, o⟩ := hd
        rw [wfTFields, Bool.and_eq_true] at hwf
        rw [fuelTFields] at hfuel
        obtain ⟨f', rfl⟩ : ∃ f', f = f' + 1 := ⟨f - 1, by omega⟩
        have h1 := (ih f' (Nat.lt_succ_self f')).1 t seen (writeTypeFieldTypes fs ++ rest) hwf.1
          (by have := fuelT_pos t; omega)
        have h2 := (ih f' (Nat.lt_succ_self f')).2.2 fs seen rest hwf.2 (by omega)
        simp only [writeTypeFieldTypes, List.length_cons, List.append_assoc, readTypeListN,
          h1, h2, List.map_cons]

end Noms

namespace Noms

theorem skipTypeAdequate : ∀ f : Nat,
    (∀ t seen rest, wfT t seen = true → fuelT t ≤ f →
      skipTypeInner f (writeType t ++ rest) = some rest) ∧
    (∀ ts seen rest, wfTList ts seen = true → fuelTList ts ≤ f →
      skipTypeListN f ts.length (writeTypeList ts ++ rest) = some rest) ∧
    (∀ fs seen rest, wfTFields fs seen = true → fuelTFields fs ≤ f →
      skipTypeListN f fs.length (writeTypeFieldTypes fs ++ rest) = some rest) := by
  intro f
  induction f using Nat.strong_induction_on with
  | _ f ih =>
    refine ⟨?_, ?_, ?_⟩
    · intro t seen rest hwf hfuel
      obtain ⟨f', rfl⟩ : ∃ f', f = f' + 1 := ⟨f - 1, by have := fuelT_pos t; omega⟩
      have ihf : f' < f' + 1 := Nat.lt_succ_self f'
      cases t with
      | prim k =>
        rw [wfT] at hwf
        cases k <;> simp_all [writeType, skipTypeInner, readKind_tag, isPrimitiveKind]
      | list e =>
        rw [wfT] at hwf
        rw [fuelT] at hfuel
        have h1 := (ih f' ihf).1 e seen rest hwf (by omega)
        simp only [writeType, List.cons_append, skipTypeInner, readKind_tag, h1]
      | map kt vt =>
        rw [wfT, Bool.and_eq_true] at hwf
        rw [fuelT] at hfuel
        have h1 := (ih f' ihf).1 kt seen (writeType vt ++ rest) hwf.1 (by omega)
        have h2 := (ih f' ihf).1 vt seen rest hwf.2 (by omega)
        simp only [writeType, List.cons_append, List.append_assoc, skipTypeInner, readKind_tag,
          h1, h2]
      | ref e =>
        rw [wfT] at hwf
        rw [fuelT] at hfuel
        have h1 := (ih f' ihf).1 e seen rest hwf (by omega)
        simp only [writeType, List.cons_append, skipTypeInner, readKind_tag, h1]
      | set e =>
        rw [wfT] at hwf
        rw [fuelT] at hfuel
        have h1 := (ih f' ihf).1 e seen rest hwf (by omega)
        simp only [writeType, List.cons_append, skipTypeInner, readKind_tag, h1]
      | strct name fields =>
        rw [wfT] at hwf
        rw [fuelT] at hfuel
        obtain ⟨f'', rfl⟩ : ∃ f'', f' = f'' + 1 := ⟨f' - 1, by omega⟩
        have h1 := (ih f'' (by omega)).2.2 fields (name :: seen)
          (writeTypeFieldOpts fields ++ rest) hwf (by omega)
        simp only [writeType, List.cons_append, List.append_assoc, skipTypeInner, readKind_tag,
          skipStructType, skipString_writeString, readCount_writeCount,
          readNamesN_writeTypeFieldNames, h1, readBoolsN_writeTypeFieldOpts]
      | union ts =>
        rw [wfT] at hwf
        rw [fuelT] at hfuel
        obtain ⟨f'', rfl⟩ : ∃ f'', f' = f'' + 1 := ⟨f' - 1, by omega⟩
        have h1 := (ih f'' (by omega)).2.1 ts seen rest hwf (by omega)
        simp only [writeType, List.cons_append, List.append_assoc, skipTypeInner, readKind_tag,
          skipUnionType, readCount_writeCount, h1]
      | cycle name =>
        simp only [writeType, List.cons_append, skipTypeInner, readKind_tag,
          skipString_writeString]
    · intro ts seen rest hwf hfuel
      cases ts with
      | nil => simp [writeTypeList, skipTypeListN]
      | cons t ts =>
        rw [wfTList, Bool.and_eq_true] at hwf
        rw [fuelTList] at hfuel
        obtain ⟨f', rfl⟩ : ∃ f', f = f' + 1 := ⟨f - 1, by omega⟩
        have h1 := (ih f' (Nat.lt_succ_self f')).1 t seen (writeTypeList ts ++ rest) hwf.1
          (by have := fuelT_pos t; omega)
        have h2 := (ih f' (Nat.lt_succ_self f')).2.1 ts seen rest hwf.2 (by omega)
        simp only [writeTypeList, List.length_cons, List.append_assoc, skipTypeListN, h1, h2]
    · intro fs seen rest hwf hfuel
      cases fs with
      | nil => simp [writeTypeFieldTypes, skipTypeListN]
      | cons hd fs =>
        obtain ⟨n, t, o⟩ := hd
        rw [wfTFields, Bool.and_eq_true] at hwf
        rw [fuelTFields] at hfuel
        obtain ⟨f', rfl⟩ : ∃ f', f = f' + 1 := ⟨f - 1, by omega⟩
        have h1 := (ih f' (Nat.lt_succ_self f')).1 t seen (writeTypeFieldTypes fs ++ rest) hwf.1
          (by have := fuelT_pos t; omega)
        have h2 := (ih f' (Nat.lt_succ_self f')).2.2 fs seen rest hwf.2 (by omega)
        simp only [writeTypeFieldTypes, List.length_cons, List.append_assoc, skipTypeListN,
          h1, h2]

end Noms

namespace Noms

/-! ## Values

The value model: variants for each concrete value kind. Container kinds
carry either a leaf payload (height 0 on the wire) or a meta sequence
(height at least 1): an ordered list of tuples, each a ref to a child chunk,
a boundary value, and the leaf count under the child (spec section 6). The
lazy list leaf sequence of the source denotes the list of its elements;
its offset mechanics are modelled separately below. -/

mutual
/-- A noms value. -/
inductive Value where
  | bool (b : Bool)
  | number (i j : Nat)
  | str (s : Name)
  | blobLeaf (bs : List Byte)
  | blobMeta (level : Nat) (ts : List MetaTuple)
  | listLeaf (vs : List Value)
  | listMeta (level : Nat) (ts : List MetaTuple)
  | mapLeaf (entries : List (Value × Value))
  | mapMeta (level : Nat) (ts : List MetaTuple)
  | setLeaf (vs : List Value)
  | setMeta (level : Nat) (ts : List MetaTuple)
  | ref (h : Nat) (t : NType) (height : Nat)
  | strct (name : Name) (fields : List (Name × Value))
  | type (t : NType)

/-- One tuple of a meta-sequence interior node: a ref to the child chunk
(hash, target type, ref height), the boundary value, and the number of
leaves under the child. -/
inductive MetaTuple where
  | mk (h : Nat) (t : NType) (height : Nat) (boundary : Value) (numLeaves : Nat)
end

mutual
/-- The canonical encoding of a value (Value.writeTo): one kind tag byte,
then the kind-specific payload; container kinds write the height then the
leaf payload or the meta tuples. -/
def writeValue : Value → Bytes
  | .bool b => NomsKind.Bool.tag :: writeBool b
  | .number i j => NomsKind.Number.tag :: writeNumber i j
  | .str s => NomsKind.String.tag :: writeString s
  | .blobLeaf bs => NomsKind.Blob.tag :: (writeCount 0 ++ writeString bs)
  | .blobMeta level ts =>
    NomsKind.Blob.tag :: (writeCount level ++ writeCount ts.length ++ writeMetaTuples ts)
  | .listLeaf vs =>
    NomsKind.List.tag :: (writeCount 0 ++ writeCount vs.length ++ writeValueList vs)
  | .listMeta level ts =>
    NomsKind.List.tag :: (writeCount level ++ writeCount ts.length ++ writeMetaTuples ts)
  | .mapLeaf entries =>
    NomsKind.Map.tag :: (writeCount 0 ++ writeCount entries.length ++ writeMapEntries entries)
  | .mapMeta level ts =>
    NomsKind.Map.tag :: (writeCount level ++ writeCount ts.length ++ writeMetaTuples ts)
  | .setLeaf vs =>
    NomsKind.Set.tag :: (writeCount 0 ++ writeCount vs.length ++ writeValueList vs)
  | .setMeta level ts =>
    NomsKind.Set.tag :: (writeCount level ++ writeCount ts.length ++ writeMetaTuples ts)
  | .ref h t height => NomsKind.Ref.tag :: (writeHash h ++ writeType t ++ writeCount height)
  | .strct name fields =>
    NomsKind.Struct.tag :: (writeString name ++ writeCount fields.length ++ writeFields fields)
  | .type t => NomsKind.Type.tag :: writeType t

/-- Encoding of leaf-sequence elements, in order. -/
def writeValueList : List Value → Bytes
  | [] => []
  | v :: vs => writeValue v ++ writeValueList vs

/-- Encoding of map leaf entries: key then value per entry. -/
def writeMapEntries : List (Value × Value) → Bytes
  | [] => []
  | (k, v) :: es => writeValue k ++ writeValue v ++ writeMapEntries es

/-- Encoding of struct fields: name then value per field. -/
def writeFields : List (Name × Value) → Bytes
  | [] => []
  | (n, v) :: fs => writeString n ++ writeValue v ++ writeFields fs

/-- Encoding of meta tuples: the ref as an encoded Ref value (spelled out so
the recursion stays structural), the boundary value, then the leaf count. -/
def writeMetaTuples : List MetaTuple → Bytes
  | [] => []
  | .mk h t height boundary numLeaves :: ts =>
    (NomsKind.Ref.tag :: (writeHash h ++ writeType t ++ writeCount height)) ++
      writeValue boundary ++ writeCount numLeaves ++ writeMetaTuples ts
end

mutual
/-- Fuel bound for the value parsers on an encoded value. -/
def fuelV : Value → Nat
  | .bool _ => 1
  | .number _ _ => 1
  | .str _ => 1
  | .blobLeaf _ => 1
  | .blobMeta _ ts => 2 + fuelMTs ts
  | .listLeaf vs => 2 + fuelVs vs
  | .listMeta _ ts => 2 + fuelMTs ts
  | .mapLeaf es => 2 + fuelEs es
  | .mapMeta _ ts => 2 + fuelMTs ts
  | .setLeaf vs => 2 + fuelVs vs
  | .setMeta _ ts => 2 + fuelMTs ts
  | .ref _ t _ => 2 + fuelT t
  | .strct _ fields => 2 + fuelFs fields
  | .type t => 2 + fuelT t

def fuelVs : List Value → Nat
  | [] => 1
  | v :: vs => 1 + fuelV v + fuelVs vs

def fuelEs : List (Value × Value) → Nat
  | [] => 1
  | (k, v) :: es => 1 + fuelV k + fuelV v + fuelEs es

def fuelFs : List (Name × Value) → Nat
  | [] => 1
  | (_, v) :: fs => 1 + fuelV v + fuelFs fs

def fuelMTs : List MetaTuple → Nat
  | [] => 1
  | .mk _ t _ boundary _ :: ts => 4 + fuelT t + fuelV boundary + fuelMTs ts
end

mutual
/-- Well-formedness of a value: hashes fit the fixed hash width, embedded
types are well-formed and closed (readType starts a fresh seenStructs map),
and meta sequences carry a height of at least 1 (the decoder treats height 0
as a leaf). -/
def wfV : Value → Bool
  | .bool _ => true
  | .number _ _ => true
  | .str _ => true
  | .blobLeaf _ => true
  | .blobMeta level ts => decide (1 ≤ level) && wfMTs ts
  | .listLeaf vs => wfVs vs
  | .listMeta level ts => decide (1 ≤ level) && wfMTs ts
  | .mapLeaf es => wfEs es
  | .mapMeta level ts => decide (1 ≤ level) && wfMTs ts
  | .setLeaf vs => wfVs vs
  | .setMeta level ts => decide (1 ≤ level) && wfMTs ts
  | .ref h t _ => decide (h < 256 ^ hashByteLen) && wfT t []
  | .strct _ fields => wfFs fields
  | .type t => wfT t []

def wfVs : List Value → Bool
  | [] => true
  | v :: vs => wfV v && wfVs vs

def wfEs : List (Value × Value) → Bool
  | [] => true
  | (k, v) :: es => wfV k && wfV v && wfEs es

def wfFs : List (Name × Value) → Bool
  | [] => true
  | (_, v) :: fs => wfV v && wfFs fs

def wfMTs : List MetaTuple → Bool
  | [] => true
  | .mk h t _ boundary _ :: ts =>
    decide (h < 256 ^ hashByteLen) && wfT t [] && wfV boundary && wfMTs ts
end

/-- Value.Equals: exact byte-equality of canonical encodings. -/
def valueEquals (v w : Value) : Bool := writeValue v == writeValue w

end Noms

namespace Noms

/-! ## Value decoding (valueDecoder.readValue)

The source's read path for a flat list records lazy offsets by skipping each
element (readListLeafSequence) and returns a lazy sequence denoting the list
of its elements; here the branch reads the elements it denotes over the same
byte span. The lazy offset mechanics themselves are modelled below as
readLazyValueOffsets for the list claims. -/

/-- The count-bounded repetition shared by the sequence decoders: read
`c` items in order with the item parser `p`. -/
def readLoop {α : Type} (p : Bytes → Option (α × Bytes)) :
    Nat → Bytes → Option (List α × Bytes)
  | 0, bs => some ([], bs)
  | c + 1, bs =>
    match p bs with
    | some (v, bs) =>
      match readLoop p c bs with
      | some (vs, bs) => some (v :: vs, bs)
      | none => none
    | none => none

/-- One tuple of valueDecoder.readMetaSequence: a value that must decode as
a Ref, the boundary value, and the leaf count. -/
def readMetaTupleWith (rv : Bytes → Option (Value × Bytes)) (bs : Bytes) :
    Option (MetaTuple × Bytes) :=
  match rv bs with
  | some (.ref h t height, bs) =>
    match rv bs with
    | some (v, bs) =>
      match readCount bs with
      | some (numLeaves, bs) => some (.mk h t height v numLeaves, bs)
      | none => none
    | none => none
  | some _ => none
  | none => none

/-- One entry of valueDecoder.readMapLeafSequence: key then value. -/
def readEntryWith (rv : Bytes → Option (Value × Bytes)) (bs : Bytes) :
    Option ((Value × Value) × Bytes) :=
  match rv bs with
  | some (k, bs) =>
    match rv bs with
    | some (v, bs) => some ((k, v), bs)
    | none => none
  | none => none

/-- One field of valueDecoder.readStruct: field name then value. -/
def readFieldWith (rv : Bytes → Option (Value × Bytes)) (bs : Bytes) :
    Option ((Name × Value) × Bytes) :=
  match readString bs with
  | some (n, bs) =>
    match rv bs with
    | some (v, bs) => some ((n, v), bs)
    | none => none
  | none => none

/-- valueDecoder.readValue: dispatches on the kind tag; container kinds read
the height count and then either the leaf payload or the meta sequence (a
tuple count, then per tuple a value that must decode as a Ref, the boundary
value and the leaf count); a struct reads its name, field count and field
loop; a Cycle, Union or Value kind tag is fatal here (a value instance can
never have such a type). -/
def readValue : Nat → Bytes → Option (Value × Bytes)
  | 0, _ => none
  | f + 1, bs =>
    match readKind bs with
    | some (k, bs) =>
      match k with
      | .Blob =>
        match readCount bs with
        | some (level, bs) =>
          if 0 < level then
            match readCount bs with
            | some (count, bs) =>
              match readLoop (readMetaTupleWith (readValue f)) count bs with
              | some (ts, bs) => some (.blobMeta level ts, bs)
              | none => none
            | none => none
          else
            match readString bs with
            | some (b, bs) => some (.blobLeaf b, bs)
            | none => none
        | none => none
      | .Bool =>
        match readBool bs with
        | some (b, bs) => some (.bool b, bs)
        | none => none
      | .Number =>
        match readNumber bs with
        | some ((i, j), bs) => some (.number i j, bs)
        | none => none
      | .String =>
        match readString bs with
        | some (s, bs) => some (.str s, bs)
        | none => none
      | .List =>
        match readCount bs with
        | some (level, bs) =>
          if 0 < level then
            match readCount bs with
            | some (count, bs) =>
              match readLoop (readMetaTupleWith (readValue f)) count bs with
              | some (ts, bs) => some (.listMeta level ts, bs)
              | none => none
            | none => none
          else
            match readCount bs with
            | some (count, bs) =>
              match readLoop (readValue f) count bs with
              | some (vs, bs) => some (.listLeaf vs, bs)
              | none => none
            | none => none
        | none => none
      | .Map =>
        match readCount bs with
        | some (level, bs) =>
          if 0 < level then
            match readCount bs with
            | some (count, bs) =>
              match readLoop (readMetaTupleWith (readValue f)) count bs with
              | some (ts, bs) => some (.mapMeta level ts, bs)
              | none => none
            | none => none
          else
            match readCount bs with
            | some (count, bs) =>
              match readLoop (readEntryWith (readValue f)) count bs with
              | some (es, bs) => some (.mapLeaf es, bs)
              | none => none
            | none => none
        | none => none
      | .Ref =>
        match readHash bs with
        | some (h, bs) =>
          match readTypeInner f [] bs with
          | some (t, bs) =>
            match readCount bs with
            | some (height, bs) => some (.ref h t height, bs)
            | none => none
          | none => none
        | none => none
      | .Set =>
        match readCount bs with
        | some (level, bs) =>
          if 0 < level then
            match readCount bs with
            | some (count, bs) =>
              match readLoop (readMetaTupleWith (readValue f)) count bs with
              | some (ts, bs) => some (.setMeta level ts, bs)
              | none => none
            | none => none
          else
            match readCount bs with
            | some (count, bs) =>
              match readLoop (readValue f) count bs with
              | some (vs, bs) => some (.setLeaf vs, bs)
              | none => none
            | none => none
        | none => none
      | .Struct =>
        match readString bs with
        | some (name, bs) =>
          match readCount bs with
          | some (count, bs) =>
            match readLoop (readFieldWith (readValue f)) count bs with
            | some (fields, bs) => some (.strct name fields, bs)
            | none => none
          | none => none
        | none => none
      | .Type =>
        match readTypeInner f [] bs with
        | some (t, bs) => some (.type t, bs)
        | none => none
      | _ => none
    | none => none

end Noms

namespace Noms

/-! ## The skip path as written in value_decoder.go

skipMetaSequence skips, per tuple, the child ref and the boundary value but
not the trailing leaf count that readMetaSequence reads; this family is the
file's skip path exactly as written. -/

/-- The count-bounded repetition shared by the skip paths: skip `c` items
with the item skipper `p`. -/
def skipLoop (p : Bytes → Option Bytes) : Nat → Bytes → Option Bytes
  | 0, bs => some bs
  | c + 1, bs =>
    match p bs with
    | some bs => skipLoop p c bs
    | none => none

/-- One tuple of valueDecoder.skipMetaSequence, as written: two skipValue
calls (the child ref and the boundary value) and nothing for the trailing
leaf count. -/
def skipMetaTupleWith (sv : Bytes → Option Bytes) (bs : Bytes) : Option Bytes :=
  match sv bs with
  | some bs => sv bs
  | none => none

/-- One entry of valueDecoder.skipMapLeafSequence: two skipValue calls. -/
def skipEntryWith (sv : Bytes → Option Bytes) (bs : Bytes) : Option Bytes :=
  match sv bs with
  | some bs => sv bs
  | none => none

/-- One field of valueDecoder.skipStruct: a string skip then a value skip. -/
def skipFieldWith (sv : Bytes → Option Bytes) (bs : Bytes) : Option Bytes :=
  match skipString bs with
  | some bs => sv bs
  | none => none

/-- valueDecoder.skipValue, as written in the source: for a meta sequence it
reads the tuple count and skips two values per tuple, leaving each tuple's
trailing leaf count unconsumed. -/
def skipValue : Nat → Bytes → Option Bytes
  | 0, _ => none
  | f + 1, bs =>
    match readKind bs with
    | some (k, bs) =>
      match k with
      | .Blob =>
        match readCount bs with
        | some (level, bs) =>
          if 0 < level then
            match readCount bs with
            | some (count, bs) => skipLoop (skipMetaTupleWith (skipValue f)) count bs
            | none => none
          else skipString bs
        | none => none
      | .Bool =>
        match readBool bs with
        | some (_, bs) => some bs
        | none => none
      | .Number => skipNumber bs
      | .String => skipString bs
      | .List =>
        match readCount bs with
        | some (level, bs) =>
          if 0 < level then
            match readCount bs with
            | some (count, bs) => skipLoop (skipMetaTupleWith (skipValue f)) count bs
            | none => none
          else
            match readCount bs with
            | some (count, bs) => skipLoop (skipValue f) count bs
            | none => none
        | none => none
      | .Map =>
        match readCount bs with
        | some (level, bs) =>
          if 0 < level then
            match readCount bs with
            | some (count, bs) => skipLoop (skipMetaTupleWith (skipValue f)) count bs
            | none => none
          else
            match readCount bs with
            | some (count, bs) => skipLoop (skipEntryWith (skipValue f)) count bs
            | none => none
        | none => none
      | .Ref =>
        match skipHash bs with
        | some bs =>
          match skipTypeInner f bs with
          | some bs =>
            match readCount bs with
            | some (_, bs) => some bs
            | none => none
          | none => none
        | none => none
      | .Set =>
        match readCount bs with
        | some (level, bs) =>
          if 0 < level then
            match readCount bs with
            | some (count, bs) => skipLoop (skipMetaTupleWith (skipValue f)) count bs
            | none => none
          else
            match readCount bs with
            | some (count, bs) => skipLoop (skipValue f) count bs
            | none => none
        | none => none
      | .Struct =>
        match skipString bs with
        | some bs =>
          match readCount bs with
          | some (count, bs) => skipLoop (skipFieldWith (skipValue f)) count bs
          | none => none
        | none => none
      | .Type => skipTypeInner f bs
      | _ => none
    | none => none

end Noms

namespace Noms

/-! ## The source readValue, with the lazy flat-List branch

The source's readValue builds the denoted value of what it reads; for a flat
List it does not read the elements in place: readListLeafSequence records
per-element offsets by calling skipValue, and the resulting lazy sequence
denotes the list whose i-th element is decoded (by the same readValue) at
the i-th recorded offset — positions modelled as buffer suffixes. -/

mutual
/-- Whether a value contains no meta-sequence node anywhere: on such values
the source's skipValue consumes the same span the read path does, so the
lazy offsets are exact (see claims C9, C10 for the meta-sequence
divergence). -/
def noMetaV : Value → Bool
  | .bool _ => true
  | .number _ _ => true
  | .str _ => true
  | .blobLeaf _ => true
  | .blobMeta _ _ => false
  | .listLeaf vs => noMetaVs vs
  | .listMeta _ _ => false
  | .mapLeaf es => noMetaEs es
  | .mapMeta _ _ => false
  | .setLeaf vs => noMetaVs vs
  | .setMeta _ _ => false
  | .ref _ _ _ => true
  | .strct _ fs => noMetaFs fs
  | .type _ => true

def noMetaVs : List Value → Bool
  | [] => true
  | v :: vs => noMetaV v && noMetaVs vs

def noMetaEs : List (Value × Value) → Bool
  | [] => true
  | (k, v) :: es => noMetaV k && noMetaV v && noMetaEs es

def noMetaFs : List (Name × Value) → Bool
  | [] => true
  | (_, v) :: fs => noMetaV v && noMetaFs fs
end

/-- The offset-recording scan of readLazyValueOffsets, positions as buffer
suffixes: skips `c` items with `sv`, returning the suffix at which each item
begins plus the buffer after the scan. -/
def scanOffsets (sv : Bytes → Option Bytes) : Nat → Bytes → Option (List Bytes × Bytes)
  | 0, bs => some ([], bs)
  | c + 1, bs =>
    match sv bs with
    | some bs2 =>
      match scanOffsets sv c bs2 with
      | some (starts, rest) => some (bs :: starts, rest)
      | none => none
    | none => none

/-- The denotation of a lazy leaf sequence: each recorded start is decoded
by one `p` call (listLazyLeafSequence.getItem), the read stopping wherever
that one value ends. -/
def decodeEach (p : Bytes → Option (Value × Bytes)) : List Bytes → Option (List Value)
  | [] => some []
  | s :: ss =>
    match p s with
    | some (v, _) =>
      match decodeEach p ss with
      | some vs => some (v :: vs)
      | none => none
    | none => none

/-- valueDecoder.readValue as written in the source: identical to readValue
above except in the flat-List branch, which runs the skipValue-based offset
scan of readListLeafSequence and denotes the elements decoded at the
recorded offsets. Embedded types are read from a fresh seenStructs map
(readType, value_decoder.go line 47). -/
def readValueL : Nat → Bytes → Option (Value × Bytes)
  | 0, _ => none
  | f + 1, bs =>
    match readKind bs with
    | some (k, bs) =>
      match k with
      | .Blob =>
        match readCount bs with
        | some (level, bs) =>
          if 0 < level then
            match readCount bs with
            | some (count, bs) =>
              match readLoop (readMetaTupleWith (readValueL f)) count bs with
              | some (ts, bs) => some (.blobMeta level ts, bs)
              | none => none
            | none => none
          else
            match readString bs with
            | some (b, bs) => some (.blobLeaf b, bs)
            | none => none
        | none => none
      | .Bool =>
        match readBool bs with
        | some (b, bs) => some (.bool b, bs)
        | none => none
      | .Number =>
        match readNumber bs with
        | some ((i, j), bs) => some (.number i j, bs)
        | none => none
      | .String =>
        match readString bs with
        | some (s, bs) => some (.str s, bs)
        | none => none
      | .List =>
        match readCount bs with
        | some (level, bs) =>
          if 0 < level then
            match readCount bs with
            | some (count, bs) =>
              match readLoop (readMetaTupleWith (readValueL f)) count bs with
              | some (ts, bs) => some (.listMeta level ts, bs)
              | none => none
            | none => none
          else
            match readCount bs with
            | some (count, bs) =>
              match scanOffsets (skipValue f) count bs with
              | some (starts, bs) =>
                match decodeEach (readValueL f) starts with
                | some vs => some (.listLeaf vs, bs)
                | none => none
              | none => none
            | none => none
        | none => none
      | .Map =>
        match readCount bs with
        | some (level, bs) =>
          if 0 < level then
            match readCount bs with
            | some (count, bs) =>
              match readLoop (readMetaTupleWith (readValueL f)) count bs with
              | some (ts, bs) => some (.mapMeta level ts, bs)
              | none => none
            | none => none
          else
            match readCount bs with
            | some (count, bs) =>
              match readLoop (readEntryWith (readValueL f)) count bs with
              | some (es, bs) => some (.mapLeaf es, bs)
              | none => none
            | none => none
        | none => none
      | .Ref =>
        match readHash bs with
        | some (h, bs) =>
          match readTypeInner f [] bs with
          | some (t, bs) =>
            match readCount bs with
            | some (height, bs) => some (.ref h t height, bs)
            | none => none
          | none => none
        | none => none
      | .Set =>
        match readCount bs with
        | some (level, bs) =>
          if 0 < level then
            match readCount bs with
            | some (count, bs) =>
              match readLoop (readMetaTupleWith (readValueL f)) count bs with
              | some (ts, bs) => some (.setMeta level ts, bs)
              | none => none
            | none => none
          else
            match readCount bs with
            | some (count, bs) =>
              match readLoop (readValueL f) count bs with
              | some (vs, bs) => some (.setLeaf vs, bs)
              | none => none
            | none => none
        | none => none
      | .Struct =>
        match readString bs with
        | some (name, bs) =>
          match readCount bs with
          | some (count, bs) =>
            match readLoop (readFieldWith (readValueL f)) count bs with
            | some (fields, bs) => some (.strct name fields, bs)
            | none => none
          | none => none
        | none => none
      | .Type =>
        match readTypeInner f [] bs with
        | some (t, bs) => some (.type t, bs)
        | none => none
      | _ => none
    | none => none

end Noms

namespace Noms

/-! ## The mirrored skip path used by the Struct operations

Modelled from the spec: struct.go's Struct operations (MaybeGet, set,
Delete) run against the decoder of the buff-based Struct, whose byte-level
codec is not among the provided sources (the provided value_decoder.go
belongs to an earlier snapshot whose readStruct and skipStruct collide with
struct.go's own definitions). Per spec sections 4.1-4.2 and 6, the skip path
mirrors the read path exactly; in particular an interior-node tuple is
"encoded(ref-to-child) - encoded(boundary-key-value) - count(leafCount)",
so the mirrored skip consumes the trailing leaf count as well. -/

mutual
/-- The mirrored skipValue: advances past exactly one encoded value. -/
def skipValueE : Nat → Bytes → Option Bytes
  | 0, _ => none
  | f + 1, bs =>
    match readKind bs with
    | some (k, bs) =>
      match k with
      | .Blob =>
        match readCount bs with
        | some (level, bs) =>
          if 0 < level then skipMetaSequenceEN f bs else skipString bs
        | none => none
      | .Bool =>
        match readBool bs with
        | some (_, bs) => some bs
        | none => none
      | .Number => skipNumber bs
      | .String => skipString bs
      | .List =>
        match readCount bs with
        | some (level, bs) =>
          if 0 < level then skipMetaSequenceEN f bs else skipValueSequenceEN f bs
        | none => none
      | .Map =>
        match readCount bs with
        | some (level, bs) =>
          if 0 < level then skipMetaSequenceEN f bs else skipMapLeafSequenceEN f bs
        | none => none
      | .Ref =>
        match skipHash bs with
        | some bs =>
          match skipTypeInner f bs with
          | some bs =>
            match readCount bs with
            | some (_, bs) => some bs
            | none => none
          | none => none
        | none => none
      | .Set =>
        match readCount bs with
        | some (level, bs) =>
          if 0 < level then skipMetaSequenceEN f bs else skipValueSequenceEN f bs
        | none => none
      | .Struct => skipStructE f bs
      | .Type => skipTypeInner f bs
      | _ => none
    | none => none

/-- The mirrored meta-sequence skip: per tuple the child ref, the boundary
value, and the leaf count. -/
def skipMetaSequenceEN : Nat → Bytes → Option Bytes
  | 0, _ => none
  | f + 1, bs =>
    match readCount bs with
    | some (count, bs) => skipMetaTuplesEN f count bs
    | none => none

/-- The per-tuple loop of the mirrored meta-sequence skip. -/
def skipMetaTuplesEN : Nat → Nat → Bytes → Option Bytes
  | _, 0, bs => some bs
  | 0, _ + 1, _ => none
  | f + 1, c + 1, bs =>
    match skipValueE f bs with
    | some bs =>
      match skipValueE f bs with
      | some bs =>
        match readCount bs with
        | some (_, bs) => skipMetaTuplesEN f c bs
        | none => none
      | none => none
    | none => none

/-- The mirrored value-sequence skip. -/
def skipValueSequenceEN : Nat → Bytes → Option Bytes
  | 0, _ => none
  | f + 1, bs =>
    match readCount bs with
    | some (count, bs) => skipValuesEN f count bs
    | none => none

/-- The element loop of the mirrored value-sequence skip. -/
def skipValuesEN : Nat → Nat → Bytes → Option Bytes
  | _, 0, bs => some bs
  | 0, _ + 1, _ => none
  | f + 1, c + 1, bs =>
    match skipValueE f bs with
    | some bs => skipValuesEN f c bs
    | none => none

/-- The mirrored map-leaf skip. -/
def skipMapLeafSequenceEN : Nat → Bytes → Option Bytes
  | 0, _ => none
  | f + 1, bs =>
    match readCount bs with
    | some (count, bs) => skipMapEntriesEN f count bs
    | none => none

/-- The entry loop of the mirrored map-leaf skip. -/
def skipMapEntriesEN : Nat → Nat → Bytes → Option Bytes
  | _, 0, bs => some bs
  | 0, _ + 1, _ => none
  | f + 1, c + 1, bs =>
    match skipValueE f bs with
    | some bs =>
      match skipValueE f bs with
      | some bs => skipMapEntriesEN f c bs
      | none => none
    | none => none

/-- The mirrored struct skip (after the kind tag). -/
def skipStructE : Nat → Bytes → Option Bytes
  | 0, _ => none
  | f + 1, bs =>
    match skipString bs with
    | some bs =>
      match readCount bs with
      | some (count, bs) => skipFieldsEN f count bs
      | none => none
    | none => none

/-- The field loop of the mirrored struct skip. -/
def skipFieldsEN : Nat → Nat → Bytes → Option Bytes
  | _, 0, bs => some bs
  | 0, _ + 1, _ => none
  | f + 1, c + 1, bs =>
    match skipString bs with
    | some bs =>
      match skipValueE f bs with
      | some bs => skipFieldsEN f c bs
      | none => none
    | none => none
end

/-- valueDecoder.copyValue as used by struct.go's set and Delete: skips one
value and copies the raw skipped span to the writer. Returns the copied
span and the remaining buffer. -/
def copyValueE (f : Nat) (bs : Bytes) : Option (Bytes × Bytes) :=
  match skipValueE f bs with
  | some rest => some (bs.take (bs.length - rest.length), rest)
  | none => none

end Noms

namespace Noms

/-! ## Adequacy of the value read path on encoded values -/

theorem fuelV_pos (v : Value) : 1 ≤ fuelV v := by
  cases v <;> simp only [fuelV] <;> omega

theorem fuelVs_pos (vs : List Value) : 1 ≤ fuelVs vs := by
  cases vs with
  | nil => simp [fuelVs]
  | cons v vs => simp only [fuelVs]; omega

theorem fuelEs_pos (es : List (Value × Value)) : 1 ≤ fuelEs es := by
  cases es with
  | nil => simp [fuelEs]
  | cons e es => obtain ⟨k, v⟩ := e; simp only [fuelEs]; omega

theorem fuelFs_pos (fs : List (Name × Value)) : 1 ≤ fuelFs fs := by
  cases fs with
  | nil => simp [fuelFs]
  | cons fd fs => obtain ⟨n, v⟩ := fd; simp only [fuelFs]; omega

theorem fuelMTs_pos (ts : List MetaTuple) : 1 ≤ fuelMTs ts := by
  cases ts with
  | nil => simp [fuelMTs]
  | cons hd tl => cases hd; simp only [fuelMTs]; omega

theorem wfVs_mem : ∀ vs : List Value, wfVs vs = true → ∀ a ∈ vs, wfV a = true := by
  intro vs
  induction vs with
  | nil => intro _ a ha; simp at ha
  | cons v vs ih =>
    intro h a ha
    rw [wfVs, Bool.and_eq_true] at h
    rcases List.mem_cons.mp ha with rfl | ha2
    · exact h.1
    · exact ih h.2 a ha2

theorem fuelVs_mem : ∀ vs : List Value, ∀ a ∈ vs, fuelV a + 1 ≤ fuelVs vs := by
  intro vs
  induction vs with
  | nil => intro a ha; simp at ha
  | cons v vs ih =>
    intro a ha
    rcases List.mem_cons.mp ha with rfl | ha2
    · rw [fuelVs]; have := fuelVs_pos vs; omega
    · have := ih a ha2; rw [fuelVs]; omega

theorem wfEs_mem : ∀ es : List (Value × Value), wfEs es = true →
    ∀ k v : Value, (k, v) ∈ es → wfV k = true ∧ wfV v = true := by
  intro es
  induction es with
  | nil => intro _ k v he; simp at he
  | cons hd es ih =>
    intro h k v he
    rcases List.mem_cons.mp he with heq | he2
    · subst heq
      rw [wfEs, Bool.and_eq_true, Bool.and_eq_true] at h
      exact ⟨h.1.1, h.1.2⟩
    · obtain ⟨k2, v2⟩ := hd
      rw [wfEs, Bool.and_eq_true] at h
      exact ih h.2 k v he2

theorem fuelEs_mem : ∀ es : List (Value × Value), ∀ k v : Value, (k, v) ∈ es →
    fuelV k + fuelV v + 1 ≤ fuelEs es := by
  intro es
  induction es with
  | nil => intro k v he; simp at he
  | cons hd es ih =>
    intro k v he
    rcases List.mem_cons.mp he with heq | he2
    · subst heq
      rw [fuelEs]; have := fuelEs_pos es; omega
    · obtain ⟨k2, v2⟩ := hd
      have := ih k v he2; rw [fuelEs]; omega

theorem wfFs_mem : ∀ fs : List (Name × Value), wfFs fs = true →
    ∀ (n : Name) (v : Value), (n, v) ∈ fs → wfV v = true := by
  intro fs
  induction fs with
  | nil => intro _ n v he; simp at he
  | cons hd fs ih =>
    intro h n v he
    rcases List.mem_cons.mp he with heq | he2
    · subst heq
      rw [wfFs, Bool.and_eq_true] at h
      exact h.1
    · obtain ⟨n2, v2⟩ := hd
      rw [wfFs, Bool.and_eq_true] at h
      exact ih h.2 n v he2

theorem fuelFs_mem : ∀ fs : List (Name × Value), ∀ (n : Name) (v : Value), (n, v) ∈ fs →
    fuelV v + 1 ≤ fuelFs fs := by
  intro fs
  induction fs with
  | nil => intro n v he; simp at he
  | cons hd fs ih =>
    intro n v he
    rcases List.mem_cons.mp he with heq | he2
    · subst heq
      rw [fuelFs]; have := fuelFs_pos fs; omega
    · obtain ⟨n2, v2⟩ := hd
      have := ih n v he2; rw [fuelFs]; omega

theorem wfMTs_mem : ∀ ts : List MetaTuple, wfMTs ts = true →
    ∀ h t height b n, MetaTuple.mk h t height b n ∈ ts →
      h < 256 ^ hashByteLen ∧ wfT t [] = true ∧ wfV b = true := by
  intro ts
  induction ts with
  | nil => intro _ h t height b n hm; simp at hm
  | cons hd ts ih =>
    intro hw h t height b n hm
    rcases List.mem_cons.mp hm with heq | hm2
    · subst heq
      rw [wfMTs, Bool.and_eq_true, Bool.and_eq_true, Bool.and_eq_true,
        decide_eq_true_eq] at hw
      exact ⟨hw.1.1.1, hw.1.1.2, hw.1.2⟩
    · obtain ⟨h2, t2, height2, b2, n2⟩ := hd
      rw [wfMTs, Bool.and_eq_true] at hw
      exact ih hw.2 h t height b n hm2

theorem fuelMTs_mem : ∀ ts : List MetaTuple, ∀ h t height b n,
    MetaTuple.mk h t height b n ∈ ts → fuelT t + fuelV b + 4 ≤ fuelMTs ts := by
  intro ts
  induction ts with
  | nil => intro h t height b n hm; simp at hm
  | cons hd ts ih =>
    intro h t height b n hm
    rcases List.mem_cons.mp hm with heq | hm2
    · subst heq
      rw [fuelMTs]; have := fuelMTs_pos ts; omega
    · obtain ⟨h2, t2, height2, b2, n2⟩ := hd
      have := ih h t height b n hm2
      rw [fuelMTs]; omega

/-- The concatenated encoding of a list of items: the generic shape the
sequence encoders share. -/
def listEnc {α : Type} (enc : α → Bytes) : List α → Bytes
  | [] => []
  | a :: l => enc a ++ listEnc enc l

/-- The encoding of a single meta tuple, as writeMetaTuples writes it. -/
def writeMetaTuple1 : MetaTuple → Bytes
  | .mk h t height boundary numLeaves =>
    writeValue (.ref h t height) ++ writeValue boundary ++ writeCount numLeaves

theorem writeValueList_eq (vs : List Value) : writeValueList vs = listEnc writeValue vs := by
  induction vs with
  | nil => simp [writeValueList, listEnc]
  | cons v vs ih => simp [writeValueList, listEnc, ih]

theorem writeMapEntries_eq (es : List (Value × Value)) :
    writeMapEntries es = listEnc (fun e => writeValue e.1 ++ writeValue e.2) es := by
  induction es with
  | nil => simp [writeMapEntries, listEnc]
  | cons e es ih =>
    obtain ⟨k, v⟩ := e
    simp [writeMapEntries, listEnc, ih, List.append_assoc]

theorem writeFields_eq (fs : List (Name × Value)) :
    writeFields fs = listEnc (fun p => writeString p.1 ++ writeValue p.2) fs := by
  induction fs with
  | nil => simp [writeFields, listEnc]
  | cons p fs ih =>
    obtain ⟨n, v⟩ := p
    simp [writeFields, listEnc, ih, List.append_assoc]

theorem writeMetaTuples_eq (ts : List MetaTuple) :
    writeMetaTuples ts = listEnc writeMetaTuple1 ts := by
  induction ts with
  | nil => simp [writeMetaTuples, listEnc]
  | cons hd ts ih =>
    obtain ⟨h, t, height, b, n⟩ := hd
    simp [writeMetaTuples, listEnc, writeMetaTuple1, writeValue, ih, List.append_assoc]

theorem writeMetaTuples_cons (h : Nat) (t : NType) (height : Nat) (b : Value) (n : Nat)
    (ts : List MetaTuple) :
    writeMetaTuples (.mk h t height b n :: ts) =
      writeValue (.ref h t height) ++ writeValue b ++ writeCount n ++ writeMetaTuples ts := by
  simp [writeMetaTuples, writeValue, List.append_assoc]

theorem readLoop_enc {α : Type} (p : Bytes → Option (α × Bytes)) (enc : α → Bytes) :
    ∀ l : List α, (∀ a ∈ l, ∀ rest, p (enc a ++ rest) = some (a, rest)) →
      ∀ rest, readLoop p l.length (listEnc enc l ++ rest) = some (l, rest) := by
  intro l
  induction l with
  | nil => intro _ rest; simp [listEnc, readLoop]
  | cons a l ih =>
    intro hp rest
    have ha := hp a (List.mem_cons_self a l) (listEnc enc l ++ rest)
    have hl := ih (fun b hb r => hp b (List.mem_cons_of_mem a hb) r) rest
    simp only [listEnc, List.length_cons, readLoop, List.append_assoc, ha, hl]

theorem readMetaTupleWith_enc (rv : Bytes → Option (Value × Bytes)) (h : Nat) (t : NType)
    (height : Nat) (b : Value) (n : Nat)
    (h1 : ∀ r, rv (writeValue (.ref h t height) ++ r) = some (.ref h t height, r))
    (h2 : ∀ r, rv (writeValue b ++ r) = some (b, r)) (rest : Bytes) :
    readMetaTupleWith rv (writeMetaTuple1 (.mk h t height b n) ++ rest) =
      some (.mk h t height b n, rest) := by
  have ha := h1 (writeValue b ++ (writeCount n ++ rest))
  have hb := h2 (writeCount n ++ rest)
  simp only [writeMetaTuple1, List.append_assoc, readMetaTupleWith, ha, hb,
    readCount_writeCount]

theorem readEntryWith_enc (rv : Bytes → Option (Value × Bytes)) (k v : Value)
    (h1 : ∀ r, rv (writeValue k ++ r) = some (k, r))
    (h2 : ∀ r, rv (writeValue v ++ r) = some (v, r)) (rest : Bytes) :
    readEntryWith rv ((writeValue k ++ writeValue v) ++ rest) = some ((k, v), rest) := by
  have ha := h1 (writeValue v ++ rest)
  have hb := h2 rest
  simp only [List.append_assoc, readEntryWith, ha, hb]

theorem readFieldWith_enc (rv : Bytes → Option (Value × Bytes)) (n : Name) (v : Value)
    (h2 : ∀ r, rv (writeValue v ++ r) = some (v, r)) (rest : Bytes) :
    readFieldWith rv ((writeString n ++ writeValue v) ++ rest) = some ((n, v), rest) := by
  have ha := readString_writeString n (writeValue v ++ rest)
  have hb := h2 rest
  simp only [List.append_assoc, readFieldWith, ha, hb]

/-- Decode inverts encode: readValue on the canonical encoding of a
well-formed value, given enough fuel, returns exactly that value and leaves
exactly the trailing bytes. -/
theorem readValueAdequate : ∀ f : Nat, ∀ (v : Value) (rest : Bytes),
    wfV v = true → fuelV v ≤ f →
    readValue f (writeValue v ++ rest) = some (v, rest) := by
  intro f
  induction f using Nat.strong_induction_on with
  | _ f ih =>
    intro v rest hwf hfuel
    obtain ⟨f', rfl⟩ : ∃ f', f = f' + 1 := ⟨f - 1, by have := fuelV_pos v; omega⟩
    cases v with
    | bool b =>
      simp [writeValue, readValue, readKind_tag, readBool_writeBool]
    | number i j =>
      simp [writeValue, readValue, readKind_tag, readNumber_writeNumber,
        List.append_assoc]
    | str s =>
      simp [writeValue, readValue, readKind_tag, readString_writeString]
    | blobLeaf b =>
      simp [writeValue, readValue, readKind_tag, readCount_writeCount,
        readString_writeString, List.append_assoc]
    | blobMeta level ts =>
      rw [wfV, Bool.and_eq_true, decide_eq_true_eq] at hwf
      rw [fuelV] at hfuel
      have hp : ∀ mt ∈ ts, ∀ r,
          readMetaTupleWith (readValue f') (writeMetaTuple1 mt ++ r) = some (mt, r) := by
        intro mt hmt r
        obtain ⟨hh, tt, hgt, b, n⟩ := mt
        obtain ⟨hw1, hw2, hw3⟩ := wfMTs_mem ts hwf.2 hh tt hgt b n hmt
        have hf := fuelMTs_mem ts hh tt hgt b n hmt
        exact readMetaTupleWith_enc (readValue f') hh tt hgt b n
          (fun r2 => ih f' (by omega) (.ref hh tt hgt) r2
            (by rw [wfV, Bool.and_eq_true, decide_eq_true_eq]; exact ⟨hw1, hw2⟩)
            (by rw [fuelV]; omega))
          (fun r2 => ih f' (by omega) b r2 hw3 (by omega)) r
      have hloop := readLoop_enc (readMetaTupleWith (readValue f')) writeMetaTuple1 ts hp rest
      simp [writeValue, readValue, readKind_tag, readCount_writeCount, List.append_assoc,
        hwf.1, Nat.lt_of_lt_of_le Nat.zero_lt_one hwf.1, writeMetaTuples_eq, hloop]
    | listLeaf vs =>
      rw [wfV] at hwf
      rw [fuelV] at hfuel
      have hloop := readLoop_enc (readValue f') writeValue vs
        (fun a ha r => ih f' (by omega) a r (wfVs_mem vs hwf a ha)
          (by have := fuelVs_mem vs a ha; omega)) rest
      simp [writeValue, readValue, readKind_tag, readCount_writeCount,
        List.append_assoc, writeValueList_eq, hloop]
    | listMeta level ts =>
      rw [wfV, Bool.and_eq_true, decide_eq_true_eq] at hwf
      rw [fuelV] at hfuel
      have hp : ∀ mt ∈ ts, ∀ r,
          readMetaTupleWith (readValue f') (writeMetaTuple1 mt ++ r) = some (mt, r) := by
        intro mt hmt r
        obtain ⟨hh, tt, hgt, b, n⟩ := mt
        obtain ⟨hw1, hw2, hw3⟩ := wfMTs_mem ts hwf.2 hh tt hgt b n hmt
        have hf := fuelMTs_mem ts hh tt hgt b n hmt
        exact readMetaTupleWith_enc (readValue f') hh tt hgt b n
          (fun r2 => ih f' (by omega) (.ref hh tt hgt) r2
            (by rw [wfV, Bool.and_eq_true, decide_eq_true_eq]; exact ⟨hw1, hw2⟩)
            (by rw [fuelV]; omega))
          (fun r2 => ih f' (by omega) b r2 hw3 (by omega)) r
      have hloop := readLoop_enc (readMetaTupleWith (readValue f')) writeMetaTuple1 ts hp rest
      simp [writeValue, readValue, readKind_tag, readCount_writeCount, List.append_assoc,
        hwf.1, Nat.lt_of_lt_of_le Nat.zero_lt_one hwf.1, writeMetaTuples_eq, hloop]
    | mapLeaf es =>
      rw [wfV] at hwf
      rw [fuelV] at hfuel
      have hp : ∀ e ∈ es, ∀ r,
          readEntryWith (readValue f') ((writeValue e.1 ++ writeValue e.2) ++ r) =
            some (e, r) := by
        intro e he r
        obtain ⟨k, v⟩ := e
        obtain ⟨hw1, hw2⟩ := wfEs_mem es hwf k v he
        have hf := fuelEs_mem es k v he
        exact readEntryWith_enc (readValue f') k v
          (fun r2 => ih f' (by omega) k r2 hw1 (by omega))
          (fun r2 => ih f' (by omega) v r2 hw2 (by omega)) r
      have hloop := readLoop_enc (readEntryWith (readValue f'))
        (fun e => writeValue e.1 ++ writeValue e.2) es hp rest
      simp [writeValue, readValue, readKind_tag, readCount_writeCount,
        List.append_assoc, writeMapEntries_eq, hloop]
    | mapMeta level ts =>
      rw [wfV, Bool.and_eq_true, decide_eq_true_eq] at hwf
      rw [fuelV] at hfuel
      have hp : ∀ mt ∈ ts, ∀ r,
          readMetaTupleWith (readValue f') (writeMetaTuple1 mt ++ r) = some (mt, r) := by
        intro mt hmt r
        obtain ⟨hh, tt, hgt, b, n⟩ := mt
        obtain ⟨hw1, hw2, hw3⟩ := wfMTs_mem ts hwf.2 hh tt hgt b n hmt
        have hf := fuelMTs_mem ts hh tt hgt b n hmt
        exact readMetaTupleWith_enc (readValue f') hh tt hgt b n
          (fun r2 => ih f' (by omega) (.ref hh tt hgt) r2
            (by rw [wfV, Bool.and_eq_true, decide_eq_true_eq]; exact ⟨hw1, hw2⟩)
            (by rw [fuelV]; omega))
          (fun r2 => ih f' (by omega) b r2 hw3 (by omega)) r
      have hloop := readLoop_enc (readMetaTupleWith (readValue f')) writeMetaTuple1 ts hp rest
      simp [writeValue, readValue, readKind_tag, readCount_writeCount, List.append_assoc,
        hwf.1, Nat.lt_of_lt_of_le Nat.zero_lt_one hwf.1, writeMetaTuples_eq, hloop]
    | setLeaf vs =>
      rw [wfV] at hwf
      rw [fuelV] at hfuel
      have hloop := readLoop_enc (readValue f') writeValue vs
        (fun a ha r => ih f' (by omega) a r (wfVs_mem vs hwf a ha)
          (by have := fuelVs_mem vs a ha; omega)) rest
      simp [writeValue, readValue, readKind_tag, readCount_writeCount,
        List.append_assoc, writeValueList_eq, hloop]
    | setMeta level ts =>
      rw [wfV, Bool.and_eq_true, decide_eq_true_eq] at hwf
      rw [fuelV] at hfuel
      have hp : ∀ mt ∈ ts, ∀ r,
          readMetaTupleWith (readValue f') (writeMetaTuple1 mt ++ r) = some (mt, r) := by
        intro mt hmt r
        obtain ⟨hh, tt, hgt, b, n⟩ := mt
        obtain ⟨hw1, hw2, hw3⟩ := wfMTs_mem ts hwf.2 hh tt hgt b n hmt
        have hf := fuelMTs_mem ts hh tt hgt b n hmt
        exact readMetaTupleWith_enc (readValue f') hh tt hgt b n
          (fun r2 => ih f' (by omega) (.ref hh tt hgt) r2
            (by rw [wfV, Bool.and_eq_true, decide_eq_true_eq]; exact ⟨hw1, hw2⟩)
            (by rw [fuelV]; omega))
          (fun r2 => ih f' (by omega) b r2 hw3 (by omega)) r
      have hloop := readLoop_enc (readMetaTupleWith (readValue f')) writeMetaTuple1 ts hp rest
      simp [writeValue, readValue, readKind_tag, readCount_writeCount, List.append_assoc,
        hwf.1, Nat.lt_of_lt_of_le Nat.zero_lt_one hwf.1, writeMetaTuples_eq, hloop]
    | ref h t height =>
      rw [wfV, Bool.and_eq_true, decide_eq_true_eq] at hwf
      rw [fuelV] at hfuel
      have h1 := readHash_writeHash h hwf.1 (writeType t ++ (writeCount height ++ rest))
      have h2 := (readTypeAdequate f').1 t [] (writeCount height ++ rest) hwf.2 (by omega)
      simp [writeValue, readValue, readKind_tag, List.append_assoc, h1, h2,
        readCount_writeCount]
    | strct name fields =>
      rw [wfV] at hwf
      rw [fuelV] at hfuel
      have hp : ∀ p ∈ fields, ∀ r,
          readFieldWith (readValue f') ((writeString p.1 ++ writeValue p.2) ++ r) =
            some (p, r) := by
        intro p hpm r
        obtain ⟨n, v⟩ := p
        have hw := wfFs_mem fields hwf n v hpm
        have hf := fuelFs_mem fields n v hpm
        exact readFieldWith_enc (readValue f') n v
          (fun r2 => ih f' (by omega) v r2 hw (by omega)) r
      have hloop := readLoop_enc (readFieldWith (readValue f'))
        (fun p => writeString p.1 ++ writeValue p.2) fields hp rest
      simp [writeValue, readValue, readKind_tag, readString_writeString,
        readCount_writeCount, List.append_assoc, writeFields_eq, hloop]
    | type t =>
      rw [wfV] at hwf
      rw [fuelV] at hfuel
      have h1 := (readTypeAdequate f').1 t [] rest hwf (by omega)
      simp [writeValue, readValue, readKind_tag, h1]

theorem noMetaVs_mem : ∀ vs : List Value, noMetaVs vs = true → ∀ a ∈ vs, noMetaV a = true := by
  intro vs
  induction vs with
  | nil => intro _ a ha; simp at ha
  | cons v vs ih =>
    intro h a ha
    rw [noMetaVs, Bool.and_eq_true] at h
    rcases List.mem_cons.mp ha with rfl | ha2
    · exact h.1
    · exact ih h.2 a ha2

theorem noMetaEs_mem : ∀ es : List (Value × Value), noMetaEs es = true →
    ∀ k v : Value, (k, v) ∈ es → noMetaV k = true ∧ noMetaV v = true := by
  intro es
  induction es with
  | nil => intro _ k v he; simp at he
  | cons hd es ih =>
    intro h k v he
    rcases List.mem_cons.mp he with heq | he2
    · subst heq
      rw [noMetaEs, Bool.and_eq_true, Bool.and_eq_true] at h
      exact ⟨h.1.1, h.1.2⟩
    · obtain ⟨k2, v2⟩ := hd
      rw [noMetaEs, Bool.and_eq_true] at h
      exact ih h.2 k v he2

theorem noMetaFs_mem : ∀ fs : List (Name × Value), noMetaFs fs = true →
    ∀ (n : Name) (v : Value), (n, v) ∈ fs → noMetaV v = true := by
  intro fs
  induction fs with
  | nil => intro _ n v he; simp at he
  | cons hd fs ih =>
    intro h n v he
    rcases List.mem_cons.mp he with heq | he2
    · subst heq
      rw [noMetaFs, Bool.and_eq_true] at h
      exact h.1
    · obtain ⟨n2, v2⟩ := hd
      rw [noMetaFs, Bool.and_eq_true] at h
      exact ih h.2 n v he2

theorem skipLoop_enc {α : Type} (p : Bytes → Option Bytes) (enc : α → Bytes) :
    ∀ l : List α, (∀ a ∈ l, ∀ rest, p (enc a ++ rest) = some rest) →
      ∀ rest, skipLoop p l.length (listEnc enc l ++ rest) = some rest := by
  intro l
  induction l with
  | nil => intro _ rest; simp [listEnc, skipLoop]
  | cons a l ih =>
    intro hp rest
    have ha := hp a (List.mem_cons_self a l) (listEnc enc l ++ rest)
    have hl := ih (fun b hb r => hp b (List.mem_cons_of_mem a hb) r) rest
    simp only [listEnc, List.length_cons, skipLoop, List.append_assoc, ha, hl]

theorem skipEntryWith_enc (sv : Bytes → Option Bytes) (k v : Value)
    (h1 : ∀ r, sv (writeValue k ++ r) = some r)
    (h2 : ∀ r, sv (writeValue v ++ r) = some r) (rest : Bytes) :
    skipEntryWith sv ((writeValue k ++ writeValue v) ++ rest) = some rest := by
  have ha := h1 (writeValue v ++ rest)
  have hb := h2 rest
  simp only [List.append_assoc, skipEntryWith, ha, hb]

theorem skipFieldWith_enc (sv : Bytes → Option Bytes) (n : Name) (v : Value)
    (h2 : ∀ r, sv (writeValue v ++ r) = some r) (rest : Bytes) :
    skipFieldWith sv ((writeString n ++ writeValue v) ++ rest) = some rest := by
  have ha := skipString_writeString n (writeValue v ++ rest)
  have hb := h2 rest
  simp only [List.append_assoc, skipFieldWith, ha, hb]

/-- The source's skipValue consumes exactly the encoding of a well-formed
value that contains no meta sequence (on meta sequences it under-consumes,
claim C10). -/
theorem skipValue_enc : ∀ f : Nat, ∀ (v : Value) (rest : Bytes),
    wfV v = true → noMetaV v = true → fuelV v ≤ f →
    skipValue f (writeValue v ++ rest) = some rest := by
  intro f
  induction f using Nat.strong_induction_on with
  | _ f ih =>
    intro v rest hwf hnm hfuel
    obtain ⟨f', rfl⟩ : ∃ f', f = f' + 1 := ⟨f - 1, by have := fuelV_pos v; omega⟩
    cases v with
    | bool b =>
      simp [writeValue, skipValue, readKind_tag, readBool_writeBool]
    | number i j =>
      simp [writeValue, skipValue, readKind_tag, skipNumber, readNumber_writeNumber,
        List.append_assoc]
    | str s =>
      simp [writeValue, skipValue, readKind_tag, skipString_writeString]
    | blobLeaf b =>
      simp [writeValue, skipValue, readKind_tag, readCount_writeCount,
        skipString_writeString, List.append_assoc]
    | blobMeta level ts => simp [noMetaV] at hnm
    | listMeta level ts => simp [noMetaV] at hnm
    | mapMeta level ts => simp [noMetaV] at hnm
    | setMeta level ts => simp [noMetaV] at hnm
    | listLeaf vs =>
      rw [wfV] at hwf
      rw [noMetaV] at hnm
      rw [fuelV] at hfuel
      have hloop := skipLoop_enc (skipValue f') writeValue vs
        (fun a ha r => ih f' (by omega) a r (wfVs_mem vs hwf a ha)
          (noMetaVs_mem vs hnm a ha) (by have := fuelVs_mem vs a ha; omega)) rest
      simp [writeValue, skipValue, readKind_tag, readCount_writeCount,
        List.append_assoc, writeValueList_eq, hloop]
    | setLeaf vs =>
      rw [wfV] at hwf
      rw [noMetaV] at hnm
      rw [fuelV] at hfuel
      have hloop := skipLoop_enc (skipValue f') writeValue vs
        (fun a ha r => ih f' (by omega) a r (wfVs_mem vs hwf a ha)
          (noMetaVs_mem vs hnm a ha) (by have := fuelVs_mem vs a ha; omega)) rest
      simp [writeValue, skipValue, readKind_tag, readCount_writeCount,
        List.append_assoc, writeValueList_eq, hloop]
    | mapLeaf es =>
      rw [wfV] at hwf
      rw [noMetaV] at hnm
      rw [fuelV] at hfuel
      have hp : ∀ e ∈ es, ∀ r,
          skipEntryWith (skipValue f') ((writeValue e.1 ++ writeValue e.2) ++ r) =
            some r := by
        intro e he r
        obtain ⟨k, v⟩ := e
        obtain ⟨hw1, hw2⟩ := wfEs_mem es hwf k v he
        obtain ⟨hn1, hn2⟩ := noMetaEs_mem es hnm k v he
        have hf := fuelEs_mem es k v he
        exact skipEntryWith_enc (skipValue f') k v
          (fun r2 => ih f' (by omega) k r2 hw1 hn1 (by omega))
          (fun r2 => ih f' (by omega) v r2 hw2 hn2 (by omega)) r
      have hloop := skipLoop_enc (skipEntryWith (skipValue f'))
        (fun e => writeValue e.1 ++ writeValue e.2) es hp rest
      simp [writeValue, skipValue, readKind_tag, readCount_writeCount,
        List.append_assoc, writeMapEntries_eq, hloop]
    | ref h t height =>
      rw [wfV, Bool.and_eq_true, decide_eq_true_eq] at hwf
      rw [fuelV] at hfuel
      have h1 := skipHash_writeHash h hwf.1 (writeType t ++ (writeCount height ++ rest))
      have h2 := (skipTypeAdequate f').1 t [] (writeCount height ++ rest) hwf.2 (by omega)
      simp [writeValue, skipValue, readKind_tag, List.append_assoc, h1, h2,
        readCount_writeCount]
    | strct name fields =>
      rw [wfV] at hwf
      rw [noMetaV] at hnm
      rw [fuelV] at hfuel
      have hp : ∀ p ∈ fields, ∀ r,
          skipFieldWith (skipValue f') ((writeString p.1 ++ writeValue p.2) ++ r) =
            some r := by
        intro p hpm r
        obtain ⟨n, v⟩ := p
        have hw := wfFs_mem fields hwf n v hpm
        have hn := noMetaFs_mem fields hnm n v hpm
        have hf := fuelFs_mem fields n v hpm
        exact skipFieldWith_enc (skipValue f') n v
          (fun r2 => ih f' (by omega) v r2 hw hn (by omega)) r
      have hloop := skipLoop_enc (skipFieldWith (skipValue f'))
        (fun p => writeString p.1 ++ writeValue p.2) fields hp rest
      simp [writeValue, skipValue, readKind_tag, skipString_writeString,
        readCount_writeCount, List.append_assoc, writeFields_eq, hloop]
    | type t =>
      rw [wfV] at hwf
      rw [fuelV] at hfuel
      have h1 := (skipTypeAdequate f').1 t [] rest hwf (by omega)
      simp [writeValue, skipValue, readKind_tag, h1]

/-- The buffer suffixes at which the successive items of an encoded list
start. -/
def suffixStarts {α : Type} (enc : α → Bytes) : List α → Bytes → List Bytes
  | [], _ => []
  | a :: l, rest => (enc a ++ (listEnc enc l ++ rest)) :: suffixStarts enc l rest

theorem scanOffsets_enc {α : Type} (sv : Bytes → Option Bytes) (enc : α → Bytes) :
    ∀ l : List α, (∀ a ∈ l, ∀ rest, sv (enc a ++ rest) = some rest) →
      ∀ rest, scanOffsets sv l.length (listEnc enc l ++ rest) =
        some (suffixStarts enc l rest, rest) := by
  intro l
  induction l with
  | nil => intro _ rest; simp [listEnc, scanOffsets, suffixStarts]
  | cons a l ih =>
    intro hp rest
    have ha := hp a (List.mem_cons_self a l) (listEnc enc l ++ rest)
    have hl := ih (fun b hb r => hp b (List.mem_cons_of_mem a hb) r) rest
    simp only [listEnc, List.length_cons, scanOffsets, List.append_assoc, ha, hl,
      suffixStarts]

theorem decodeEach_enc (p : Bytes → Option (Value × Bytes)) :
    ∀ (l : List Value) (rest : Bytes),
      (∀ a ∈ l, ∀ r, p (writeValue a ++ r) = some (a, r)) →
      decodeEach p (suffixStarts writeValue l rest) = some l := by
  intro l
  induction l with
  | nil => intro rest _; simp [suffixStarts, decodeEach]
  | cons a l ih =>
    intro rest hp
    have ha := hp a (List.mem_cons_self a l) (listEnc writeValue l ++ rest)
    have hl := ih rest (fun b hb r => hp b (List.mem_cons_of_mem a hb) r)
    simp only [suffixStarts, decodeEach, ha, hl]

/-- The source readValue inverts the canonical encoding on well-formed
values that contain no meta sequence: within that domain the lazy offset
scan of the flat-List branch is exact, so the denoted elements are the
written ones. -/
theorem readValueL_enc : ∀ f : Nat, ∀ (v : Value) (rest : Bytes),
    wfV v = true → noMetaV v = true → fuelV v ≤ f →
    readValueL f (writeValue v ++ rest) = some (v, rest) := by
  intro f
  induction f using Nat.strong_induction_on with
  | _ f ih =>
    intro v rest hwf hnm hfuel
    obtain ⟨f', rfl⟩ : ∃ f', f = f' + 1 := ⟨f - 1, by have := fuelV_pos v; omega⟩
    cases v with
    | bool b =>
      simp [writeValue, readValueL, readKind_tag, readBool_writeBool]
    | number i j =>
      simp [writeValue, readValueL, readKind_tag, readNumber_writeNumber,
        List.append_assoc]
    | str s =>
      simp [writeValue, readValueL, readKind_tag, readString_writeString]
    | blobLeaf b =>
      simp [writeValue, readValueL, readKind_tag, readCount_writeCount,
        readString_writeString, List.append_assoc]
    | blobMeta level ts => simp [noMetaV] at hnm
    | listMeta level ts => simp [noMetaV] at hnm
    | mapMeta level ts => simp [noMetaV] at hnm
    | setMeta level ts => simp [noMetaV] at hnm
    | listLeaf vs =>
      rw [wfV] at hwf
      rw [noMetaV] at hnm
      rw [fuelV] at hfuel
      have hscan := scanOffsets_enc (skipValue f') writeValue vs
        (fun a ha r => skipValue_enc f' a r (wfVs_mem vs hwf a ha)
          (noMetaVs_mem vs hnm a ha) (by have := fuelVs_mem vs a ha; omega)) rest
      have hdec := decodeEach_enc (readValueL f') vs rest
        (fun a ha r => ih f' (by omega) a r (wfVs_mem vs hwf a ha)
          (noMetaVs_mem vs hnm a ha) (by have := fuelVs_mem vs a ha; omega))
      simp [writeValue, readValueL, readKind_tag, readCount_writeCount,
        List.append_assoc, writeValueList_eq, hscan, hdec]
    | setLeaf vs =>
      rw [wfV] at hwf
      rw [noMetaV] at hnm
      rw [fuelV] at hfuel
      have hloop := readLoop_enc (readValueL f') writeValue vs
        (fun a ha r => ih f' (by omega) a r (wfVs_mem vs hwf a ha)
          (noMetaVs_mem vs hnm a ha) (by have := fuelVs_mem vs a ha; omega)) rest
      simp [writeValue, readValueL, readKind_tag, readCount_writeCount,
        List.append_assoc, writeValueList_eq, hloop]
    | mapLeaf es =>
      rw [wfV] at hwf
      rw [noMetaV] at hnm
      rw [fuelV] at hfuel
      have hp : ∀ e ∈ es, ∀ r,
          readEntryWith (readValueL f') ((writeValue e.1 ++ writeValue e.2) ++ r) =
            some (e, r) := by
        intro e he r
        obtain ⟨k, v⟩ := e
        obtain ⟨hw1, hw2⟩ := wfEs_mem es hwf k v he
        obtain ⟨hn1, hn2⟩ := noMetaEs_mem es hnm k v he
        have hf := fuelEs_mem es k v he
        exact readEntryWith_enc (readValueL f') k v
          (fun r2 => ih f' (by omega) k r2 hw1 hn1 (by omega))
          (fun r2 => ih f' (by omega) v r2 hw2 hn2 (by omega)) r
      have hloop := readLoop_enc (readEntryWith (readValueL f'))
        (fun e => writeValue e.1 ++ writeValue e.2) es hp rest
      simp [writeValue, readValueL, readKind_tag, readCount_writeCount,
        List.append_assoc, writeMapEntries_eq, hloop]
    | ref h t height =>
      rw [wfV, Bool.and_eq_true, decide_eq_true_eq] at hwf
      rw [fuelV] at hfuel
      have h1 := readHash_writeHash h hwf.1 (writeType t ++ (writeCount height ++ rest))
      have h2 := (readTypeAdequate f').1 t [] (writeCount height ++ rest) hwf.2 (by omega)
      simp [writeValue, readValueL, readKind_tag, List.append_assoc, h1, h2,
        readCount_writeCount]
    | strct name fields =>
      rw [wfV] at hwf
      rw [noMetaV] at hnm
      rw [fuelV] at hfuel
      have hp : ∀ p ∈ fields, ∀ r,
          readFieldWith (readValueL f') ((writeString p.1 ++ writeValue p.2) ++ r) =
            some (p, r) := by
        intro p hpm r
        obtain ⟨n, v⟩ := p
        have hw := wfFs_mem fields hwf n v hpm
        have hn := noMetaFs_mem fields hnm n v hpm
        have hf := fuelFs_mem fields n v hpm
        exact readFieldWith_enc (readValueL f') n v
          (fun r2 => ih f' (by omega) v r2 hw hn (by omega)) r
      have hloop := readLoop_enc (readFieldWith (readValueL f'))
        (fun p => writeString p.1 ++ writeValue p.2) fields hp rest
      simp [writeValue, readValueL, readKind_tag, readString_writeString,
        readCount_writeCount, List.append_assoc, writeFields_eq, hloop]
    | type t =>
      rw [wfV] at hwf
      rw [fuelV] at hfuel
      have h1 := (readTypeAdequate f').1 t [] rest hwf (by omega)
      simp [writeValue, readValueL, readKind_tag, h1]

end Noms

namespace Noms

theorem skipValueEAdequate : ∀ f : Nat,
    (∀ v rest, wfV v = true → fuelV v ≤ f →
      skipValueE f (writeValue v ++ rest) = some rest) ∧
    (∀ vs rest, wfVs vs = true → fuelVs vs ≤ f →
      skipValuesEN f vs.length (writeValueList vs ++ rest) = some rest) ∧
    (∀ es rest, wfEs es = true → fuelEs es ≤ f →
      skipMapEntriesEN f es.length (writeMapEntries es ++ rest) = some rest) ∧
    (∀ fields rest, wfFs fields = true → fuelFs fields ≤ f →
      skipFieldsEN f fields.length (writeFields fields ++ rest) = some rest) ∧
    (∀ ts rest, wfMTs ts = true → fuelMTs ts ≤ f →
      skipMetaTuplesEN f ts.length (writeMetaTuples ts ++ rest) = some rest) := by
  intro f
  induction f using Nat.strong_induction_on with
  | _ f ih =>
    refine ⟨?_, ?_, ?_, ?_, ?_⟩
    · intro v rest hwf hfuel
      obtain ⟨f', rfl⟩ : ∃ f', f = f' + 1 := ⟨f - 1, by have := fuelV_pos v; omega⟩
      cases v with
      | bool b =>
        simp [writeValue, skipValueE, readKind_tag, readBool_writeBool]
      | number i j =>
        simp [writeValue, skipValueE, readKind_tag, skipNumber, readNumber_writeNumber,
          List.append_assoc]
      | str s =>
        simp [writeValue, skipValueE, readKind_tag, skipString_writeString]
      | blobLeaf b =>
        simp [writeValue, skipValueE, readKind_tag, readCount_writeCount,
          skipString_writeString, List.append_assoc]
      | blobMeta level ts =>
        rw [wfV, Bool.and_eq_true, decide_eq_true_eq] at hwf
        rw [fuelV] at hfuel
        obtain ⟨f'', rfl⟩ : ∃ f'', f' = f'' + 1 := ⟨f' - 1, by have := fuelMTs_pos ts; omega⟩
        have h2 := (ih f'' (by omega)).2.2.2.2 ts rest hwf.2 (by omega)
        simp [writeValue, skipValueE, readKind_tag, readCount_writeCount,
          skipMetaSequenceEN, List.append_assoc, Nat.lt_of_lt_of_le Nat.zero_lt_one hwf.1, h2]
      | listLeaf vs =>
        rw [wfV] at hwf
        rw [fuelV] at hfuel
        obtain ⟨f'', rfl⟩ : ∃ f'', f' = f'' + 1 := ⟨f' - 1, by have := fuelVs_pos vs; omega⟩
        have h1 := (ih f'' (by omega)).2.1 vs rest hwf (by omega)
        simp [writeValue, skipValueE, readKind_tag, readCount_writeCount,
          skipValueSequenceEN, List.append_assoc, h1]
      | listMeta level ts =>
        rw [wfV, Bool.and_eq_true, decide_eq_true_eq] at hwf
        rw [fuelV] at hfuel
        obtain ⟨f'', rfl⟩ : ∃ f'', f' = f'' + 1 := ⟨f' - 1, by have := fuelMTs_pos ts; omega⟩
        have h2 := (ih f'' (by omega)).2.2.2.2 ts rest hwf.2 (by omega)
        simp [writeValue, skipValueE, readKind_tag, readCount_writeCount,
          skipMetaSequenceEN, List.append_assoc, Nat.lt_of_lt_of_le Nat.zero_lt_one hwf.1, h2]
      | mapLeaf es =>
        rw [wfV] at hwf
        rw [fuelV] at hfuel
        obtain ⟨f'', rfl⟩ : ∃ f'', f' = f'' + 1 := ⟨f' - 1, by have := fuelEs_pos es; omega⟩
        have h1 := (ih f'' (by omega)).2.2.1 es rest hwf (by omega)
        simp [writeValue, skipValueE, readKind_tag, readCount_writeCount,
          skipMapLeafSequenceEN, List.append_assoc, h1]
      | mapMeta level ts =>
        rw [wfV, Bool.and_eq_true, decide_eq_true_eq] at hwf
        rw [fuelV] at hfuel
        obtain ⟨f'', rfl⟩ : ∃ f'', f' = f'' + 1 := ⟨f' - 1, by have := fuelMTs_pos ts; omega⟩
        have h2 := (ih f'' (by omega)).2.2.2.2 ts rest hwf.2 (by omega)
        simp [writeValue, skipValueE, readKind_tag, readCount_writeCount,
          skipMetaSequenceEN, List.append_assoc, Nat.lt_of_lt_of_le Nat.zero_lt_one hwf.1, h2]
      | setLeaf vs =>
        rw [wfV] at hwf
        rw [fuelV] at hfuel
        obtain ⟨f'', rfl⟩ : ∃ f'', f' = f'' + 1 := ⟨f' - 1, by have := fuelVs_pos vs; omega⟩
        have h1 := (ih f'' (by omega)).2.1 vs rest hwf (by omega)
        simp [writeValue, skipValueE, readKind_tag, readCount_writeCount,
          skipValueSequenceEN, List.append_assoc, h1]
      | setMeta level ts =>
        rw [wfV, Bool.and_eq_true, decide_eq_true_eq] at hwf
        rw [fuelV] at hfuel
        obtain ⟨f'', rfl⟩ : ∃ f'', f' = f'' + 1 := ⟨f' - 1, by have := fuelMTs_pos ts; omega⟩
        have h2 := (ih f'' (by omega)).2.2.2.2 ts rest hwf.2 (by omega)
        simp [writeValue, skipValueE, readKind_tag, readCount_writeCount,
          skipMetaSequenceEN, List.append_assoc, Nat.lt_of_lt_of_le Nat.zero_lt_one hwf.1, h2]
      | ref h t height =>
        rw [wfV, Bool.and_eq_true, decide_eq_true_eq] at hwf
        rw [fuelV] at hfuel
        have h1 := skipHash_writeHash h hwf.1 (writeType t ++ (writeCount height ++ rest))
        have h2 := (skipTypeAdequate f').1 t [] (writeCount height ++ rest) hwf.2 (by omega)
        simp [writeValue, skipValueE, readKind_tag, List.append_assoc, h1, h2,
          readCount_writeCount]
      | strct name fields =>
        rw [wfV] at hwf
        rw [fuelV] at hfuel
        obtain ⟨f'', rfl⟩ : ∃ f'', f' = f'' + 1 := ⟨f' - 1, by have := fuelFs_pos fields; omega⟩
        have h1 := (ih f'' (by omega)).2.2.2.1 fields rest hwf (by omega)
        simp [writeValue, skipValueE, readKind_tag, skipStructE, skipString_writeString,
          readCount_writeCount, List.append_assoc, h1]
      | type t =>
        rw [wfV] at hwf
        rw [fuelV] at hfuel
        have h1 := (skipTypeAdequate f').1 t [] rest hwf (by omega)
        simp [writeValue, skipValueE, readKind_tag, h1]
    · intro vs rest hwf hfuel
      cases vs with
      | nil => simp [writeValueList, skipValuesEN]
      | cons v vs =>
        rw [wfVs, Bool.and_eq_true] at hwf
        rw [fuelVs] at hfuel
        obtain ⟨f', rfl⟩ : ∃ f', f = f' + 1 := ⟨f - 1, by omega⟩
        have h1 := (ih f' (by omega)).1 v (writeValueList vs ++ rest) hwf.1
          (by have := fuelVs_pos vs; omega)
        have h2 := (ih f' (by omega)).2.1 vs rest hwf.2 (by have := fuelV_pos v; omega)
        simp only [writeValueList, List.length_cons, List.append_assoc, skipValuesEN, h1, h2]
    · intro es rest hwf hfuel
      cases es with
      | nil => simp [writeMapEntries, skipMapEntriesEN]
      | cons e es =>
        obtain ⟨k, v⟩ := e
        rw [wfEs, Bool.and_eq_true, Bool.and_eq_true] at hwf
        rw [fuelEs] at hfuel
        obtain ⟨f', rfl⟩ : ∃ f', f = f' + 1 := ⟨f - 1, by omega⟩
        have h1 := (ih f' (by omega)).1 k (writeValue v ++ (writeMapEntries es ++ rest)) hwf.1.1
          (by have := fuelEs_pos es; have := fuelV_pos v; omega)
        have h2 := (ih f' (by omega)).1 v (writeMapEntries es ++ rest) hwf.1.2
          (by have := fuelEs_pos es; have := fuelV_pos k; omega)
        have h3 := (ih f' (by omega)).2.2.1 es rest hwf.2
          (by have := fuelV_pos k; have := fuelV_pos v; omega)
        simp only [writeMapEntries, List.length_cons, List.append_assoc, skipMapEntriesEN,
          h1, h2, h3]
    · intro fields rest hwf hfuel
      cases fields with
      | nil => simp [writeFields, skipFieldsEN]
      | cons fd fields =>
        obtain ⟨n, v⟩ := fd
        rw [wfFs, Bool.and_eq_true] at hwf
        rw [fuelFs] at hfuel
        obtain ⟨f', rfl⟩ : ∃ f', f = f' + 1 := ⟨f - 1, by omega⟩
        have h1 := (ih f' (by omega)).1 v (writeFields fields ++ rest) hwf.1
          (by have := fuelFs_pos fields; omega)
        have h2 := (ih f' (by omega)).2.2.2.1 fields rest hwf.2 (by have := fuelV_pos v; omega)
        simp only [writeFields, List.length_cons, List.append_assoc, skipFieldsEN,
          skipString_writeString, h1, h2]
    · intro ts rest hwf hfuel
      cases ts with
      | nil => simp [writeMetaTuples, skipMetaTuplesEN]
      | cons hd ts =>
        obtain ⟨h, t, height, boundary, numLeaves⟩ := hd
        rw [wfMTs, Bool.and_eq_true, Bool.and_eq_true, Bool.and_eq_true,
          decide_eq_true_eq] at hwf
        rw [fuelMTs] at hfuel
        obtain ⟨f', rfl⟩ : ∃ f', f = f' + 1 := ⟨f - 1, by omega⟩
        have hwfref : wfV (.ref h t height) = true := by
          rw [wfV, Bool.and_eq_true, decide_eq_true_eq]
          exact ⟨hwf.1.1.1, hwf.1.1.2⟩
        have h1 := (ih f' (by omega)).1 (.ref h t height)
          (writeValue boundary ++ (writeCount numLeaves ++ (writeMetaTuples ts ++ rest)))
          hwfref (by rw [fuelV]; have := fuelMTs_pos ts; have := fuelV_pos boundary; omega)
        have h2 := (ih f' (by omega)).1 boundary
          (writeCount numLeaves ++ (writeMetaTuples ts ++ rest)) hwf.1.2
          (by have := fuelMTs_pos ts; omega)
        have h3 := (ih f' (by omega)).2.2.2.2 ts rest hwf.2
          (by have := fuelV_pos boundary; omega)
        simp only [writeMetaTuples_cons, List.length_cons, List.append_assoc, skipMetaTuplesEN,
          h1, h2, readCount_writeCount, h3]

/-- copyValue on an encoded value copies exactly that value's encoding. -/
theorem copyValueE_writeValue (f : Nat) (v : Value) (rest : Bytes)
    (hwf : wfV v = true) (hfuel : fuelV v ≤ f) :
    copyValueE f (writeValue v ++ rest) = some (writeValue v, rest) := by
  rw [copyValueE, (skipValueEAdequate f).1 v rest hwf hfuel]
  simp

end Noms

namespace Noms

/-! ## Go string ordering on names

Go compares strings bytewise lexicographically; sort.Sort(sort.StringSlice)
in NewStruct sorts field names ascending in this order. -/

/-- Go's string less-than on byte sequences. -/
def nameLtB : Name → Name → Bool
  | [], [] => false
  | [], _ :: _ => true
  | _ :: _, [] => false
  | a :: as, b :: bs => if a < b then true else if b < a then false else nameLtB as bs

theorem nameLtB_irrefl (a : Name) : nameLtB a a = false := by
  induction a with
  | nil => rfl
  | cons c cs ih => simp [nameLtB, ih]

theorem nameLtB_asymm : ∀ a b : Name, nameLtB a b = true → nameLtB b a = false := by
  intro a
  induction a with
  | nil =>
    intro b h
    cases b with
    | nil => simp [nameLtB] at h
    | cons d ds => rfl
  | cons c cs ih =>
    intro b h
    cases b with
    | nil => simp [nameLtB] at h
    | cons d ds =>
      rcases Nat.lt_trichotomy c d with h1 | h1 | h1
      · simp [nameLtB, Nat.lt_asymm h1, h1]
      · subst h1
        simp only [nameLtB, lt_irrefl, if_false] at h ⊢
        exact ih ds h
      · simp [nameLtB, Nat.lt_asymm h1, h1] at h

theorem nameLtB_trans : ∀ a b c : Name,
    nameLtB a b = true → nameLtB b c = true → nameLtB a c = true := by
  intro a
  induction a with
  | nil =>
    intro b c hab hbc
    cases b with
    | nil => simp [nameLtB] at hab
    | cons d ds =>
      cases c with
      | nil => simp [nameLtB] at hbc
      | cons e es => rfl
  | cons x xs ih =>
    intro b c hab hbc
    cases b with
    | nil => simp [nameLtB] at hab
    | cons d ds =>
      cases c with
      | nil => simp [nameLtB] at hbc
      | cons e es =>
        rcases Nat.lt_trichotomy x d with h1 | h1 | h1
        · rcases Nat.lt_trichotomy d e with h2 | h2 | h2
          · simp [nameLtB, Nat.lt_trans h1 h2]
          · subst h2
            simp [nameLtB, h1]
          · simp [nameLtB, Nat.lt_asymm h2, h2] at hbc
        · subst h1
          rcases Nat.lt_trichotomy x e with h2 | h2 | h2
          · simp [nameLtB, h2]
          · subst h2
            simp only [nameLtB, lt_irrefl, if_false] at hab hbc ⊢
            exact ih ds es hab hbc
          · simp [nameLtB, Nat.lt_asymm h2, h2] at hbc
        · simp [nameLtB, Nat.lt_asymm h1, h1] at hab

theorem nameLtB_total (a : Name) : ∀ b : Name, a ≠ b →
    nameLtB a b = true ∨ nameLtB b a = true := by
  induction a with
  | nil =>
    intro b hne
    cases b with
    | nil => exact absurd rfl hne
    | cons d ds => left; rfl
  | cons c cs ih =>
    intro b hne
    cases b with
    | nil => right; rfl
    | cons d ds =>
      rcases Nat.lt_trichotomy c d with h | h | h
      · left; simp [nameLtB, h]
      · subst h
        have hne2 : cs ≠ ds := by
          intro h2
          exact hne (by rw [h2])
        rcases ih ds hne2 with h | h
        · left; simp [nameLtB, h]
        · right; simp [nameLtB, h]
      · right; simp [nameLtB, h]

theorem nameLtB_ne (a b : Name) (h : nameLtB a b = true) : a ≠ b := by
  intro he
  subst he
  rw [nameLtB_irrefl] at h
  exact Bool.false_ne_true h

end Noms

namespace Noms

/-! ## Sorting field names (sort.Sort(sort.StringSlice(fieldNames))) -/

/-- Inserts a name into an already-sorted list at its position in Go string
order. -/
def insertName (n : Name) : List Name → List Name
  | [] => [n]
  | m :: ms => if nameLtB n m then n :: m :: ms else m :: insertName n ms

/-- Sorts names ascending in Go string order (the observable contract of
sort.Sort(sort.StringSlice ...) in NewStruct). -/
def sortNames : List Name → List Name
  | [] => []
  | n :: ns => insertName n (sortNames ns)

/-- The non-strict order on names used to state sortedness. -/
def nameLe (a b : Name) : Prop := nameLtB a b = true ∨ a = b

theorem nameLe_total (a b : Name) : nameLe a b ∨ nameLe b a := by
  by_cases h : a = b
  · left; right; exact h
  · rcases nameLtB_total a b h with h1 | h1
    · left; left; exact h1
    · right; left; exact h1

theorem nameLe_antisymm (a b : Name) (h1 : nameLe a b) (h2 : nameLe b a) : a = b := by
  rcases h1 with h1 | h1
  · rcases h2 with h2 | h2
    · rw [nameLtB_asymm a b h1] at h2
      exact absurd h2 (by simp)
    · exact h2.symm
  · exact h1

theorem insertName_perm (n : Name) (l : List Name) : (insertName n l).Perm (n :: l) := by
  induction l with
  | nil => exact List.Perm.refl _
  | cons m ms ih =>
    rw [insertName]
    by_cases h : nameLtB n m = true
    · rw [if_pos h]
    · rw [if_neg h]
      exact ((ih.cons m).trans (List.Perm.swap n m ms))

theorem sortNames_perm (l : List Name) : (sortNames l).Perm l := by
  induction l with
  | nil => exact List.Perm.refl _
  | cons n ns ih =>
    rw [sortNames]
    exact (insertName_perm n (sortNames ns)).trans (ih.cons n)

theorem insertName_sorted (n : Name) (l : List Name) (hs : l.Sorted nameLe) :
    (insertName n l).Sorted nameLe := by
  induction l with
  | nil => simp [insertName]
  | cons m ms ih =>
    rw [List.sorted_cons] at hs
    rw [insertName]
    by_cases h : nameLtB n m = true
    · rw [if_pos h]
      rw [List.sorted_cons]
      constructor
      · intro b hb
        rcases List.mem_cons.mp hb with hb2 | hb2
        · subst hb2
          exact Or.inl h
        · rcases hs.1 b hb2 with h2 | h2
          · exact Or.inl (nameLtB_trans n m b h h2)
          · subst h2
            exact Or.inl h
      · rw [List.sorted_cons]
        exact hs
    · rw [if_neg h]
      rw [List.sorted_cons]
      constructor
      · intro b hb
        have hb2 := (insertName_perm n ms).mem_iff.mp hb
        rcases List.mem_cons.mp hb2 with hb3 | hb3
        · subst hb3
          rcases nameLe_total m b with h2 | h2
          · exact h2
          · rcases h2 with h2 | h2
            · exact absurd h2 (by simp [h])
            · right
              exact h2.symm
        · exact hs.1 b hb3
      · exact ih hs.2

theorem sortNames_sorted (l : List Name) : (sortNames l).Sorted nameLe := by
  induction l with
  | nil => simp [sortNames]
  | cons n ns ih =>
    rw [sortNames]
    exact insertName_sorted n (sortNames ns) ih

theorem sortNames_eq_of_perm (l1 l2 : List Name) (h : l1.Perm l2) :
    sortNames l1 = sortNames l2 := by
  haveI : IsAntisymm Name nameLe := ⟨nameLe_antisymm⟩
  exact List.eq_of_perm_of_sorted
    (((sortNames_perm l1).trans h).trans (sortNames_perm l2).symm)
    (sortNames_sorted l1) (sortNames_sorted l2)

/-- A sorted list of distinct names is strictly ascending. -/
theorem sorted_nodup_pairwise_lt (l : List Name) (hs : l.Sorted nameLe) (hnd : l.Nodup) :
    l.Pairwise (fun a b => nameLtB a b = true) := by
  induction l with
  | nil => exact List.Pairwise.nil
  | cons a as ih =>
    rw [List.sorted_cons] at hs
    rw [List.nodup_cons] at hnd
    rw [List.pairwise_cons]
    refine ⟨?_, ih hs.2 hnd.2⟩
    intro b hb
    rcases hs.1 b hb with h1 | h1
    · exact h1
    · subst h1
      exact absurd hb hnd.1

theorem sortNames_pairwise_lt (l : List Name) (hnd : l.Nodup) :
    (sortNames l).Pairwise (fun a b => nameLtB a b = true) :=
  sorted_nodup_pairwise_lt _ (sortNames_sorted l) ((sortNames_perm l).nodup_iff.mpr hnd)

end Noms

namespace Noms

/-! ## Field-name validation (struct.go) -/

/-- The head character class of a field name: matches [a-zA-Z]. -/
def isAlphaChar (c : Nat) : Bool := (65 ≤ c && c ≤ 90) || (97 ≤ c && c ≤ 122)

/-- The tail character class of a field name: matches [a-zA-Z0-9_]. -/
def isTailChar (c : Nat) : Bool := isAlphaChar c || (48 ≤ c && c ≤ 57) || c == 95

/-- IsValidStructFieldName: the name matches the anchored pattern
[a-zA-Z][a-zA-Z0-9_]* in full. The character classes are ASCII, so the same
predicate reads a byte sequence or a rune sequence identically. -/
def IsValidStructFieldName (n : List Nat) : Bool :=
  match n with
  | [] => false
  | c :: cs => isAlphaChar c && cs.all isTailChar

/-- verifyStructName: the empty name is allowed for structs; otherwise the
same grammar as field names. -/
def verifyStructNameB (n : Name) : Bool := n == [] || IsValidStructFieldName n

/-! ## Struct construction (newStruct / NewStruct) -/

/-- The field-writing loop of newStruct: parallel fieldNames / values lists. -/
def writeNamedValues : List Name → List Value → Bytes
  | n :: ns, v :: vs => writeString n ++ writeValue v ++ writeNamedValues ns vs
  | _, _ => []

/-- newStruct: writes the canonical struct encoding once: kind tag, name,
field count, then each field name and value in the given order. -/
def newStruct (name : Name) (fieldNames : List Name) (values : List Value) : Bytes :=
  NomsKind.Struct.tag ::
    (writeString name ++ writeCount fieldNames.length ++ writeNamedValues fieldNames values)

/-- Go map lookup on the association list that models StructData. -/
def structDataLookup (data : List (Name × Value)) (n : Name) : Option Value :=
  match data with
  | [] => none
  | (m, v) :: rest => if m = n then some v else structDataLookup rest n

/-- NewStruct: validates the struct name and every field name, sorts the
field names ascending, gathers the values in sorted-name order from the
mapping, and writes the canonical encoding. The association list stands for
the StructData map; its order models Go's arbitrary map enumeration order.
Validation failure is fatal in the source, modelled as none. -/
def NewStruct (name : Name) (data : List (Name × Value)) : Option Bytes :=
  if verifyStructNameB name && data.all (fun p => IsValidStructFieldName p.1) then
    let fieldNames := sortNames (data.map (fun p => p.1))
    let values := fieldNames.map (fun n => (structDataLookup data n).getD (.bool false))
    some (newStruct name fieldNames values)
  else none

/-! ## Struct read operations (struct.go) -/

/-- Struct.decoderSkipToFields: skipKind, skipString (the struct name), then
readCount; returns the field count and the decoder position at the first
field. -/
def decoderSkipToFields (buff : Bytes) : Option (Nat × Bytes) :=
  match skipKind buff with
  | some bs =>
    match skipString bs with
    | some bs => readCount bs
    | none => none
  | none => none

/-- Struct.Len: the field count, without materializing values. -/
def structLen (buff : Bytes) : Option Nat :=
  match decoderSkipToFields buff with
  | some (count, _) => some count
  | none => none

/-- The scan loop of Struct.MaybeGet: per field read the name; on a match
read and return the value; once past the target alphabetically return
not-found; otherwise skip the value and continue. -/
def maybeGetLoop (f : Nat) : Nat → Bytes → Name → Option (Option Value)
  | 0, _, _ => some none
  | c + 1, bs, n =>
    match readString bs with
    | some (name, bs) =>
      if name = n then
        match readValue f bs with
        | some (v, _) => some (some v)
        | none => none
      else if nameLtB n name then some none
      else
        match skipValueE f bs with
        | some bs => maybeGetLoop f c bs n
        | none => none
    | none => none

/-- Struct.MaybeGet: value of the field plus a found flag; outer none is a
decoding failure. -/
def structMaybeGet (f : Nat) (buff : Bytes) (n : Name) : Option (Option Value) :=
  match decoderSkipToFields buff with
  | some (count, bs) => maybeGetLoop f count bs n
  | none => none

/-! ## Struct.Set -/

/-- The outcome of one pass of Struct.set: a finished buffer, or the
restart request taken when a new field is discovered with addedCount 0
(w.reset() followed by s.set(w, n, v, 1) in the source). -/
inductive SetOutcome where
  | done (w : Bytes)
  | restart

/-- The field loop of Struct.set. The writer accumulates in `w`; `n`, `v`
are the field being set; addedCount and newFieldHandled as in the source. -/
def setLoop (f : Nat) : Nat → Bytes → Name → Value → Nat → Bool → Bytes → Option SetOutcome
  | 0, _, n, v, addedCount, newFieldHandled, w =>
    if !newFieldHandled then
      if addedCount = 1 then some (.done (w ++ writeString n ++ writeValue v))
      else some .restart
    else some (.done w)
  | c + 1, bs, n, v, addedCount, newFieldHandled, w =>
    match readString bs with
    | some (name, bs) =>
      if n = name then
        match skipValueE f bs with
        | some bs => setLoop f c bs n v addedCount true (w ++ writeString name ++ writeValue v)
        | none => none
      else if !newFieldHandled && nameLtB n name then
        if addedCount = 0 then some .restart
        else
          match copyValueE f bs with
          | some (span, bs) =>
            setLoop f c bs n v addedCount true
              (w ++ writeString n ++ writeValue v ++ writeString name ++ span)
          | none => none
      else
        match copyValueE f bs with
        | some (span, bs) =>
          setLoop f c bs n v addedCount newFieldHandled (w ++ writeString name ++ span)
        | none => none
    | none => none

/-- One pass of Struct.set: writes the kind tag, copies the struct name,
writes count + addedCount, then runs the field loop. -/
def setGo (f : Nat) (buff : Bytes) (n : Name) (v : Value) (addedCount : Nat) :
    Option SetOutcome :=
  match skipKind buff with
  | some bs =>
    match copyString bs with
    | some (nameSpan, bs) =>
      match readCount bs with
      | some (count, bs) =>
        setLoop f count bs n v addedCount false
          (NomsKind.Struct.tag :: (nameSpan ++ writeCount (count + addedCount)))
      | none => none
    | none => none
  | none => none

/-- Struct.Set: validates the field name, then runs set with addedCount 0;
on the restart request reruns with addedCount 1 and a fresh writer (the
restart can only arise from addedCount 0). -/
def structSet (f : Nat) (buff : Bytes) (n : Name) (v : Value) : Option Bytes :=
  if IsValidStructFieldName n then
    match setGo f buff n v 0 with
    | some (.done w) => some w
    | some .restart =>
      match setGo f buff n v 1 with
      | some (.done w) => some w
      | _ => none
    | none => none
  else none

/-! ## Struct.Delete -/

/-- The field loop of Struct.Delete: the matching field is skipped and
`found` set; every other field is byte-copied to the writer. -/
def deleteLoop (f : Nat) : Nat → Bytes → Name → Bool → Bytes → Option (Bool × Bytes)
  | 0, _, _, found, w => some (found, w)
  | c + 1, bs, n, found, w =>
    match readString bs with
    | some (name, bs) =>
      if n = name then
        match skipValueE f bs with
        | some bs => deleteLoop f c bs n true w
        | none => none
      else
        match copyValueE f bs with
        | some (span, bs) => deleteLoop f c bs n found (w ++ writeString name ++ span)
        | none => none
    | none => none

/-- Struct.Delete: writes kind tag, copies the name, writes count - 1 (the
subtraction is discarded when the field is absent, in which case the
original struct is returned unchanged; Nat subtraction stands for the
uint64, whose value is only used when found, hence count is at least 1). -/
def structDelete (f : Nat) (buff : Bytes) (n : Name) : Option Bytes :=
  match skipKind buff with
  | some bs =>
    match copyString bs with
    | some (nameSpan, bs) =>
      match readCount bs with
      | some (count, bs) =>
        match deleteLoop f count bs n false
            (NomsKind.Struct.tag :: (nameSpan ++ writeCount (count - 1))) with
        | some (true, w) => some w
        | some (false, _) => some buff
        | none => none
      | none => none
    | none => none
  | none => none

end Noms

namespace Noms

/-! ## Correctness of the struct read operations on canonical encodings -/

theorem writeFields_append (a b : List (Name × Value)) :
    writeFields (a ++ b) = writeFields a ++ writeFields b := by
  induction a with
  | nil => simp [writeFields]
  | cons hd tl ih =>
    obtain ⟨n, v⟩ := hd
    simp [writeFields, ih]

/-- The struct buffer decomposes as tag, name, count, fields. -/
theorem writeValue_strct (name : Name) (fields : List (Name × Value)) :
    writeValue (.strct name fields) =
      NomsKind.Struct.tag ::
        (writeString name ++ (writeCount fields.length ++ writeFields fields)) := by
  simp [writeValue, List.append_assoc]

theorem decoderSkipToFields_strct (name : Name) (fields : List (Name × Value)) :
    decoderSkipToFields (writeValue (.strct name fields)) =
      some (fields.length, writeFields fields) := by
  simp [writeValue_strct, decoderSkipToFields, skipKind_tag, skipString_writeString,
    readCount_writeCount]

theorem structLen_strct (name : Name) (fields : List (Name × Value)) :
    structLen (writeValue (.strct name fields)) = some fields.length := by
  rw [structLen, decoderSkipToFields_strct]

theorem structDataLookup_none (fields : List (Name × Value)) (n : Name)
    (h : ∀ p ∈ fields, p.1 ≠ n) : structDataLookup fields n = none := by
  induction fields with
  | nil => rfl
  | cons hd tl ih =>
    obtain ⟨m, v⟩ := hd
    rw [structDataLookup, if_neg (h (m, v) (List.mem_cons_self _ _))]
    exact ih (fun p hp => h p (List.mem_cons_of_mem _ hp))

theorem maybeGetLoop_spec (f : Nat) (n : Name) :
    ∀ (fields : List (Name × Value)) (rest : Bytes),
      fields.Pairwise (fun a b => nameLtB a.1 b.1 = true) →
      wfFs fields = true → fuelFs fields ≤ f →
      maybeGetLoop f fields.length (writeFields fields ++ rest) n =
        some (structDataLookup fields n) := by
  intro fields
  induction fields with
  | nil =>
    intro rest _ _ _
    simp [writeFields, maybeGetLoop, structDataLookup]
  | cons hd fs ih =>
    intro rest hsort hwf hfuel
    obtain ⟨m, mv⟩ := hd
    rw [List.pairwise_cons] at hsort
    rw [wfFs, Bool.and_eq_true] at hwf
    rw [fuelFs] at hfuel
    rw [writeFields, structDataLookup]
    simp only [List.length_cons, List.append_assoc, maybeGetLoop, readString_writeString]
    by_cases hm : m = n
    · subst hm
      have h1 := readValueAdequate f mv (writeFields fs ++ rest) hwf.1
        (by have := fuelFs_pos fs; omega)
      simp [h1]
    · by_cases hlt : nameLtB n m = true
      · have hnone : structDataLookup fs n = none := by
          apply structDataLookup_none
          intro p hp
          have hmp := hsort.1 p hp
          intro hpn
          exact nameLtB_ne n p.1 (nameLtB_trans n m p.1 hlt hmp) hpn.symm
        simp [hm, hlt, hnone]
      · have h1 := (skipValueEAdequate f).1 mv (writeFields fs ++ rest) hwf.1
          (by have := fuelFs_pos fs; omega)
        have h2 := ih rest hsort.2 hwf.2 (by have := fuelV_pos mv; omega)
        simp [hm, hlt, h1, h2]

theorem structMaybeGet_spec (f : Nat) (sname n : Name) (fields : List (Name × Value))
    (hsort : fields.Pairwise (fun a b => nameLtB a.1 b.1 = true))
    (hwf : wfFs fields = true) (hfuel : fuelFs fields ≤ f) :
    structMaybeGet f (writeValue (.strct sname fields)) n =
      some (structDataLookup fields n) := by
  rw [structMaybeGet, decoderSkipToFields_strct]
  have := maybeGetLoop_spec f n fields [] hsort hwf hfuel
  rwa [List.append_nil] at this

end Noms

namespace Noms

/-! ## Correctness of Struct.Set -/

/-- The field list after Set: replace the matching field in place, or
insert the new field at its sorted position. -/
def setFields (fields : List (Name × Value)) (n : Name) (v : Value) : List (Name × Value) :=
  match fields with
  | [] => [(n, v)]
  | (m, w) :: fs =>
    if n = m then (n, v) :: fs
    else if nameLtB n m then (n, v) :: (m, w) :: fs
    else (m, w) :: setFields fs n v

theorem setFields_mem_of (n : Name) (v : Value) (p : Name × Value) :
    ∀ fields : List (Name × Value),
      p ∈ setFields fields n v → p = (n, v) ∨ p ∈ fields := by
  intro fields
  induction fields with
  | nil =>
    intro hp
    rw [setFields, List.mem_singleton] at hp
    exact Or.inl hp
  | cons hd fs ih =>
    obtain ⟨m, w⟩ := hd
    intro hp
    by_cases hm : n = m
    · rw [setFields, if_pos hm] at hp
      rcases List.mem_cons.mp hp with h | h
      · exact Or.inl h
      · exact Or.inr (List.mem_cons_of_mem _ h)
    · by_cases hlt : nameLtB n m = true
      · rw [setFields, if_neg hm, if_pos hlt] at hp
        rcases List.mem_cons.mp hp with h | h
        · exact Or.inl h
        · exact Or.inr h
      · rw [setFields, if_neg hm, if_neg hlt] at hp
        rcases List.mem_cons.mp hp with h | h
        · exact Or.inr (h ▸ List.mem_cons_self _ _)
        · rcases ih h with h2 | h2
          · exact Or.inl h2
          · exact Or.inr (List.mem_cons_of_mem _ h2)

theorem setFields_length (fields : List (Name × Value)) (n : Name) (v : Value)
    (hsort : fields.Pairwise (fun a b => nameLtB a.1 b.1 = true)) :
    (setFields fields n v).length =
      fields.length + (if n ∈ fields.map (fun p => p.1) then 0 else 1) := by
  induction fields with
  | nil => simp [setFields]
  | cons hd fs ih =>
    obtain ⟨m, w⟩ := hd
    rw [List.pairwise_cons] at hsort
    by_cases hm : n = m
    · subst hm
      simp [setFields]
    · by_cases hlt : nameLtB n m = true
      · have hnot : n ∉ ((m, w) :: fs).map (fun p => p.1) := by
          intro hmem
          rcases List.mem_map.mp hmem with ⟨p, hp, hpe⟩
          rcases List.mem_cons.mp hp with h2 | h2
          · subst h2
            exact hm hpe.symm
          · have := hsort.1 p h2
            rw [hpe] at this
            exact nameLtB_ne n n (nameLtB_trans n m n hlt this) rfl
        simp only [setFields, if_neg hm, if_pos hlt, List.length_cons, if_neg hnot]
      · have hiff : (n ∈ ((m, w) :: fs).map (fun p => p.1)) ↔ (n ∈ fs.map (fun p => p.1)) := by
          simp only [List.map_cons, List.mem_cons]
          constructor
          · intro h
            rcases h with h | h
            · exact absurd h.symm (fun he => hm (he.symm))
            · exact h
          · exact Or.inr
        rw [setFields, if_neg hm, if_neg hlt]
        simp only [List.length_cons, ih hsort.2]
        by_cases hin : n ∈ fs.map (fun p => p.1)
        · simp [hin, hiff.mpr hin]
        · rw [if_neg hin, if_neg (fun h => hin (hiff.mp h))]

theorem setFields_lookup (fields : List (Name × Value)) (n : Name) (v : Value) :
    structDataLookup (setFields fields n v) n = some v := by
  induction fields with
  | nil => simp [setFields, structDataLookup]
  | cons hd fs ih =>
    obtain ⟨m, w⟩ := hd
    by_cases hm : n = m
    · subst hm
      simp [setFields, structDataLookup]
    · by_cases hlt : nameLtB n m = true
      · simp [setFields, hm, hlt, structDataLookup]
      · have hmn : ¬ m = n := fun h => hm h.symm
        simp [setFields, hm, hlt, structDataLookup, hmn, ih]

theorem setFields_pairwise (fields : List (Name × Value)) (n : Name) (v : Value)
    (hsort : fields.Pairwise (fun a b => nameLtB a.1 b.1 = true)) :
    (setFields fields n v).Pairwise (fun a b => nameLtB a.1 b.1 = true) := by
  induction fields with
  | nil =>
    rw [setFields]
    exact List.pairwise_singleton _ _
  | cons hd fs ih =>
    obtain ⟨m, w⟩ := hd
    rw [List.pairwise_cons] at hsort
    by_cases hm : n = m
    · subst hm
      rw [setFields, if_pos rfl, List.pairwise_cons]
      exact hsort
    · by_cases hlt : nameLtB n m = true
      · rw [setFields, if_neg hm, if_pos hlt, List.pairwise_cons]
        constructor
        · intro p hp
          rcases List.mem_cons.mp hp with hp2 | hp2
          · rw [hp2]
            exact hlt
          · exact nameLtB_trans n m p.1 hlt (hsort.1 p hp2)
        · rw [List.pairwise_cons]
          exact hsort
      · rw [setFields, if_neg hm, if_neg hlt, List.pairwise_cons]
        constructor
        · intro p hp
          rcases setFields_mem_of n v p fs hp with hp2 | hp2
          · rw [hp2]
            rcases nameLtB_total m n (fun he => hm he.symm) with h1 | h1
            · exact h1
            · exact absurd h1 (by simp [hlt])
          · exact hsort.1 p hp2
        · exact ih hsort.2

theorem setFields_wf (fields : List (Name × Value)) (n : Name) (v : Value)
    (hwf : wfFs fields = true) (hv : wfV v = true) :
    wfFs (setFields fields n v) = true := by
  induction fields with
  | nil => simp [setFields, wfFs, hv]
  | cons hd fs ih =>
    obtain ⟨m, w⟩ := hd
    rw [wfFs, Bool.and_eq_true] at hwf
    by_cases hm : n = m
    · subst hm
      rw [setFields, if_pos rfl, wfFs, Bool.and_eq_true]
      exact ⟨hv, hwf.2⟩
    · by_cases hlt : nameLtB n m = true
      · rw [setFields, if_neg hm, if_pos hlt, wfFs, Bool.and_eq_true]
        refine ⟨hv, ?_⟩
        rw [wfFs, Bool.and_eq_true]
        exact hwf
      · rw [setFields, if_neg hm, if_neg hlt, wfFs, Bool.and_eq_true]
        exact ⟨hwf.1, ih hwf.2⟩

theorem setFields_fuel (fields : List (Name × Value)) (n : Name) (v : Value) :
    fuelFs (setFields fields n v) ≤ 1 + fuelV v + fuelFs fields := by
  induction fields with
  | nil =>
    simp [setFields, fuelFs]
  | cons hd fs ih =>
    obtain ⟨m, w⟩ := hd
    by_cases hm : n = m
    · subst hm
      rw [setFields, if_pos rfl]
      simp only [fuelFs]
      have := fuelV_pos w
      have := ih
      omega
    · by_cases hlt : nameLtB n m = true
      · rw [setFields, if_neg hm, if_pos hlt]
        simp only [fuelFs]
        omega
      · rw [setFields, if_neg hm, if_neg hlt]
        simp only [fuelFs]
        have := ih
        omega

end Noms

namespace Noms

theorem setLoop_handled (f : Nat) (n : Name) (v : Value) (ac : Nat) :
    ∀ (fields : List (Name × Value)) (rest : Bytes) (w : Bytes),
      (∀ p ∈ fields, p.1 ≠ n) → wfFs fields = true → fuelFs fields ≤ f →
      setLoop f fields.length (writeFields fields ++ rest) n v ac true w =
        some (.done (w ++ writeFields fields)) := by
  intro fields
  induction fields with
  | nil =>
    intro rest w _ _ _
    simp [writeFields, setLoop]
  | cons hd fs ih =>
    intro rest w hne hwf hfuel
    obtain ⟨m, mv⟩ := hd
    rw [wfFs, Bool.and_eq_true] at hwf
    rw [fuelFs] at hfuel
    have hm : ¬ n = m := fun h => hne (m, mv) (List.mem_cons_self _ _) h.symm
    have hcopy := copyValueE_writeValue f mv (writeFields fs ++ rest) hwf.1
      (by have := fuelFs_pos fs; omega)
    have hrec := ih rest (w ++ (writeString m ++ writeValue mv))
      (fun p hp => hne p (List.mem_cons_of_mem _ hp)) hwf.2
      (by have := fuelV_pos mv; omega)
    simp only [writeFields, List.length_cons, List.append_assoc, setLoop,
      readString_writeString, if_neg hm, Bool.not_true, Bool.false_and, Bool.false_eq_true,
      if_false, hcopy] at hrec ⊢
    rw [hrec]

theorem setLoop_main (f : Nat) (n : Name) (v : Value) (ac : Nat)
    (hacle : ac = 0 ∨ ac = 1) :
    ∀ (fields : List (Name × Value)) (rest : Bytes) (w : Bytes),
      fields.Pairwise (fun a b => nameLtB a.1 b.1 = true) →
      wfFs fields = true → fuelFs fields ≤ f →
      setLoop f fields.length (writeFields fields ++ rest) n v ac false w =
        (if n ∈ fields.map (fun p => p.1) then
          some (.done (w ++ writeFields (setFields fields n v)))
        else if ac = 1 then some (.done (w ++ writeFields (setFields fields n v)))
        else some .restart) := by
  intro fields
  induction fields with
  | nil =>
    intro rest w _ _ _
    by_cases hac : ac = 1
    · simp [writeFields, setLoop, setFields, hac, List.append_assoc]
    · simp [writeFields, setLoop, setFields, hac]
  | cons hd fs ih =>
    intro rest w hsort hwf hfuel
    obtain ⟨m, mv⟩ := hd
    rw [List.pairwise_cons] at hsort
    rw [wfFs, Bool.and_eq_true] at hwf
    rw [fuelFs] at hfuel
    by_cases hm : n = m
    · subst hm
      have hskip := (skipValueEAdequate f).1 mv (writeFields fs ++ rest) hwf.1
        (by have := fuelFs_pos fs; omega)
      have hrec := setLoop_handled f n v ac fs rest (w ++ (writeString n ++ writeValue v))
        (fun p hp h => nameLtB_ne n p.1 (hsort.1 p hp) h.symm)
        hwf.2 (by have := fuelV_pos mv; omega)
      simp only [writeFields, List.length_cons, List.append_assoc, setLoop,
        readString_writeString, if_pos rfl, hskip, hrec]
      simp [setFields, writeFields, List.append_assoc, List.mem_map]
    · by_cases hlt : nameLtB n m = true
      · have hnot : n ∉ ((m, mv) :: fs).map (fun p => p.1) := by
          intro hmem
          rcases List.mem_map.mp hmem with ⟨p, hp, hpe⟩
          rcases List.mem_cons.mp hp with h2 | h2
          · subst h2
            exact hm hpe.symm
          · have h3 := hsort.1 p h2
            rw [hpe] at h3
            exact nameLtB_ne n n (nameLtB_trans n m n hlt h3) rfl
        by_cases hac : ac = 0
        · subst hac
          simp only [writeFields, List.length_cons, List.append_assoc, setLoop,
            readString_writeString, if_neg hm, Bool.not_false, Bool.true_and, hlt, if_pos rfl,
            if_neg hnot]
          simp
        · have hcopy := copyValueE_writeValue f mv (writeFields fs ++ rest) hwf.1
            (by have := fuelFs_pos fs; omega)
          have hrec := setLoop_handled f n v ac fs rest
            (w ++ (writeString n ++ (writeValue v ++ (writeString m ++ writeValue mv))))
            (fun p hp h => nameLtB_ne n p.1 (nameLtB_trans n m p.1 hlt (hsort.1 p hp)) h.symm)
            hwf.2 (by have := fuelV_pos mv; omega)
          simp only [List.append_assoc] at hrec
          simp only [writeFields, List.length_cons, List.append_assoc, setLoop,
            readString_writeString, if_neg hm, Bool.not_false, Bool.true_and, hlt, if_pos rfl,
            if_neg hac, hcopy, hrec, if_neg hnot]
          by_cases hace : ac = 1
          · simp [hace, setFields, hm, hlt, writeFields, List.append_assoc]
          · rcases hacle with h | h
            · exact absurd h hac
            · exact absurd h hace
      · have hmn : ¬ m = n := fun h => hm h.symm
        have hmem : (n ∈ ((m, mv) :: fs).map (fun p => p.1)) ↔
            (n ∈ fs.map (fun p => p.1)) := by
          simp only [List.map_cons, List.mem_cons]
          constructor
          · intro h
            rcases h with h | h
            · exact absurd h.symm hmn
            · exact h
          · exact Or.inr
        have hcopy := copyValueE_writeValue f mv (writeFields fs ++ rest) hwf.1
          (by have := fuelFs_pos fs; omega)
        have hrec := ih rest (w ++ (writeString m ++ writeValue mv)) hsort.2 hwf.2
          (by have := fuelV_pos mv; omega)
        simp only [writeFields, List.length_cons, List.append_assoc, setLoop,
          readString_writeString, if_neg hm, hlt, Bool.not_false, Bool.true_and,
          Bool.false_eq_true, if_false, hcopy, hrec]
        by_cases hin : n ∈ fs.map (fun p => p.1)
        · simp only [if_pos hin, if_pos (hmem.mpr hin)]
          simp [setFields, hm, hlt, writeFields, List.append_assoc]
        · simp only [if_neg hin, if_neg (fun h => hin (hmem.mp h))]
          by_cases hac : ac = 1
          · simp only [if_pos hac]
            simp [setFields, hm, hlt, writeFields, List.append_assoc]
          · simp [hac]

end Noms

namespace Noms

/-- Struct.Set on a canonical struct buffer produces the canonical buffer of
the struct with the field replaced or inserted at its sorted position. -/
theorem structSet_spec (f : Nat) (sname n : Name) (fields : List (Name × Value)) (v : Value)
    (hn : IsValidStructFieldName n = true)
    (hsort : fields.Pairwise (fun a b => nameLtB a.1 b.1 = true))
    (hwf : wfFs fields = true) (hv : wfV v = true) (hfuel : fuelFs fields ≤ f) :
    structSet f (writeValue (.strct sname fields)) n v =
      some (writeValue (.strct sname (setFields fields n v))) := by
  have hsg : ∀ ac, ac = 0 ∨ ac = 1 → setGo f (writeValue (.strct sname fields)) n v ac =
      setLoop f fields.length (writeFields fields) n v ac false
        (NomsKind.Struct.tag :: (writeString sname ++ writeCount (fields.length + ac))) := by
    intro ac hac
    rw [writeValue_strct, setGo, skipKind_tag]
    simp only [copyString_writeString, readCount_writeCount]
  have hmain : ∀ ac, ac = 0 ∨ ac = 1 →
      setLoop f fields.length (writeFields fields) n v ac false
        (NomsKind.Struct.tag :: (writeString sname ++ writeCount (fields.length + ac))) =
      (if n ∈ fields.map (fun p => p.1) then
        some (.done ((NomsKind.Struct.tag :: (writeString sname ++
          writeCount (fields.length + ac))) ++ writeFields (setFields fields n v)))
      else if ac = 1 then
        some (.done ((NomsKind.Struct.tag :: (writeString sname ++
          writeCount (fields.length + ac))) ++ writeFields (setFields fields n v)))
      else some .restart) := by
    intro ac hac
    have h1 := setLoop_main f n v ac hac fields []
      (NomsKind.Struct.tag :: (writeString sname ++ writeCount (fields.length + ac)))
      hsort hwf hfuel
    rwa [List.append_nil] at h1
  rw [structSet, if_pos hn]
  by_cases hin : n ∈ fields.map (fun p => p.1)
  · have hlen : (setFields fields n v).length = fields.length := by
      rw [setFields_length fields n v hsort, if_pos hin]
      omega
    simp only [hsg 0 (Or.inl rfl), hmain 0 (Or.inl rfl), if_pos hin]
    simp [writeValue_strct, hlen, List.append_assoc]
  · have hlen : (setFields fields n v).length = fields.length + 1 := by
      rw [setFields_length fields n v hsort, if_neg hin]
    simp only [hsg 0 (Or.inl rfl), hmain 0 (Or.inl rfl), if_neg hin,
      Nat.zero_ne_one, if_false]
    simp only [hsg 1 (Or.inr rfl), hmain 1 (Or.inr rfl), if_neg hin, if_pos rfl]
    simp [writeValue_strct, hlen, List.append_assoc]

/-! ## Correctness of Struct.Delete -/

theorem filter_eq_self_of_no_match (n : Name) :
    ∀ fields : List (Name × Value), (∀ p ∈ fields, p.1 ≠ n) →
      fields.filter (fun p => decide (¬ p.1 = n)) = fields := by
  intro fields
  induction fields with
  | nil => intro _; rfl
  | cons hd fs ih =>
    intro h
    rw [List.filter_cons, if_pos (by simp [h hd (List.mem_cons_self _ _)])]
    rw [ih (fun p hp => h p (List.mem_cons_of_mem _ hp))]

theorem deleteLoop_spec (f : Nat) (n : Name) :
    ∀ (fields : List (Name × Value)) (rest : Bytes) (found : Bool) (w : Bytes),
      wfFs fields = true → fuelFs fields ≤ f →
      deleteLoop f fields.length (writeFields fields ++ rest) n found w =
        some (found || fields.any (fun p => decide (p.1 = n)),
          w ++ writeFields (fields.filter (fun p => decide (¬ p.1 = n)))) := by
  intro fields
  induction fields with
  | nil =>
    intro rest found w _ _
    simp [writeFields, deleteLoop]
  | cons hd fs ih =>
    intro rest found w hwf hfuel
    obtain ⟨m, mv⟩ := hd
    rw [wfFs, Bool.and_eq_true] at hwf
    rw [fuelFs] at hfuel
    by_cases hm : n = m
    · subst hm
      have hskip := (skipValueEAdequate f).1 mv (writeFields fs ++ rest) hwf.1
        (by have := fuelFs_pos fs; omega)
      have hrec := ih rest true w hwf.2 (by have := fuelV_pos mv; omega)
      simp only [writeFields, List.length_cons, List.append_assoc, deleteLoop,
        readString_writeString, if_pos rfl, hskip, hrec]
      simp [List.filter_cons, List.any_cons]
    · have hmn : ¬ m = n := fun h => hm h.symm
      have hcopy := copyValueE_writeValue f mv (writeFields fs ++ rest) hwf.1
        (by have := fuelFs_pos fs; omega)
      have hrec := ih rest found (w ++ (writeString m ++ writeValue mv)) hwf.2
        (by have := fuelV_pos mv; omega)
      simp only [writeFields, List.length_cons, List.append_assoc, deleteLoop,
        readString_writeString, if_neg hm, hcopy, hrec]
      simp [List.filter_cons, List.any_cons, hmn, writeFields, List.append_assoc]

theorem filter_length_of_present (n : Name) :
    ∀ fields : List (Name × Value),
      fields.Pairwise (fun a b => nameLtB a.1 b.1 = true) →
      fields.any (fun p => decide (p.1 = n)) = true →
      (fields.filter (fun p => decide (¬ p.1 = n))).length + 1 = fields.length := by
  intro fields
  induction fields with
  | nil =>
    intro _ hany
    simp at hany
  | cons hd fs ih =>
    intro hsort hany
    obtain ⟨m, mv⟩ := hd
    rw [List.pairwise_cons] at hsort
    by_cases hm : m = n
    · subst hm
      have hnone : ∀ p ∈ fs, p.1 ≠ m := by
        intro p hp
        exact (nameLtB_ne m p.1 (hsort.1 p hp)).symm
      rw [List.filter_cons, if_neg (by simp), filter_eq_self_of_no_match m fs hnone]
      simp
    · have hany2 : fs.any (fun p => decide (p.1 = n)) = true := by
        rcases List.any_eq_true.mp hany with ⟨p, hp, hpe⟩
        rcases List.mem_cons.mp hp with h2 | h2
        · subst h2
          simp at hpe
          exact absurd hpe hm
        · exact List.any_eq_true.mpr ⟨p, h2, hpe⟩
      rw [List.filter_cons, if_pos (by simp [hm])]
      simp only [List.length_cons]
      rw [← ih hsort.2 hany2]

/-- Struct.Delete: the original buffer comes back byte-identical when the
field is absent; otherwise the canonical buffer of the struct without that
field. -/
theorem structDelete_spec (f : Nat) (sname n : Name) (fields : List (Name × Value))
    (hsort : fields.Pairwise (fun a b => nameLtB a.1 b.1 = true))
    (hwf : wfFs fields = true) (hfuel : fuelFs fields ≤ f) :
    structDelete f (writeValue (.strct sname fields)) n =
      (if fields.any (fun p => decide (p.1 = n)) then
        some (writeValue (.strct sname (fields.filter (fun p => decide (¬ p.1 = n)))))
      else some (writeValue (.strct sname fields))) := by
  have hdl := deleteLoop_spec f n fields [] false
    (NomsKind.Struct.tag :: (writeString sname ++ writeCount (fields.length - 1)))
    hwf hfuel
  rw [List.append_nil] at hdl
  rw [writeValue_strct, structDelete, skipKind_tag]
  simp only [copyString_writeString, readCount_writeCount, hdl]
  by_cases hany : fields.any (fun p => decide (p.1 = n)) = true
  · have hlen := filter_length_of_present n fields hsort hany
    rw [hany]
    simp only [Bool.false_or, if_pos rfl]
    have hlen2 : fields.length - 1 = (fields.filter (fun p => decide (¬ p.1 = n))).length := by
      omega
    simp [writeValue_strct, hlen2, List.append_assoc]
  · rw [Bool.not_eq_true] at hany
    rw [hany]
    simp [writeValue_strct, List.append_assoc]

end Noms

namespace Noms

/-! ## Structural diff (Struct.Diff)

Events are delivered through sendChange, which selects between sending on
the changes channel and the closeChan cancellation signal; the consumer is
modelled by a budget: it accepts that many events and then signals stop, so
sendChange reports false once the budget is exhausted. Each function returns
the events it delivered plus a flag that is false exactly when decoding
failed mid-way (a fatal error in the source); a consumer stop is a normal
return with the events delivered so far. -/

/-- One diff event (ValueChanged): change type, key, old value, new value. -/
inductive DiffChangeType where
  | added | removed | modified
deriving DecidableEq, Repr

/-- ValueChanged. -/
structure ValueChanged where
  changeType : DiffChangeType
  key : Value
  oldValue : Option Value
  newValue : Option Value

/-- The trailing loop of Struct.Diff over the remaining fields of the new
struct, emitting Added events. The pending name is only read when the
sentinel is empty, exactly as in the source (which never resets it inside
this loop). -/
def diffTail1 (f : Nat) : Nat → Bytes → Name → Nat → List ValueChanged × Bool
  | 0, _, _, _ => ([], true)
  | c + 1, bs, fn1, budget =>
    match (if fn1 = [] then readString bs else some (fn1, bs)) with
    | some (fn1, bs) =>
      match readValue f bs with
      | some (v1, bs) =>
        match budget with
        | 0 => ([], true)
        | b + 1 =>
          let r := diffTail1 f c bs fn1 b
          (⟨.added, .str fn1, none, some v1⟩ :: r.1, r.2)
      | none => ([], false)
    | none => ([], false)

/-- The trailing loop of Struct.Diff over the remaining fields of the old
struct, emitting Removed events; same pending-name behavior. -/
def diffTail2 (f : Nat) : Nat → Bytes → Name → Nat → List ValueChanged × Bool
  | 0, _, _, _ => ([], true)
  | c + 1, bs, fn2, budget =>
    match (if fn2 = [] then readString bs else some (fn2, bs)) with
    | some (fn2, bs) =>
      match readValue f bs with
      | some (v2, bs) =>
        match budget with
        | 0 => ([], true)
        | b + 1 =>
          let r := diffTail2 f c bs fn2 b
          (⟨.removed, .str fn2, some v2, none⟩ :: r.1, r.2)
      | none => ([], false)
    | none => ([], false)

/-- The two-pointer merge loop of Struct.Diff. The counts are the remaining
field counts of the two structs; the loop fuel g bounds the number of merge
iterations (count1 + count2 always suffices) and exists only to make the
recursion structural. -/
def diffMain (f : Nat) : Nat → Nat → Nat → Bytes → Bytes → Name → Name → Nat →
    List ValueChanged × Bool
  | _, 0, c2, _, bs2, _, fn2, budget => diffTail2 f c2 bs2 fn2 budget
  | _, c1 + 1, 0, bs1, _, fn1, _, budget => diffTail1 f (c1 + 1) bs1 fn1 budget
  | 0, _ + 1, _ + 1, _, _, _, _, _ => ([], false)
  | g + 1, c1 + 1, c2 + 1, bs1, bs2, fn1, fn2, budget =>
    match (if fn1 = [] then readString bs1 else some (fn1, bs1)) with
    | some (fn1, bs1) =>
      match (if fn2 = [] then readString bs2 else some (fn2, bs2)) with
      | some (fn2, bs2) =>
        if fn1 = fn2 then
          match readValue f bs1 with
          | some (v1, bs1) =>
            match readValue f bs2 with
            | some (v2, bs2) =>
              if valueEquals v1 v2 then diffMain f g c1 c2 bs1 bs2 [] [] budget
              else
                match budget with
                | 0 => ([], true)
                | b + 1 =>
                  let r := diffMain f g c1 c2 bs1 bs2 [] [] b
                  (⟨.modified, .str fn1, some v2, some v1⟩ :: r.1, r.2)
            | none => ([], false)
          | none => ([], false)
        else if nameLtB fn1 fn2 then
          match readValue f bs1 with
          | some (v1, bs1) =>
            match budget with
            | 0 => ([], true)
            | b + 1 =>
              let r := diffMain f g c1 (c2 + 1) bs1 bs2 [] fn2 b
              (⟨.added, .str fn1, none, some v1⟩ :: r.1, r.2)
          | none => ([], false)
        else
          match readValue f bs2 with
          | some (v2, bs2) =>
            match budget with
            | 0 => ([], true)
            | b + 1 =>
              let r := diffMain f g (c1 + 1) c2 bs1 bs2 fn1 [] b
              (⟨.removed, .str fn2, some v2, none⟩ :: r.1, r.2)
          | none => ([], false)
      | none => ([], false)
    | none => ([], false)

/-- Struct.Diff: equal buffers produce no events and return immediately;
otherwise both decoders skip kind and name, read the field counts, and the
merge runs. -/
def diffStruct (f : Nat) (buff1 buff2 : Bytes) (budget : Nat) :
    List ValueChanged × Bool :=
  if buff1 = buff2 then ([], true)
  else
    match decoderSkipToFields buff1 with
    | some (count1, bs1) =>
      match decoderSkipToFields buff2 with
      | some (count2, bs2) => diffMain f (count1 + count2) count1 count2 bs1 bs2 [] [] budget
      | none => ([], false)
    | none => ([], false)

end Noms

namespace Noms

/-! ## Cancellation: a budget-k consumer sees exactly the first k events -/

theorem diffTail1_take (f : Nat) :
    ∀ (c : Nat) (bs : Bytes) (fn : Name) (k B : Nat), k ≤ B →
      (diffTail1 f c bs fn k).1 = ((diffTail1 f c bs fn B).1).take k := by
  intro c
  induction c with
  | zero => intro bs fn k B _; simp [diffTail1]
  | succ c ih =>
    intro bs fn k B hkB
    cases heq : (if fn = [] then readString bs else some (fn, bs)) with
    | none => simp [diffTail1, heq]
    | some p =>
      obtain ⟨fn1, bs1⟩ := p
      cases hv : readValue f bs1 with
      | none => simp [diffTail1, heq, hv]
      | some q =>
        obtain ⟨v1, bs2⟩ := q
        cases k with
        | zero => simp [diffTail1, heq, hv]
        | succ b =>
          obtain ⟨B', rfl⟩ : ∃ B', B = B' + 1 := ⟨B - 1, by omega⟩
          simp only [diffTail1, heq, hv, List.take_succ_cons]
          rw [ih bs2 fn1 b B' (by omega)]

theorem diffTail1_len (f : Nat) :
    ∀ (c : Nat) (bs : Bytes) (fn : Name) (k : Nat),
      (diffTail1 f c bs fn k).1.length ≤ k := by
  intro c
  induction c with
  | zero => intro bs fn k; simp [diffTail1]
  | succ c ih =>
    intro bs fn k
    cases heq : (if fn = [] then readString bs else some (fn, bs)) with
    | none => simp [diffTail1, heq]
    | some p =>
      obtain ⟨fn1, bs1⟩ := p
      cases hv : readValue f bs1 with
      | none => simp [diffTail1, heq, hv]
      | some q =>
        obtain ⟨v1, bs2⟩ := q
        cases k with
        | zero => simp [diffTail1, heq, hv]
        | succ b =>
          simp only [diffTail1, heq, hv, List.length_cons]
          have := ih bs2 fn1 b
          omega

theorem diffTail2_take (f : Nat) :
    ∀ (c : Nat) (bs : Bytes) (fn : Name) (k B : Nat), k ≤ B →
      (diffTail2 f c bs fn k).1 = ((diffTail2 f c bs fn B).1).take k := by
  intro c
  induction c with
  | zero => intro bs fn k B _; simp [diffTail2]
  | succ c ih =>
    intro bs fn k B hkB
    cases heq : (if fn = [] then readString bs else some (fn, bs)) with
    | none => simp [diffTail2, heq]
    | some p =>
      obtain ⟨fn2, bs1⟩ := p
      cases hv : readValue f bs1 with
      | none => simp [diffTail2, heq, hv]
      | some q =>
        obtain ⟨v2, bs2⟩ := q
        cases k with
        | zero => simp [diffTail2, heq, hv]
        | succ b =>
          obtain ⟨B', rfl⟩ : ∃ B', B = B' + 1 := ⟨B - 1, by omega⟩
          simp only [diffTail2, heq, hv, List.take_succ_cons]
          rw [ih bs2 fn2 b B' (by omega)]

theorem diffTail2_len (f : Nat) :
    ∀ (c : Nat) (bs : Bytes) (fn : Name) (k : Nat),
      (diffTail2 f c bs fn k).1.length ≤ k := by
  intro c
  induction c with
  | zero => intro bs fn k; simp [diffTail2]
  | succ c ih =>
    intro bs fn k
    cases heq : (if fn = [] then readString bs else some (fn, bs)) with
    | none => simp [diffTail2, heq]
    | some p =>
      obtain ⟨fn2, bs1⟩ := p
      cases hv : readValue f bs1 with
      | none => simp [diffTail2, heq, hv]
      | some q =>
        obtain ⟨v2, bs2⟩ := q
        cases k with
        | zero => simp [diffTail2, heq, hv]
        | succ b =>
          simp only [diffTail2, heq, hv, List.length_cons]
          have := ih bs2 fn2 b
          omega

theorem diffMain_take (f : Nat) :
    ∀ (g c1 c2 : Nat) (bs1 bs2 : Bytes) (fn1 fn2 : Name) (k B : Nat), k ≤ B →
      (diffMain f g c1 c2 bs1 bs2 fn1 fn2 k).1 =
        ((diffMain f g c1 c2 bs1 bs2 fn1 fn2 B).1).take k := by
  intro g
  induction g with
  | zero =>
    intro c1 c2 bs1 bs2 fn1 fn2 k B hkB
    match c1, c2 with
    | 0, c2 => exact diffTail2_take f c2 bs2 fn2 k B hkB
    | c1 + 1, 0 => exact diffTail1_take f (c1 + 1) bs1 fn1 k B hkB
    | c1 + 1, c2 + 1 => simp [diffMain]
  | succ g ih =>
    intro c1 c2 bs1 bs2 fn1 fn2 k B hkB
    match c1, c2 with
    | 0, c2 => exact diffTail2_take f c2 bs2 fn2 k B hkB
    | c1 + 1, 0 => exact diffTail1_take f (c1 + 1) bs1 fn1 k B hkB
    | c1 + 1, c2 + 1 =>
      cases h1 : (if fn1 = [] then readString bs1 else some (fn1, bs1)) with
      | none => simp [diffMain, h1]
      | some p1 =>
        obtain ⟨fn1v, bs1v⟩ := p1
        cases h2 : (if fn2 = [] then readString bs2 else some (fn2, bs2)) with
        | none => simp [diffMain, h1, h2]
        | some p2 =>
          obtain ⟨fn2v, bs2v⟩ := p2
          by_cases hfn : fn1v = fn2v
          · cases hv1 : readValue f bs1v with
            | none => simp [diffMain, h1, h2, hfn, hv1]
            | some q1 =>
              obtain ⟨v1, bs1w⟩ := q1
              cases hv2 : readValue f bs2v with
              | none => simp [diffMain, h1, h2, hfn, hv1, hv2]
              | some q2 =>
                obtain ⟨v2, bs2w⟩ := q2
                by_cases hveq : valueEquals v1 v2 = true
                · simp only [diffMain, h1, h2, hfn, if_pos rfl, hv1, hv2, hveq, if_true]
                  exact ih c1 c2 bs1w bs2w [] [] k B hkB
                · cases k with
                  | zero => simp [diffMain, h1, h2, hfn, hv1, hv2, hveq]
                  | succ b =>
                    obtain ⟨B', rfl⟩ : ∃ B', B = B' + 1 := ⟨B - 1, by omega⟩
                    have hih := ih c1 c2 bs1w bs2w [] [] b B' (by omega)
                    simp [diffMain, h1, h2, hfn, hv1, hv2, hveq, hih]
          · by_cases hlt : nameLtB fn1v fn2v = true
            · cases hv1 : readValue f bs1v with
              | none => simp [diffMain, h1, h2, hfn, hlt, hv1]
              | some q1 =>
                obtain ⟨v1, bs1w⟩ := q1
                cases k with
                | zero => simp [diffMain, h1, h2, hfn, hlt, hv1]
                | succ b =>
                  obtain ⟨B', rfl⟩ : ∃ B', B = B' + 1 := ⟨B - 1, by omega⟩
                  have hih := ih c1 (c2 + 1) bs1w bs2v [] fn2v b B' (by omega)
                  simp [diffMain, h1, h2, hfn, hlt, hv1, hih]
            · cases hv2 : readValue f bs2v with
              | none => simp [diffMain, h1, h2, hfn, hlt, hv2]
              | some q2 =>
                obtain ⟨v2, bs2w⟩ := q2
                cases k with
                | zero => simp [diffMain, h1, h2, hfn, hlt, hv2]
                | succ b =>
                  obtain ⟨B', rfl⟩ : ∃ B', B = B' + 1 := ⟨B - 1, by omega⟩
                  have hih := ih (c1 + 1) c2 bs1v bs2w fn1v [] b B' (by omega)
                  simp [diffMain, h1, h2, hfn, hlt, hv2, hih]

theorem diffMain_len (f : Nat) :
    ∀ (g c1 c2 : Nat) (bs1 bs2 : Bytes) (fn1 fn2 : Name) (k : Nat),
      (diffMain f g c1 c2 bs1 bs2 fn1 fn2 k).1.length ≤ k := by
  intro g
  induction g with
  | zero =>
    intro c1 c2 bs1 bs2 fn1 fn2 k
    match c1, c2 with
    | 0, c2 => exact diffTail2_len f c2 bs2 fn2 k
    | c1 + 1, 0 => exact diffTail1_len f (c1 + 1) bs1 fn1 k
    | c1 + 1, c2 + 1 => simp [diffMain]
  | succ g ih =>
    intro c1 c2 bs1 bs2 fn1 fn2 k
    match c1, c2 with
    | 0, c2 => exact diffTail2_len f c2 bs2 fn2 k
    | c1 + 1, 0 => exact diffTail1_len f (c1 + 1) bs1 fn1 k
    | c1 + 1, c2 + 1 =>
      cases h1 : (if fn1 = [] then readString bs1 else some (fn1, bs1)) with
      | none => simp [diffMain, h1]
      | some p1 =>
        obtain ⟨fn1v, bs1v⟩ := p1
        cases h2 : (if fn2 = [] then readString bs2 else some (fn2, bs2)) with
        | none => simp [diffMain, h1, h2]
        | some p2 =>
          obtain ⟨fn2v, bs2v⟩ := p2
          by_cases hfn : fn1v = fn2v
          · cases hv1 : readValue f bs1v with
            | none => simp [diffMain, h1, h2, hfn, hv1]
            | some q1 =>
              obtain ⟨v1, bs1w⟩ := q1
              cases hv2 : readValue f bs2v with
              | none => simp [diffMain, h1, h2, hfn, hv1, hv2]
              | some q2 =>
                obtain ⟨v2, bs2w⟩ := q2
                by_cases hveq : valueEquals v1 v2 = true
                · simp only [diffMain, h1, h2, hfn, if_pos rfl, hv1, hv2, hveq, if_true]
                  exact ih c1 c2 bs1w bs2w [] [] k
                · cases k with
                  | zero => simp [diffMain, h1, h2, hfn, hv1, hv2, hveq]
                  | succ b =>
                    have hih := ih c1 c2 bs1w bs2w [] [] b
                    simp [diffMain, h1, h2, hfn, hv1, hv2, hveq]
                    omega
          · by_cases hlt : nameLtB fn1v fn2v = true
            · cases hv1 : readValue f bs1v with
              | none => simp [diffMain, h1, h2, hfn, hlt, hv1]
              | some q1 =>
                obtain ⟨v1, bs1w⟩ := q1
                cases k with
                | zero => simp [diffMain, h1, h2, hfn, hlt, hv1]
                | succ b =>
                  have hih := ih c1 (c2 + 1) bs1w bs2v [] fn2v b
                  simp [diffMain, h1, h2, hfn, hlt, hv1]
                  omega
            · cases hv2 : readValue f bs2v with
              | none => simp [diffMain, h1, h2, hfn, hlt, hv2]
              | some q2 =>
                obtain ⟨v2, bs2w⟩ := q2
                cases k with
                | zero => simp [diffMain, h1, h2, hfn, hlt, hv2]
                | succ b =>
                  have hih := ih (c1 + 1) c2 bs1v bs2w fn1v [] b
                  simp [diffMain, h1, h2, hfn, hlt, hv2]
                  omega

theorem diffStruct_take (f : Nat) (buff1 buff2 : Bytes) (k B : Nat) (hkB : k ≤ B) :
    (diffStruct f buff1 buff2 k).1 = ((diffStruct f buff1 buff2 B).1).take k := by
  rw [diffStruct, diffStruct]
  by_cases he : buff1 = buff2
  · simp [he]
  · cases hd1 : decoderSkipToFields buff1 with
    | none => simp [he, hd1]
    | some p1 =>
      obtain ⟨count1, bs1⟩ := p1
      cases hd2 : decoderSkipToFields buff2 with
      | none => simp [he, hd1, hd2]
      | some p2 =>
        obtain ⟨count2, bs2⟩ := p2
        simp only [if_neg he]
        exact diffMain_take f (count1 + count2) count1 count2 bs1 bs2 [] [] k B hkB

theorem diffStruct_len (f : Nat) (buff1 buff2 : Bytes) (k : Nat) :
    (diffStruct f buff1 buff2 k).1.length ≤ k := by
  rw [diffStruct]
  by_cases he : buff1 = buff2
  · simp [he]
  · cases hd1 : decoderSkipToFields buff1 with
    | none => simp [he, hd1]
    | some p1 =>
      obtain ⟨count1, bs1⟩ := p1
      cases hd2 : decoderSkipToFields buff2 with
      | none => simp [he, hd1, hd2]
      | some p2 =>
        obtain ⟨count2, bs2⟩ := p2
        simp only [if_neg he]
        exact diffMain_len f (count1 + count2) count1 count2 bs1 bs2 [] [] k

end Noms

namespace Noms

/-! ## Meta-sequence reading with boundary keys (valueDecoder.readMetaSequence) -/

/-- An ordering key of a meta tuple: either derived from a decoded boundary
value (newOrderedKey) or directly from a ref's target hash
(orderedKeyFromHash), the documented shortcut. -/
inductive OrderedKey where
  | byValue (v : Value)
  | byHash (h : Nat)

/-- The key derivation of readMetaSequence: when the decoded boundary value
is a Ref, its target hash is the key; otherwise the value itself. -/
def metaKeyOf : Value → OrderedKey
  | .ref h _ _ => .byHash h
  | v => .byValue v

/-- The per-tuple loop of readMetaSequence, keeping the derived key: the
first decoded value must be a Ref (the cast in the source), the second is
the boundary value from which the key is derived, then the leaf count. Both
values are decoded by the source readValue (readValueL above). -/
def readMetaTuplesK (f : Nat) : Nat → Bytes → Option (List (Value × OrderedKey × Nat) × Bytes)
  | 0, bs => some ([], bs)
  | c + 1, bs =>
    match readValueL f bs with
    | some (.ref h t height, bs) =>
      match readValueL f bs with
      | some (v, bs) =>
        let key := metaKeyOf v
        match readCount bs with
        | some (numLeaves, bs) =>
          match readMetaTuplesK f c bs with
          | some (ts, bs) => some ((.ref h t height, key, numLeaves) :: ts, bs)
          | none => none
        | none => none
      | none => none
    | some _ => none
    | none => none

/-- valueDecoder.readMetaSequence, decoded to tuples of (child ref, derived
boundary key, leaf count). -/
def readMetaSequenceK (f : Nat) (bs : Bytes) : Option (List (Value × OrderedKey × Nat) × Bytes) :=
  match readCount bs with
  | some (count, bs) => readMetaTuplesK f count bs
  | none => none

/-- The decoded form of an encoded meta tuple: the ref value, the key the
decoder derives, and the leaf count. -/
def decodedTuple : MetaTuple → Value × OrderedKey × Nat
  | .mk h t height boundary numLeaves => (.ref h t height, metaKeyOf boundary, numLeaves)

/-- Whether every boundary value of a tuple stream is free of meta-sequence
nodes (boundary values are last elements of leaf chunks, so this holds of
the data the writer produces); within this domain the lazy flat-List scan
inside the boundary decode is exact. -/
def noMetaMTs : List MetaTuple → Bool
  | [] => true
  | .mk _ _ _ boundary _ :: ts => noMetaV boundary && noMetaMTs ts

theorem readMetaTuplesK_spec (f : Nat) :
    ∀ (ts : List MetaTuple) (rest : Bytes), wfMTs ts = true → noMetaMTs ts = true →
      fuelMTs ts ≤ f →
      readMetaTuplesK f ts.length (writeMetaTuples ts ++ rest) =
        some (ts.map decodedTuple, rest) := by
  intro ts
  induction ts with
  | nil =>
    intro rest _ _ _
    simp [writeMetaTuples, readMetaTuplesK]
  | cons hd ts ih =>
    intro rest hwf hnm hfuel
    obtain ⟨h, t, height, boundary, numLeaves⟩ := hd
    rw [wfMTs, Bool.and_eq_true, Bool.and_eq_true, Bool.and_eq_true, decide_eq_true_eq] at hwf
    rw [noMetaMTs, Bool.and_eq_true] at hnm
    rw [fuelMTs] at hfuel
    have hwfref : wfV (.ref h t height) = true := by
      rw [wfV, Bool.and_eq_true, decide_eq_true_eq]
      exact ⟨hwf.1.1.1, hwf.1.1.2⟩
    have h1 := readValueL_enc f (.ref h t height)
      (writeValue boundary ++ (writeCount numLeaves ++ (writeMetaTuples ts ++ rest)))
      hwfref (by rfl)
      (by rw [fuelV]; have := fuelMTs_pos ts; have := fuelV_pos boundary; omega)
    have h2 := readValueL_enc f boundary
      (writeCount numLeaves ++ (writeMetaTuples ts ++ rest)) hwf.1.2 hnm.1
      (by have := fuelMTs_pos ts; omega)
    have h3 := ih rest hwf.2 hnm.2 (by have := fuelV_pos boundary; omega)
    simp only [writeMetaTuples_cons, List.length_cons, List.append_assoc, readMetaTuplesK,
      h1, h2, readCount_writeCount, h3, List.map_cons, decodedTuple]

/-- readMetaSequence on an encoded interior node derives every stored
boundary key from the decoded boundary value: the target hash when that
value is a Ref, the value itself otherwise. -/
theorem readMetaSequenceK_spec (f : Nat) (ts : List MetaTuple) (rest : Bytes)
    (hwf : wfMTs ts = true) (hnm : noMetaMTs ts = true) (hfuel : fuelMTs ts ≤ f) :
    readMetaSequenceK f (writeCount ts.length ++ writeMetaTuples ts ++ rest) =
      some (ts.map decodedTuple, rest) := by
  rw [readMetaSequenceK, List.append_assoc, readCount_writeCount]
  exact readMetaTuplesK_spec f ts rest hwf hnm hfuel

end Noms

namespace Noms

/-! ## Lazy list leaf sequences (list_lazy_leaf_sequence.go)

The shared reader is a fixed backing byte span plus a mutable position;
positions index into the span. -/

/-- The offset-recording loop of valueDecoder.readLazyValueOffsets: each
element's offset is the reader position before skipValue advances past it. -/
def readLazyValueOffsetsLoop (f : Nat) : Nat → Bytes → Nat → Option (List Nat × Nat)
  | 0, _, pos => some ([], pos)
  | c + 1, data, pos =>
    match skipValue f (data.drop pos) with
    | some rest =>
      match readLazyValueOffsetsLoop f c data (pos + ((data.drop pos).length - rest.length)) with
      | some (offs, p) => some (pos :: offs, p)
      | none => none
    | none => none

/-- valueDecoder.readLazyValueOffsets: reads the element count, then records
per-element offsets by skipping, not reading. Returns the offsets and the
final reader position. -/
def readLazyValueOffsets (f : Nat) (data : Bytes) (pos : Nat) : Option (List Nat × Nat) :=
  match readCount (data.drop pos) with
  | some (_count, rest) =>
    match readLazyValueOffsetsLoop f _count data (pos + ((data.drop pos).length - rest.length)) with
    | some (offs, p) => some (offs, p)
    | none => none
  | none => none

/-- listLazyLeafSequence: recorded offsets, the end offset, and the retained
shared reader span. -/
structure ListLazyLeafSeq where
  offsets : List Nat
  endPos : Nat
  reader : Bytes

/-- valueDecoder.readListLeafSequence: builds the lazy sequence from the
recorded offsets, with end = the reader position after the scan. -/
def readListLeafSequenceL (f : Nat) (data : Bytes) (pos : Nat) :
    Option (ListLazyLeafSeq × Nat) :=
  match readLazyValueOffsets f data pos with
  | some (offs, p) => some (⟨offs, p, data⟩, p)
  | none => none

/-- listLazyLeafSequence.getItem: saves the reader position, seeks to the
recorded offset for idx, decodes one value, and the deferred setPos restores
the saved position. Returns the decoded item and the reader position after
the call; an out-of-range index or a decode failure is fatal (none). -/
def lazyGetItem (f : Nat) (ll : ListLazyLeafSeq) (readerPos : Nat) (idx : Nat) :
    Option (Value × Nat) :=
  match ll.offsets.get? idx with
  | some off =>
    match readValue f (ll.reader.drop off) with
    | some (v, _) => some (v, readerPos)
    | none => none
  | none => none

/-! ## Field-name escaping (EscapeStructField) -/

/-- The escape marker, the byte and rune of the letter Q. -/
def escMarker : Nat := 81

/-- UTF-8 bytes of a code point (Go writes the hex of the rune's UTF-8
bytes). -/
def utf8Bytes (c : Nat) : List Nat :=
  if c < 128 then [c]
  else if c < 2048 then [192 + c / 64, 128 + c % 64]
  else if c < 65536 then [224 + c / 4096, 128 + (c / 64) % 64, 128 + c % 64]
  else [240 + c / 262144, 128 + (c / 4096) % 64, 128 + (c / 64) % 64, 128 + c % 64]

/-- An upper-case hex digit character. -/
def hexDigit (d : Nat) : Nat := if d < 10 then 48 + d else 55 + d

/-- Upper-case hex of a byte sequence, two digits per byte (Go's %X on a
string). -/
def hexOfBytes : List Nat → List Nat
  | [] => []
  | b :: bs => hexDigit (b / 16) :: hexDigit (b % 16) :: hexOfBytes bs

/-- The encode function EscapeStructField passes to escapeField: a rune that
matches the current pattern and is not the escape marker is kept; any other
rune becomes the marker followed by the hex of its UTF-8 bytes (with the
source's padding branch for a one-digit hex string kept as written). -/
def escapeEncode (c : Nat) (isHead : Bool) : List Nat :=
  if (cond isHead (isAlphaChar c) (isTailChar c)) && !(c == escMarker) then [c]
  else
    let hs := hexOfBytes (utf8Bytes c)
    if hs.length = 1 then escMarker :: 48 :: hs else escMarker :: hs

/-- escapeField's loop: the first rune is matched against the head pattern,
every later rune against the tail pattern. -/
def escapeFieldGo (encode : Nat → Bool → List Nat) : List Nat → Bool → List Nat
  | [], _ => []
  | c :: cs, isHead => encode c isHead ++ escapeFieldGo encode cs false

/-- escapeField. -/
def escapeField (input : List Nat) (encode : Nat → Bool → List Nat) : List Nat :=
  escapeFieldGo encode input true

/-- EscapeStructField: returns the input unchanged when it contains no
escape marker and is already a valid field name; otherwise escapes it. The
input is the rune sequence of the Go string. -/
def EscapeStructField (input : List Nat) : List Nat :=
  if !input.contains escMarker && IsValidStructFieldName input then input
  else escapeField input escapeEncode

end Noms

namespace Noms

/-! ## Validity of escaped names -/

theorem isTailChar_hexDigit (d : Nat) (hd : d < 16) : isTailChar (hexDigit d) = true := by
  interval_cases d <;> rfl

theorem isTailChar_of_isAlphaChar (c : Nat) (h : isAlphaChar c = true) :
    isTailChar c = true := by
  rw [isTailChar, h]
  rfl

theorem utf8Bytes_lt_256 (c : Nat) (hc : c < 1114112) : ∀ b ∈ utf8Bytes c, b < 256 := by
  intro b hb
  rw [utf8Bytes] at hb
  by_cases h1 : c < 128
  · rw [if_pos h1] at hb
    rcases List.mem_singleton.mp hb with rfl
    omega
  · rw [if_neg h1] at hb
    by_cases h2 : c < 2048
    · rw [if_pos h2] at hb
      rcases List.mem_cons.mp hb with rfl | hb
      · omega
      rcases List.mem_singleton.mp hb with rfl
      omega
    · rw [if_neg h2] at hb
      by_cases h3 : c < 65536
      · rw [if_pos h3] at hb
        rcases List.mem_cons.mp hb with rfl | hb
        · omega
        rcases List.mem_cons.mp hb with rfl | hb
        · omega
        rcases List.mem_singleton.mp hb with rfl
        omega
      · rw [if_neg h3] at hb
        rcases List.mem_cons.mp hb with rfl | hb
        · omega
        rcases List.mem_cons.mp hb with rfl | hb
        · omega
        rcases List.mem_cons.mp hb with rfl | hb
        · omega
        rcases List.mem_singleton.mp hb with rfl
        omega

theorem utf8Bytes_ne_nil (c : Nat) : utf8Bytes c ≠ [] := by
  rw [utf8Bytes]
  by_cases h1 : c < 128
  · simp [h1]
  · by_cases h2 : c < 2048
    · simp [h1, h2]
    · by_cases h3 : c < 65536
      · simp [h1, h2, h3]
      · simp [h1, h2, h3]

theorem hexOfBytes_tail (bs : List Nat) (hb : ∀ b ∈ bs, b < 256) :
    ∀ d ∈ hexOfBytes bs, isTailChar d = true := by
  induction bs with
  | nil => intro d hd; simp [hexOfBytes] at hd
  | cons b bs ih =>
    intro d hd
    have hblt := hb b (List.mem_cons_self _ _)
    rw [hexOfBytes] at hd
    rcases List.mem_cons.mp hd with rfl | hd
    · exact isTailChar_hexDigit _ (by omega)
    rcases List.mem_cons.mp hd with rfl | hd
    · exact isTailChar_hexDigit _ (by omega)
    · exact ih (fun x hx => hb x (List.mem_cons_of_mem _ hx)) d hd

theorem escMarker_alpha : isAlphaChar escMarker = true := by rfl

/-- The head token of an escaped name: nonempty, alphabetic first rune, all
later runes in the tail class. -/
theorem escapeEncode_head (c : Nat) (hc : c < 1114112) :
    ∃ hchar tl, escapeEncode c true = hchar :: tl ∧ isAlphaChar hchar = true ∧
      (∀ d ∈ tl, isTailChar d = true) := by
  rw [escapeEncode]
  simp only [cond_true]
  by_cases hk : (isAlphaChar c && !(c == escMarker)) = true
  · rw [if_pos hk]
    rw [Bool.and_eq_true] at hk
    exact ⟨c, [], rfl, hk.1, by intro d hd; simp at hd⟩
  · rw [if_neg hk]
    by_cases hl : (hexOfBytes (utf8Bytes c)).length = 1
    · refine ⟨escMarker, 48 :: hexOfBytes (utf8Bytes c), by simp [hl], escMarker_alpha, ?_⟩
      intro d hd
      rcases List.mem_cons.mp hd with rfl | hd
      · rfl
      · exact hexOfBytes_tail _ (utf8Bytes_lt_256 c hc) d hd
    · refine ⟨escMarker, hexOfBytes (utf8Bytes c), by simp [hl], escMarker_alpha, ?_⟩
      intro d hd
      exact hexOfBytes_tail _ (utf8Bytes_lt_256 c hc) d hd

/-- Every rune of a non-head token of an escaped name is in the tail class. -/
theorem escapeEncode_tail (c : Nat) (hc : c < 1114112) :
    ∀ d ∈ escapeEncode c false, isTailChar d = true := by
  intro d hd
  rw [escapeEncode] at hd
  simp only [cond_false] at hd
  by_cases hk : (isTailChar c && !(c == escMarker)) = true
  · rw [if_pos hk] at hd
    rcases List.mem_singleton.mp hd with rfl
    rw [Bool.and_eq_true] at hk
    exact hk.1
  · rw [if_neg hk] at hd
    by_cases hl : (hexOfBytes (utf8Bytes c)).length = 1
    · rw [if_pos hl] at hd
      rcases List.mem_cons.mp hd with rfl | hd
      · exact isTailChar_of_isAlphaChar _ escMarker_alpha
      rcases List.mem_cons.mp hd with rfl | hd
      · rfl
      · exact hexOfBytes_tail _ (utf8Bytes_lt_256 c hc) d hd
    · rw [if_neg hl] at hd
      rcases List.mem_cons.mp hd with rfl | hd
      · exact isTailChar_of_isAlphaChar _ escMarker_alpha
      · exact hexOfBytes_tail _ (utf8Bytes_lt_256 c hc) d hd

theorem escapeFieldGo_tail (cs : List Nat) (hc : ∀ c ∈ cs, c < 1114112) :
    ∀ d ∈ escapeFieldGo escapeEncode cs false, isTailChar d = true := by
  induction cs with
  | nil => intro d hd; simp [escapeFieldGo] at hd
  | cons c cs ih =>
    intro d hd
    rw [escapeFieldGo] at hd
    rcases List.mem_append.mp hd with hd | hd
    · exact escapeEncode_tail c (hc c (List.mem_cons_self _ _)) d hd
    · exact ih (fun x hx => hc x (List.mem_cons_of_mem _ hx)) d hd

/-- Escaping a nonempty rune sequence yields a valid field name. -/
theorem escapeField_valid (input : List Nat) (hne : input ≠ [])
    (hc : ∀ c ∈ input, c < 1114112) :
    IsValidStructFieldName (escapeField input escapeEncode) = true := by
  obtain ⟨c, cs, rfl⟩ : ∃ c cs, input = c :: cs := by
    cases input with
    | nil => exact absurd rfl hne
    | cons c cs => exact ⟨c, cs, rfl⟩
  rw [escapeField, escapeFieldGo]
  obtain ⟨hchar, tl, he, halpha, htl⟩ := escapeEncode_head c (hc c (List.mem_cons_self _ _))
  rw [he]
  rw [List.cons_append, IsValidStructFieldName, halpha, Bool.true_and, List.all_eq_true]
  intro d hd
  rcases List.mem_append.mp hd with hd | hd
  · exact htl d hd
  · exact escapeFieldGo_tail cs (fun x hx => hc x (List.mem_cons_of_mem _ hx)) d hd

end Noms

namespace Noms

/-! ## Permutation invariance of map lookups (for NewStruct) -/

theorem structDataLookup_perm {d1 d2 : List (Name × Value)} (hperm : d1.Perm d2) :
    (d1.map (fun p => p.1)).Nodup →
    ∀ n, structDataLookup d1 n = structDataLookup d2 n := by
  induction hperm with
  | nil =>
    intro _ n
    rfl
  | cons x h ih =>
    intro hnd n
    obtain ⟨a, v⟩ := x
    rw [List.map_cons, List.nodup_cons] at hnd
    rw [structDataLookup, structDataLookup]
    by_cases ha : a = n
    · rw [if_pos ha, if_pos ha]
    · rw [if_neg ha, if_neg ha]
      exact ih hnd.2 n
  | swap x y l =>
    intro hnd n
    obtain ⟨a, va⟩ := x
    obtain ⟨b, vb⟩ := y
    have hba : ¬ b = a := by
      intro he
      subst he
      simp at hnd
    by_cases hb : b = n
    · subst hb
      simp [structDataLookup, show ¬ a = b from fun h => hba h.symm]
    · by_cases ha : a = n
      · subst ha
        simp [structDataLookup, hb, hba]
      · simp [structDataLookup, hb, ha]
  | trans h1 h2 ih1 ih2 =>
    intro hnd n
    rw [ih1 hnd n]
    exact ih2 (((h1.map (fun p => p.1)).nodup_iff).mp hnd) n

theorem all_eq_of_perm {d1 d2 : List (Name × Value)} (hperm : d1.Perm d2)
    (P : Name × Value → Bool) : d1.all P = d2.all P := by
  cases hb : d2.all P with
  | true =>
    rw [List.all_eq_true] at hb ⊢
    intro x hx
    exact hb x (hperm.mem_iff.mp hx)
  | false =>
    rw [Bool.eq_false_iff] at hb ⊢
    intro hall
    apply hb
    rw [List.all_eq_true] at hall ⊢
    intro x hx
    exact hall x (hperm.mem_iff.mpr hx)

theorem writeNamedValues_zip (ns : List Name) (vs : List Value) :
    writeNamedValues ns vs = writeFields (ns.zip vs) := by
  induction ns generalizing vs with
  | nil => cases vs <;> simp [writeNamedValues, writeFields]
  | cons n ns ih =>
    cases vs with
    | nil => simp [writeNamedValues, writeFields]
    | cons v vs =>
      rw [writeNamedValues, List.zip_cons_cons, writeFields, ih]

theorem newStruct_writeValue (name : Name) (ns : List Name) (vs : List Value)
    (hlen : ns.length = vs.length) :
    newStruct name ns vs = writeValue (.strct name (ns.zip vs)) := by
  rw [newStruct, writeNamedValues_zip, writeValue_strct]
  have hzlen : (ns.zip vs).length = ns.length := by
    rw [List.length_zip, hlen, Nat.min_self]
  rw [hzlen]
  simp [List.append_assoc]

end Noms

namespace Noms

/-! ## The claims -/

/-- Claim C1: setting a valid field name n to v on an encoded struct yields a
buffer on which Get(n) returns v, and whose field count is the old count when
n was already a field and the old count plus one otherwise (the restart into
a fresh buffer for a new name included). -/
theorem claim_c1 (f g : Nat) (sname n : Name) (fields : List (Name × Value)) (v : Value)
    (hn : IsValidStructFieldName n = true)
    (hsort : fields.Pairwise (fun a b => nameLtB a.1 b.1 = true))
    (hwf : wfFs fields = true) (hv : wfV v = true)
    (hfuel : fuelFs fields ≤ f) (hg : 1 + fuelV v + fuelFs fields ≤ g) :
    ∃ out, structSet f (writeValue (.strct sname fields)) n v = some out ∧
      structMaybeGet g out n = some (some v) ∧
      structLen out = some (fields.length +
        (if n ∈ fields.map (fun p => p.1) then 0 else 1)) := by
  refine ⟨writeValue (.strct sname (setFields fields n v)),
    structSet_spec f sname n fields v hn hsort hwf hv hfuel, ?_, ?_⟩
  · rw [structMaybeGet_spec g sname n (setFields fields n v)
      (setFields_pairwise fields n v hsort) (setFields_wf fields n v hwf hv)
      (le_trans (setFields_fuel fields n v) hg)]
    rw [setFields_lookup]
  · rw [structLen_strct, setFields_length fields n v hsort]

/-- Witness for C1 at a concrete struct: set the new field "b" on a struct
with one field "a". -/
theorem claim_c1_witness :
    IsValidStructFieldName [98] = true ∧
    (∃ out, structSet 3 (writeValue (.strct [] [([97], .bool true)])) [98] (.bool false) =
        some out ∧
      structMaybeGet 6 out [98] = some (some (.bool false)) ∧
      structLen out = some ([([97], Value.bool true)].length +
        (if [98] ∈ [([97], Value.bool true)].map (fun p => p.1) then 0 else 1))) :=
  ⟨by decide, claim_c1 3 6 [] [98] [([97], .bool true)] (.bool false)
    (by decide) (by decide) (by decide) (by decide) (by decide) (by decide)⟩

/-- Claim C2: NewStruct is permutation-invariant in the enumeration order of
the name-to-value mapping, and every produced buffer is the canonical struct
encoding whose fields are the sorted names, in strictly ascending name
order. -/
theorem claim_c2 (name : Name) (d1 d2 : List (Name × Value)) (hperm : d1.Perm d2)
    (hnd : (d1.map (fun p => p.1)).Nodup) :
    NewStruct name d1 = NewStruct name d2 ∧
    ∀ b, NewStruct name d1 = some b →
      ∃ fields : List (Name × Value),
        b = writeValue (.strct name fields) ∧
        fields.map (fun p => p.1) = sortNames (d1.map (fun p => p.1)) ∧
        fields.Pairwise (fun a b => nameLtB a.1 b.1 = true) := by
  have hmap : (d1.map (fun p => p.1)).Perm (d2.map (fun p => p.1)) := hperm.map _
  have hsn : sortNames (d1.map (fun p => p.1)) = sortNames (d2.map (fun p => p.1)) :=
    sortNames_eq_of_perm _ _ hmap
  have hall : d1.all (fun p => IsValidStructFieldName p.1) =
      d2.all (fun p => IsValidStructFieldName p.1) := all_eq_of_perm hperm _
  have hlk : ∀ n, structDataLookup d1 n = structDataLookup d2 n :=
    structDataLookup_perm hperm hnd
  constructor
  · have hvals : List.map (fun n => (structDataLookup d1 n).getD (Value.bool false))
        (sortNames (List.map (fun p => p.1) d2)) =
        List.map (fun n => (structDataLookup d2 n).getD (Value.bool false))
        (sortNames (List.map (fun p => p.1) d2)) :=
      List.map_congr_left (fun n _ => by rw [hlk n])
    simp only [NewStruct, hall, hsn, hvals]
  · intro b hb
    rw [NewStruct] at hb
    by_cases hg : (verifyStructNameB name && d1.all fun p => IsValidStructFieldName p.1) = true
    · rw [if_pos hg, Option.some.injEq] at hb
      subst hb
      refine ⟨(sortNames (d1.map (fun p => p.1))).zip
        ((sortNames (d1.map (fun p => p.1))).map
          (fun n => (structDataLookup d1 n).getD (.bool false))), ?_, ?_, ?_⟩
      · exact newStruct_writeValue name _ _ (by rw [List.length_map])
      · rw [show (fun p : Name × Value => p.1) = Prod.fst from rfl]
        exact List.map_fst_zip _ _ (le_of_eq (List.length_map _ _).symm)
      · have hpw : (sortNames (d1.map (fun p => p.1))).Pairwise
            (fun a b => nameLtB a b = true) := sortNames_pairwise_lt _ hnd
        have hmap1 : List.map (fun p : Name × Value => p.1)
            ((sortNames (d1.map (fun p => p.1))).zip
              ((sortNames (d1.map (fun p => p.1))).map
                (fun n => (structDataLookup d1 n).getD (.bool false)))) =
            sortNames (d1.map (fun p => p.1)) := by
          rw [show (fun p : Name × Value => p.1) = Prod.fst from rfl]
          exact List.map_fst_zip _ _ (le_of_eq (List.length_map _ _).symm)
        exact (List.pairwise_map).mp (hmap1 ▸ hpw)
    · rw [if_neg hg] at hb
      exact Option.noConfusion hb

/-- Witness for C2: the two enumeration orders of a two-field mapping. -/
theorem claim_c2_witness :
    ([([97], Value.bool true), ([98], Value.bool false)] : List (Name × Value)).Perm
      [([98], Value.bool false), ([97], Value.bool true)] ∧
    (NewStruct [] [([97], .bool true), ([98], .bool false)] =
      NewStruct [] [([98], .bool false), ([97], .bool true)] ∧
    ∀ b, NewStruct [] [([97], Value.bool true), ([98], Value.bool false)] = some b →
      ∃ fields : List (Name × Value),
        b = writeValue (.strct [] fields) ∧
        fields.map (fun p => p.1) =
          sortNames ([([97], Value.bool true), ([98], Value.bool false)].map
            (fun p => p.1)) ∧
        fields.Pairwise (fun a b => nameLtB a.1 b.1 = true)) :=
  ⟨List.Perm.swap _ _ [], claim_c2 [] [([97], .bool true), ([98], .bool false)]
    [([98], .bool false), ([97], .bool true)] (List.Perm.swap _ _ []) (by decide)⟩

/-- Claim C3: REFUTED. Diff of the new struct {a,y,z: Bool true} against the
old struct {a: Bool true} should emit Added("y") then Added("z"); because the
trailing loop never resets the pending field name, the second event reuses
the name "y" and decodes the bytes of the stored name "z" as a value
(Number). The run below shows the two actual events. -/
theorem claim_c3 :
    diffStruct 20
      (writeValue (.strct [] [([97], .bool true), ([121], .bool true), ([122], .bool true)]))
      (writeValue (.strct [] [([97], .bool true)])) 10 =
    ([⟨.added, .str [121], none, some (.bool true)⟩,
      ⟨.added, .str [121], none, some (.number 122 0)⟩], true) := by
  exact rfl

/-- Claim C4: a consumer that stops after the k-th event (budget k) receives
at most k events, and exactly the first k of any longer run of the same
diff. -/
theorem claim_c4 (f : Nat) (buff1 buff2 : Bytes) (k B : Nat) (hkB : k ≤ B) :
    (diffStruct f buff1 buff2 k).1.length ≤ k ∧
    (diffStruct f buff1 buff2 k).1 = ((diffStruct f buff1 buff2 B).1).take k :=
  ⟨diffStruct_len f buff1 buff2 k, diffStruct_take f buff1 buff2 k B hkB⟩

/-- Witness for C4 at budget 1 against budget 2. -/
theorem claim_c4_witness :
    1 ≤ 2 ∧ ((diffStruct 1 [] [] 1).1.length ≤ 1 ∧
      (diffStruct 1 [] [] 1).1 = ((diffStruct 1 [] [] 2).1).take 1) :=
  ⟨by decide, claim_c4 1 [] [] 1 2 (by decide)⟩

/-- Claim C5: deleting an absent field name returns the original buffer
byte-identical (not an error); deleting a present name returns the canonical
buffer of the struct with exactly that field removed and all others
unchanged. -/
theorem claim_c5 (f : Nat) (sname n : Name) (fields : List (Name × Value))
    (hsort : fields.Pairwise (fun a b => nameLtB a.1 b.1 = true))
    (hwf : wfFs fields = true) (hfuel : fuelFs fields ≤ f) :
    structDelete f (writeValue (.strct sname fields)) n =
      (if fields.any (fun p => decide (p.1 = n)) then
        some (writeValue (.strct sname (fields.filter (fun p => decide (¬ p.1 = n)))))
      else some (writeValue (.strct sname fields))) :=
  structDelete_spec f sname n fields hsort hwf hfuel

/-- Witness for C5: deleting the absent name "b" from a one-field struct. -/
theorem claim_c5_witness :
    wfFs [([97], Value.bool true)] = true ∧
    structDelete 3 (writeValue (.strct [] [([97], .bool true)])) [98] =
      (if [([97], Value.bool true)].any (fun p => decide (p.1 = [98])) then
        some (writeValue (.strct []
          ([([97], Value.bool true)].filter (fun p => decide (¬ p.1 = [98])))))
      else some (writeValue (.strct [] [([97], .bool true)]))) :=
  ⟨by decide, claim_c5 3 [] [98] [([97], .bool true)] (by decide) (by decide) (by decide)⟩

/-- Claim C6 (amended): for every nonempty input of Unicode scalar values,
EscapeStructField produces a name accepted by IsValidStructFieldName, and
returns any already-valid marker-free input unchanged. (The original
every-input claim fails on the empty string, see the counterexample.) -/
theorem claim_c6 (input : List Nat) (hne : input ≠ [])
    (hc : ∀ c ∈ input, c < 1114112) :
    IsValidStructFieldName (EscapeStructField input) = true ∧
    (IsValidStructFieldName input = true → input.contains escMarker = false →
      EscapeStructField input = input) := by
  constructor
  · rw [EscapeStructField]
    by_cases hg : (!input.contains escMarker && IsValidStructFieldName input) = true
    · rw [if_pos hg]
      rw [Bool.and_eq_true] at hg
      exact hg.2
    · rw [if_neg hg]
      exact escapeField_valid input hne hc
  · intro hv hm
    have hg : (!input.contains escMarker && IsValidStructFieldName input) = true := by
      rw [hm, hv]
      rfl
    rw [EscapeStructField, if_pos hg]

/-- Counterexample to C6 as stated: the empty input escapes to the empty
string, which the validator rejects. -/
theorem claim_c6_counterexample :
    EscapeStructField [] = [] ∧ IsValidStructFieldName (EscapeStructField []) = false := by
  exact ⟨rfl, rfl⟩

/-- Witness for C6 on the spec's example "a b". -/
theorem claim_c6_witness :
    ([97, 32, 98] : List Nat) ≠ [] ∧
    (IsValidStructFieldName (EscapeStructField [97, 32, 98]) = true ∧
    (IsValidStructFieldName [97, 32, 98] = true →
      ([97, 32, 98] : List Nat).contains escMarker = false →
      EscapeStructField [97, 32, 98] = [97, 32, 98])) :=
  ⟨by decide, claim_c6 [97, 32, 98] (by decide) (by decide)⟩

/-- Claim C7: readMetaSequence stores, for every tuple, the key derived from
the decoded boundary value: the target hash directly when that value is a
Ref, the value itself otherwise. The boundary values are decoded with the
source readValue (readValueL, whose flat-List branch runs the lazy offset
scan); the boundaries are required to contain no meta-sequence node, the
domain on which that scan is exact (boundary keys are last elements of leaf
chunks). -/
theorem claim_c7 (f : Nat) (ts : List MetaTuple) (rest : Bytes)
    (hwf : wfMTs ts = true) (hnm : noMetaMTs ts = true) (hfuel : fuelMTs ts ≤ f) :
    readMetaSequenceK f (writeCount ts.length ++ writeMetaTuples ts ++ rest) =
      some (ts.map decodedTuple, rest) ∧
    (∀ h t height b n, decodedTuple (.mk h t height b n) = (.ref h t height, metaKeyOf b, n)) ∧
    (∀ hb tb hgtb, metaKeyOf (.ref hb tb hgtb) = .byHash hb) ∧
    (∀ v : Value, (∀ hb tb hgtb, v ≠ .ref hb tb hgtb) → metaKeyOf v = .byValue v) := by
  refine ⟨readMetaSequenceK_spec f ts rest hwf hnm hfuel, fun h t height b n => rfl,
    fun hb tb hgtb => rfl, fun v hv => ?_⟩
  cases v with
  | ref hb tb hgtb => exact absurd rfl (hv hb tb hgtb)
  | bool b => rfl
  | number i j => rfl
  | str s => rfl
  | blobLeaf b => rfl
  | blobMeta level ts2 => rfl
  | listLeaf vs => rfl
  | listMeta level ts2 => rfl
  | mapLeaf es => rfl
  | mapMeta level ts2 => rfl
  | setLeaf vs => rfl
  | setMeta level ts2 => rfl
  | strct nm fs => rfl
  | type t => rfl

/-- Witness for C7 on a one-tuple meta sequence whose boundary is a Bool. -/
theorem claim_c7_witness :
    wfMTs [MetaTuple.mk 0 (.prim .Bool) 1 (.bool true) 1] = true ∧
    noMetaMTs [MetaTuple.mk 0 (.prim .Bool) 1 (.bool true) 1] = true ∧
    readMetaSequenceK 10 (writeCount 1 ++
        writeMetaTuples [MetaTuple.mk 0 (.prim .Bool) 1 (.bool true) 1] ++ []) =
      some ([MetaTuple.mk 0 (.prim .Bool) 1 (.bool true) 1].map decodedTuple, []) :=
  ⟨by decide, by decide, (claim_c7 10 [MetaTuple.mk 0 (.prim .Bool) 1 (.bool true) 1] []
    (by decide) (by decide) (by decide)).1⟩

/-- Claim C8: PARTLY REFUTED. An empty or entirely unknown Cycle name does
fail fatally (conjuncts 1 and 2, over the source readTypeInnerS), but the
source's seenStructs map persists after a nested struct completes, so a
Cycle can resolve to a completed sibling struct, not only to an enclosing
one: conjunct 3 parses Struct A {f1: Struct B {}, f2: Cycle B}, where the
Cycle names the already-closed sibling B, without failing; conjunct 4 shows
the spec's enclosing-only rule (the scoped readType) rejects those very
bytes. -/
theorem claim_c8 :
    (∀ (f : Nat) (seen : List Name) (rest : Bytes),
      readTypeInnerS (f + 1) seen (NomsKind.Cycle.tag :: (writeString [] ++ rest)) = none) ∧
    (∀ (f : Nat) (seen : List Name) (name : Name) (rest : Bytes),
      readTypeInnerS (f + 1) seen (NomsKind.Cycle.tag :: (writeString name ++ rest)) =
        if name = [] then none
        else if name ∈ seen then some (NType.cycle name, seen, rest) else none) ∧
    readTypeS 10 (writeType (.strct [65] (zipFields [[102, 49], [102, 50]]
        [.strct [66] (zipFields [] [] []), .cycle [66]] [false, false]))) =
      some (.strct [65] (zipFields [[102, 49], [102, 50]]
        [.strct [66] (zipFields [] [] []), .cycle [66]] [false, false]), [[66], [65]], []) ∧
    readType 10 (writeType (.strct [65] (zipFields [[102, 49], [102, 50]]
        [.strct [66] (zipFields [] [] []), .cycle [66]] [false, false]))) = none := by
  refine ⟨?_, ?_, ?_, ?_⟩
  · intro f seen rest
    simp [readTypeInnerS, readKind_tag, readString_writeString]
  · intro f seen name rest
    simp only [readTypeInnerS, readKind_tag, readString_writeString]
  · exact rfl
  · exact rfl

/-- Claim C9: REFUTED. For the flat list [interior-node value, Bool true],
the skip-only offset scan under-counts the first element's span (it omits
the tuple's leaf count byte), so the recorded offsets are [3, 31] although
element 1 starts at byte 32 (conjunct 3: decoding at 32 yields Bool true);
getItem(1) therefore decodes Number 0 from the stale byte instead of the
element, even though it does restore the cursor (here 7). -/
theorem claim_c9 :
    readValue 20 (writeValue (.listLeaf
        [.listMeta 1 [.mk 0 (.prim .Bool) 0 (.bool true) 1], .bool true])) =
      some (.listLeaf [.listMeta 1 [.mk 0 (.prim .Bool) 0 (.bool true) 1], .bool true], []) ∧
    (readListLeafSequenceL 20 (writeValue (.listLeaf
        [.listMeta 1 [.mk 0 (.prim .Bool) 0 (.bool true) 1], .bool true])) 2).map
        (fun p => (p.1.offsets, p.1.endPos, p.2)) = some ([3, 31], 34, 34) ∧
    readValue 20 ((writeValue (.listLeaf
        [.listMeta 1 [.mk 0 (.prim .Bool) 0 (.bool true) 1], .bool true])).drop 32) =
      some (.bool true, []) ∧
    (match readListLeafSequenceL 20 (writeValue (.listLeaf
        [.listMeta 1 [.mk 0 (.prim .Bool) 0 (.bool true) 1], .bool true])) 2 with
     | some (ll, _) => lazyGetItem 20 ll 7 1
     | none => none) = some (.number 0 1, 7) := by
  exact ⟨rfl, rfl, rfl, rfl⟩

/-- Claim C10: REFUTED. On the well-formed encoded meta sequence below,
readValue consumes the whole encoding (leaving the sentinel [99]) but
skipValue stops before the tuple's leaf count and leaves [7, 99]: the skip
path consumes a strictly shorter span than the read path. -/
theorem claim_c10 :
    readValue 20 (writeValue (.listMeta 1 [.mk 0 (.prim .Bool) 0 (.bool true) 7]) ++ [99]) =
      some (.listMeta 1 [.mk 0 (.prim .Bool) 0 (.bool true) 7], [99]) ∧
    skipValue 20 (writeValue (.listMeta 1 [.mk 0 (.prim .Bool) 0 (.bool true) 7]) ++ [99]) =
      some [7, 99] ∧
    wfV (.listMeta 1 [.mk 0 (.prim .Bool) 0 (.bool true) 7]) = true := by
  exact ⟨rfl, rfl, rfl⟩

end Noms
